import Mathlib

/-!
Verification development for the librarian documentation indexer.

The TypeScript sources are shallowly embedded in Lean: JavaScript strings
become `List Char` (so that every operation is structural and computable by
the kernel), JavaScript numbers used for scores become `ℚ`, SQL tables
become lists of row structures, and the imperative loops become structural
recursions that thread the mutable state explicitly.  Each embedded
definition carries a comment naming the source function it translates.
-/

deriving instance DecidableEq for Except

namespace Librarian

/-- JavaScript strings are embedded as lists of characters. -/
abbrev Str := List Char

/-! ## Generic string helpers (JavaScript built-ins used by the sources) -/

/-- JavaScript `String.prototype.split` with a single-character separator:
splits at every occurrence, keeping empty pieces. -/
def splitOnChar (sep : Char) : Str → List Str
  | [] => [[]]
  | c :: rest =>
    let tail := splitOnChar sep rest
    if c = sep then [] :: tail
    else match tail with
      | [] => [[c]]
      | piece :: more => (c :: piece) :: more

/-- `Array.prototype.join("\n")` / template concatenation with newlines. -/
def joinLines : List Str → Str
  | [] => []
  | [l] => l
  | l :: rest => l ++ '\n' :: joinLines rest

/-- Whitespace test backing JavaScript `trim` and `\s` on the ASCII fragment. -/
def isWs (c : Char) : Bool := c = ' ' ∨ c = '\t' ∨ c = '\n' ∨ c = '\r'

/-- JavaScript `String.prototype.trimStart` (ASCII whitespace fragment). -/
def trimStart (s : Str) : Str := s.dropWhile isWs

/-- JavaScript `String.prototype.trimEnd` (ASCII whitespace fragment). -/
def trimEnd (s : Str) : Str := (s.reverse.dropWhile isWs).reverse

/-- JavaScript `String.prototype.trim` (ASCII whitespace fragment). -/
def trimStr (s : Str) : Str := trimEnd (trimStart s)

/-- JavaScript `String.prototype.toLowerCase` (ASCII fragment). -/
def toLowerStr (s : Str) : Str := s.map Char.toLower

/-- JavaScript `String.prototype.endsWith`. -/
def endsWithStr (suffix s : Str) : Bool := decide (suffix <:+ s)

/-- JavaScript `String.prototype.includes`: naive substring containment. -/
def containsSeq (pat : Str) : Str → Bool
  | [] => decide (pat = [])
  | c :: rest => decide (pat <+: (c :: rest)) || containsSeq pat rest

/-- Worker of `replaceRunsBySpace`: `inRun` records whether the previous
character belonged to the class, so a maximal run emits one space. -/
def replaceRunsBySpaceGo (p : Char → Bool) : Bool → Str → Str
  | _, [] => []
  | inRun, c :: rest =>
    if p c then
      if inRun then replaceRunsBySpaceGo p true rest
      else ' ' :: replaceRunsBySpaceGo p true rest
    else c :: replaceRunsBySpaceGo p false rest

/-- Replace every maximal run of characters satisfying `p` by a single
space: embeds `replace(/[class]+/g, " ")`. -/
def replaceRunsBySpace (p : Char → Bool) (s : Str) : Str :=
  replaceRunsBySpaceGo p false s

/-- JavaScript `slice(0, -n)` on strings: drop the last `n` characters. -/
def dropLastN (n : Nat) (s : Str) : Str := s.take (s.length - n)

/-- Maximal digit run at the head of a string together with the remainder. -/
def digitRun (s : Str) : Str × Str := (s.takeWhile Char.isDigit, s.dropWhile Char.isDigit)

/-- JavaScript `Number` on a non-empty digit string. -/
def natOfDigits (s : Str) : Nat := s.foldl (fun n c => 10 * n + (c.toNat - 48)) 0

/-! ## chunk/utils.ts -/

/-- `approxTokens` (chunk/utils.ts): `Math.max(1, Math.ceil(text.length / 4))`. -/
def approxTokens (text : Str) : Nat := max 1 ((text.length + 3) / 4)

/-! ## ingest/github/versioning.ts -/

/-- A parsed semver-like tag (`SemverTag` in versioning.ts). -/
structure SemverTag where
  raw : Str
  major : Nat
  minor : Nat
  patch : Nat
  deriving DecidableEq, Repr

/-- Match of `(\d+)\.(\d+)\.(\d+)` anchored at the head of the string. -/
def semverAt (s : Str) : Option (Nat × Nat × Nat) :=
  let (d1, r1) := digitRun s
  if d1 = [] then none else
  match r1 with
  | '.' :: r2 =>
    let (d2, r3) := digitRun r2
    if d2 = [] then none else
    match r3 with
    | '.' :: r4 =>
      let (d3, _) := digitRun r4
      if d3 = [] then none else some (natOfDigits d1, natOfDigits d2, natOfDigits d3)
    | _ => none
  | _ => none

/-- Leftmost match of `(\d+)\.(\d+)\.(\d+)`, as JavaScript `match` finds it. -/
def findSemver : Str → Option (Nat × Nat × Nat)
  | [] => none
  | c :: rest =>
    match semverAt (c :: rest) with
    | some v => some v
    | none => findSemver rest

/-- `parseSemverTag` (versioning.ts). -/
def parseSemverTag (tag : Str) : Option SemverTag :=
  let cleaned := trimStr tag
  match findSemver cleaned with
  | none => none
  | some (ma, mi, pa) => some ⟨cleaned, ma, mi, pa⟩

/-- `compareSemverDesc` (versioning.ts): a JavaScript sort comparator. -/
def compareSemverDesc (a b : SemverTag) : Int :=
  if a.major ≠ b.major then (b.major : Int) - (a.major : Int)
  else if a.minor ≠ b.minor then (b.minor : Int) - (a.minor : Int)
  else (b.patch : Int) - (a.patch : Int)

/-- `parseSeriesLabel` (versioning.ts): `^v?(\d+)\.x$` case-insensitive. -/
def parseSeriesLabel (label : Str) : Option Nat :=
  let t := trimStr label
  let t1 := match t with
    | c :: rest => if c = 'v' ∨ c = 'V' then rest else t
    | [] => t
  let (d, r) := digitRun t1
  if d = [] then none
  else match r with
    | ['.', c] => if c = 'x' ∨ c = 'X' then some (natOfDigits d) else none
    | _ => none

/-- `pickLatestForSeries` (versioning.ts): keep semver tags of the requested
major and return the greatest under the descending comparator. JavaScript
`Array.prototype.sort` is a stable sort; with the consistent comparator
`compareSemverDesc` its result is the unique stable sorted permutation,
which `List.insertionSort` with the non-strict relation computes. -/
def pickLatestForSeries (tags : List Str) (seriesLabel : Str) : Option Str :=
  match parseSeriesLabel seriesLabel with
  | none => none
  | some major =>
    let stable := ((tags.map parseSemverTag).filterMap id).filter (fun t => t.major = major)
    if stable.isEmpty then none
    else
      match stable.insertionSort (fun a b => compareSemverDesc a b ≤ 0) with
      | [] => none
      | t :: _ => some t.raw

/-- Test of `^\d+\.x$` case-insensitive (used by `extractMajorVersion`). -/
def majorXTest (s : Str) : Bool :=
  let (d, r) := digitRun s
  decide (d ≠ []) && (match r with
    | ['.', c] => c = 'x' ∨ c = 'X'
    | _ => false)

/-- Match of `(\d+)\.\d+` anchored at the head: the captured digit run. -/
def majorMinorAt (s : Str) : Option Str :=
  let (d1, r1) := digitRun s
  if d1 = [] then none else
  match r1 with
  | '.' :: c :: _ => if c.isDigit then some d1 else none
  | _ => none

/-- Leftmost match of `(\d+)\.\d+`. -/
def findMajorMinor : Str → Option Str
  | [] => none
  | c :: rest =>
    match majorMinorAt (c :: rest) with
    | some d => some d
    | none => findMajorMinor rest

/-- `extractMajorVersion` (versioning.ts). -/
def extractMajorVersion (tag : Str) : Str :=
  let trimmed := trimStr tag
  if majorXTest trimmed then trimmed
  else match findMajorMinor trimmed with
    | some d => d ++ ['.', 'x']
    | none => trimmed

/-! ## ingest/github/download.ts — size guards of fetchWithGuards -/

/-- `DEFAULT_MAX_BYTES` (download.ts): `500 * 1024 * 1024`. -/
def DEFAULT_MAX_BYTES : Nat := 500 * 1024 * 1024

/-- The streaming loop of `fetchWithGuards`: body chunks are abstracted to
their byte lengths (`value.byteLength` is all the guard reads); the
accumulated `loaded` counter raises as soon as it strictly exceeds
`maxBytes`. Returns the final byte total on success. -/
def streamGuard (maxBytes : Nat) : Nat → List Nat → Except Str Nat
  | loaded, [] => .ok loaded
  | loaded, sz :: rest =>
    let loaded' := loaded + sz
    if loaded' > maxBytes then .error ("Archive exceeded limit".data)
    else streamGuard maxBytes loaded' rest

/-- A `2xx` HTTP response, abstracted to the fields the size guard reads:
the `content-length` header (`none` when absent or empty, since an empty
header string is falsy) and the body chunk byte lengths. -/
structure OkResponse where
  contentLength : Option Nat
  chunkSizes : List Nat

/-- The size-guard portion of `fetchWithGuards` (download.ts lines 117-141):
reject when the `content-length` header strictly exceeds `maxBytes`, then
stream the body rejecting as soon as the byte total strictly exceeds
`maxBytes`. -/
def fetchSizeGuard (maxBytes : Nat) (res : OkResponse) : Except Str Nat :=
  match res.contentLength with
  | some n =>
    if n > maxBytes then .error ("Archive exceeds limit".data)
    else streamGuard maxBytes 0 res.chunkSizes
  | none => streamGuard maxBytes 0 res.chunkSizes

/-! ## ingest/github/sync.ts -/

/-- Case-insensitive hex digit (`[0-9a-f]` with the `i` flag). -/
def isHexDigitCI (c : Char) : Bool :=
  c.isDigit || ('a' ≤ c && c ≤ 'f') || ('A' ≤ c && c ≤ 'F')

/-- Test of `^[0-9a-f]{7,40}$` case-insensitive. -/
def isHexSha (s : Str) : Bool :=
  decide (7 ≤ s.length) && decide (s.length ≤ 40) && s.all isHexDigitCI

/-- JavaScript truthiness of a string-or-undefined value. -/
def truthy : Option Str → Bool
  | some s => decide (s ≠ [])
  | none => false

/-- `parseShaFromTopLevel` (sync.ts): trailing hex after the last dash of
the archive's top-level directory name. -/
def parseShaFromTopLevel (topLevel : Option Str) : Option Str :=
  match topLevel with
  | none => none
  | some t =>
    if t = [] then none
    else
      match (splitOnChar '-' t).getLast? with
      | none => none
      | some maybe => if maybe ≠ [] ∧ isHexSha maybe then some maybe else none

/-- `parseShaFromUrl` (sync.ts): hex in the URL tail after stripping a
case-insensitive `.zip` suffix. -/
def parseShaFromUrl (url : Str) : Option Str :=
  let tail := ((splitOnChar '/' url).getLast?).getD []
  let trimmed := if endsWithStr (".zip".data) (toLowerStr tail) then dropLastN 4 tail else tail
  if trimmed ≠ [] ∧ isHexSha trimmed then some trimmed else none

/-- Input of `resolveCommitSha` (sync.ts). -/
structure ResolveShaInput where
  headerSha : Option Str
  url : Str
  topLevelDir : Option Str
  previous : Option Str

/-- `resolveCommitSha` (sync.ts): header SHA when it is a truthy hex string,
else top-level directory, else URL tail, else the previously known SHA. -/
def resolveCommitSha (i : ResolveShaInput) : Option Str :=
  let headerOk : Option Str :=
    match i.headerSha with
    | some h => if h ≠ [] ∧ isHexSha h then some h else none
    | none => none
  match headerOk with
  | some h => some h
  | none =>
    match parseShaFromTopLevel i.topLevelDir with
    | some s => some s
    | none =>
      match parseShaFromUrl i.url with
      | some s => some s
      | none => i.previous

/-- The resolution order stated by the spec, as a candidate chain: first
defined value among header SHA, directory SHA, URL SHA, previous SHA. -/
def resolveShaSpecChain (i : ResolveShaInput) : Option Str :=
  [match i.headerSha with
    | some h => if h ≠ [] ∧ isHexSha h then some h else none
    | none => none,
   parseShaFromTopLevel i.topLevelDir,
   parseShaFromUrl i.url,
   i.previous].findSome? id

/-- The part of the state of one `syncGithubRepo` run that decides its
status: the download outcome abstraction and the inputs. -/
structure SyncState where
  downloadNotModified : Bool
  downloadSha : Option Str
  downloadUrl : Str
  topLevelDir : Option Str
  previousSha : Option Str
  force : Bool

/-- Result of `syncGithubRepo`, abstracted to status, commit SHA and the
produced file list (`not-modified` carries no files). -/
inductive SyncOutcome where
  | notModified (commitSha : Option Str)
  | ok (commitSha : Option Str) (files : List Str)
  deriving DecidableEq

/-- The status logic of `syncGithubRepo` (sync.ts lines 47-126): an
etag-not-modified download short-circuits; otherwise the commit SHA is
resolved and, when truthy and equal to a truthy previous SHA with `force`
unset, the run ends `not-modified` before any file is listed. -/
def syncGithubRepoModel (st : SyncState) (files : List Str) : SyncOutcome :=
  if st.downloadNotModified then .notModified st.previousSha
  else
    let commitSha := resolveCommitSha ⟨st.downloadSha, st.downloadUrl, st.topLevelDir, st.previousSha⟩
    if truthy commitSha && truthy st.previousSha && commitSha == st.previousSha && !st.force
    then .notModified commitSha
    else .ok commitSha files

/-! ## chunk/utils.ts (string helpers of the chunker) -/

/-- Join a list of strings with a separator (Array.prototype.join). -/
def joinSep (sep : Str) : List Str → Str
  | [] => []
  | [x] => x
  | x :: rest => x ++ sep ++ joinSep sep rest

/-- `[a, b].filter(Boolean).join("\n\n")`. -/
def joinTwoWithBlank (a b : Str) : Str :=
  if a = [] then b else if b = [] then a else a ++ ('\n' :: '\n' :: b)

/-- `buildPreview` (chunk/utils.ts): collapse whitespace runs, trim, and
clip to the limit with a three-dot ellipsis. -/
def buildPreview (text : Str) (limit : Nat) : Str :=
  let cleaned := trimStr (replaceRunsBySpace isWs text)
  if cleaned = [] then []
  else if cleaned.length ≤ limit then cleaned
  else cleaned.take (limit - 3) ++ ("...".data)

/-- `buildBreadcrumb` (chunk/utils.ts): trim segments, drop empties and
immediate repeats, join with " > ". -/
def buildBreadcrumb (segments : List (Option Str)) : Str :=
  let filtered := segments.foldl (fun acc seg =>
    let trimmed := trimStr (seg.getD [])
    if trimmed = [] then acc
    else match acc.getLast? with
      | some lastSeg => if lastSeg = trimmed then acc else acc ++ [trimmed]
      | none => [trimmed]) []
  joinSep (" > ".data) filtered

/-- One line of `/^(?:[ ]{4}|\t).+/m`: four spaces or a tab, then at least
one more character. -/
def isIndentedCodeLine (line : Str) : Bool :=
  match line with
  | ' ' :: ' ' :: ' ' :: ' ' :: rest => decide (rest ≠ [])
  | '\t' :: rest => decide (rest ≠ [])
  | _ => false

/-- Head match of `(pre|code)[\s>]` after an opening angle bracket. -/
def isTagOpen (tag : Str) (s : Str) : Bool :=
  decide (toLowerStr (s.take tag.length) = tag) &&
    (match s.drop tag.length with
      | c :: _ => isWs c || decide (c = '>')
      | [] => false)

/-- Occurrence of `/<(pre|code)[\s>]/i` anywhere in the content. -/
def containsPreCodeTag : Str → Bool
  | [] => false
  | c :: rest =>
    (decide (c = '<') && (isTagOpen ("pre".data) rest || isTagOpen ("code".data) rest))
      || containsPreCodeTag rest

/-- `containsCodeSnippet` (chunk/utils.ts): fenced block, indented code
line, or a pre/code HTML tag. -/
def containsCodeSnippet (content : Str) : Bool :=
  if containsSeq ("```".data) content || containsSeq ("~~~".data) content then true
  else if (splitOnChar '\n' content).any isIndentedCodeLine then true
  else if containsPreCodeTag content then true
  else false

/-- `wrapCodeFence` (chunk/utils.ts). -/
def wrapCodeFence (code : Str) (language : Option Str) : Str :=
  let label := match language with
    | some l => if l = [] then [] else l
    | none => []
  ("```".data) ++ label ++ '\n' :: (trimEnd code) ++ '\n' :: ("```".data)

/-- `clampText` (chunk/utils.ts). -/
def clampText (text : Str) (maxChars : Nat) : Str :=
  if text.length ≤ maxChars then text else trimEnd (text.take maxChars)

/-! ## chunk/markdown.ts -/

def MAX_CHUNK_TOKENS : Nat := 600
def PREFERRED_MIN_TOKENS : Nat := 200
def MIN_CHUNK_TOKENS : Nat := 40
def OVERLAP_TOKENS : Nat := 60
def PREVIEW_CHAR_LIMIT : Nat := 220

/-- A chunk draft (chunk/types.ts), line numbers as JavaScript integers. -/
structure ChunkDraft where
  content : Str
  tokenCount : Nat
  chunkType : Str
  contextPath : Str
  title : Str
  preview : Str
  lineStart : Option Int := none
  lineEnd : Option Int := none
  charStart : Option Int := none
  charEnd : Option Int := none
  language : Option Str := none
  symbolName : Option Str := none
  symbolType : Option Str := none
  symbolId : Option Str := none
  symbolPartIndex : Option Int := none
  symbolPartCount : Option Int := none
  deriving DecidableEq, Repr

/-- `makeChunk` (chunk/markdown.ts lines 245-263). -/
def makeChunk (content breadcrumb title : Str) (startLine endLine : Int)
    (chunkType : Str) : ChunkDraft :=
  { content := content, tokenCount := approxTokens content, chunkType := chunkType,
    contextPath := breadcrumb, title := title,
    preview := buildPreview content PREVIEW_CHAR_LIMIT,
    lineStart := some startLine, lineEnd := some endLine }

/-- `cleanLines` (chunk/markdown.ts): strip trailing whitespace per line. -/
def cleanLines (lines : List Str) : List Str := lines.map trimEnd

/-- Worker for `takeOverlapLines`, walking the reversed line list. -/
def takeOverlapAux (overlapTokens : Nat) : List Str → Nat → List Str → List Str
  | [], _, acc => acc
  | line :: rest, tokens, acc =>
    let acc' := line :: acc
    let tokens' := tokens + approxTokens line
    if tokens' ≥ overlapTokens then acc'
    else takeOverlapAux overlapTokens rest tokens' acc'

/-- `takeOverlapLines` (chunk/markdown.ts): last lines totalling at least
the overlap token budget. -/
def takeOverlapLines (lines : List Str) (overlapTokens : Nat) : List Str :=
  takeOverlapAux overlapTokens lines.reverse 0 []

/-- `clampToTokens` (chunk/markdown.ts). -/
def clampToTokens (text : Str) (limit : Nat) : Str :=
  if approxTokens text ≤ limit then text
  else trimEnd (text.take (max 1 (limit * 4)))

/-- The while loop of `enforceTokenLimit` (chunk/markdown.ts lines
157-175), returning the emitted chunks and the leftover `current`
buffer. -/
def etlLoop (breadcrumb title chunkType : Str) (startLine : Int) :
    List Str → Int → List Str → List ChunkDraft → (List ChunkDraft × List Str)
  | [], _, current, chunks => (chunks, current)
  | line :: rest, lineCursor, current, chunks =>
    let current1 := current ++ [line]
    let currentTokens := approxTokens (joinLines current1)
    if currentTokens ≥ MAX_CHUNK_TOKENS then
      let chunkText := trimStr (joinLines current1)
      let chunks1 :=
        if approxTokens chunkText ≥ MIN_CHUNK_TOKENS then
          chunks ++ [makeChunk chunkText breadcrumb title
            (startLine + lineCursor - (current1.length : Int) + 1)
            (startLine + lineCursor) chunkType]
        else chunks
      etlLoop breadcrumb title chunkType startLine rest (lineCursor + 1)
        (takeOverlapLines current1 OVERLAP_TOKENS) chunks1
    else
      etlLoop breadcrumb title chunkType startLine rest (lineCursor + 1) current1 chunks

/-- The merge loop of `mergeSmallChunks` (chunk/markdown.ts lines
193-225): a buffer below 200 tokens absorbs its successor while the
combined text stays within 600 tokens. -/
def mergeSmallLoop : ChunkDraft → List ChunkDraft → List ChunkDraft
  | buffer, [] => [buffer]
  | buffer, chunk :: rest =>
    let combined := trimStr (buffer.content ++ '\n' :: '\n' :: chunk.content)
    let tokens := approxTokens combined
    if buffer.tokenCount < PREFERRED_MIN_TOKENS ∧ tokens ≤ MAX_CHUNK_TOKENS then
      mergeSmallLoop
        { buffer with
          content := combined
          tokenCount := tokens
          preview := buildPreview combined PREVIEW_CHAR_LIMIT
          lineEnd := (match chunk.lineEnd with
            | some e => some e
            | none => buffer.lineEnd) } rest
    else buffer :: mergeSmallLoop chunk rest

/-- `mergeSmallChunks` (chunk/markdown.ts). -/
def mergeSmallChunks (chunks : List ChunkDraft) : List ChunkDraft :=
  if chunks.length ≤ 1 then chunks
  else match chunks with
    | [] => []
    | c :: rest => mergeSmallLoop c rest

/-- `enforceTokenLimit` (chunk/markdown.ts lines 139-191): contents within
600 tokens pass through as a single chunk; longer contents are split
line-by-line, emitting once the running count reaches 600 and keeping a
roughly 60-token overlap, dropping pieces under 40 tokens, clamping to a
single chunk when nothing was kept, and finally merging small chunks. -/
def enforceTokenLimit (content breadcrumb : Str) (path : List Str)
    (startLine endLine : Int) (chunkType : Str) : List ChunkDraft :=
  let tokenCount := approxTokens content
  let title := (path.getLast?).getD ("Document".data)
  if tokenCount ≤ MAX_CHUNK_TOKENS then
    [makeChunk content breadcrumb title startLine endLine chunkType]
  else
    let rawLines := splitOnChar '\n' content
    let loopRes := etlLoop breadcrumb title chunkType startLine rawLines 0 [] []
    let chunks1 :=
      if loopRes.2 ≠ [] then
        let chunkText := trimStr (joinLines loopRes.2)
        if approxTokens chunkText ≥ MIN_CHUNK_TOKENS then
          loopRes.1 ++ [makeChunk chunkText breadcrumb title
            (endLine - (loopRes.2.length : Int) + 1) endLine chunkType]
        else loopRes.1
      else loopRes.1
    let chunks2 :=
      if chunks1 = [] ∧ tokenCount > 0 then
        [makeChunk (clampToTokens content MAX_CHUNK_TOKENS) breadcrumb title
          startLine endLine chunkType]
      else chunks1
    mergeSmallChunks chunks2

/-- A chunk draft as the token limiter emits them: at least the minimum
token count, a token count matching the content, and whitespace-free
endpoints. -/
def GoodChunk (c : ChunkDraft) : Prop :=
  MIN_CHUNK_TOKENS ≤ c.tokenCount ∧ c.tokenCount = approxTokens c.content ∧
    (∀ d, c.content.head? = some d → isWs d = false) ∧
    (∀ d, c.content.getLast? = some d → isWs d = false)

/-- Heading tree node (`HeadingNode` in chunk/markdown.ts): `endL` embeds
the `end` field. -/
inductive HeadingNode : Type where
  | mk (level : Nat) (title : Str) (start : Nat) (endL : Nat) (children : List HeadingNode)

/-- Match of `/^(#{1,5})\s+(.*)$/` on one line: the heading level and the
rest of the line after the hashes (the captured group up to trimming). -/
def parseHeading (line : Str) : Option (Nat × Str) :=
  let n := (line.takeWhile (fun c => decide (c = '#'))).length
  if 1 ≤ n ∧ n ≤ 5 then
    match line.drop n with
    | c :: _ => if isWs c then some (n, trimStr (line.drop n)) else none
    | [] => none
  else none

/-- An open (not yet closed) node of the heading stack. -/
structure OpenNode where
  level : Nat
  title : Str
  start : Nat
  children : List HeadingNode

/-- Closing an open node at line index `idx` attaches it as the last child
of the node below it on the stack. -/
def closeNode (idx : Nat) (top next : OpenNode) : OpenNode :=
  { next with children := next.children ++ [.mk top.level top.title top.start idx top.children] }

/-- Worker of `popWhile` with a fuel bound (the stack length shrinks by
one per pop, so the initial length is always enough fuel). -/
def popWhileFuel (idx level : Nat) : Nat → List OpenNode → List OpenNode
  | fuel + 1, top :: next :: rest =>
    if level ≤ top.level then popWhileFuel idx level fuel (closeNode idx top next :: rest)
    else top :: next :: rest
  | _, stack => stack

/-- The `while (stack.length > 0 && top.level >= level)` pop loop. The
root (level 1) is never popped, because incoming levels are at least 2;
the singleton-stack guard is therefore never the deciding case. -/
def popWhile (idx level : Nat) (stack : List OpenNode) : List OpenNode :=
  popWhileFuel idx level stack.length stack

/-- The line scan of `collectHeadings` (chunk/markdown.ts lines 65-102).
A level-1 heading only retitles the root, which no output reads. -/
def collectHeadingsGo : Nat → List Str → List OpenNode → List OpenNode
  | _, [], stack => stack
  | idx, line :: rest, stack =>
    match parseHeading line with
    | none => collectHeadingsGo (idx + 1) rest stack
    | some (level, title0) =>
      let title := if title0 = [] then ("Section".data) else title0
      if level = 1 then collectHeadingsGo (idx + 1) rest stack
      else
        collectHeadingsGo (idx + 1) rest
          (⟨level, title, idx + 1, []⟩ :: popWhile idx level stack)

/-- Worker of `closeAll` with a fuel bound (one pop per unit of fuel). -/
def closeAllFuel (endIdx : Nat) : Nat → List OpenNode → List HeadingNode
  | _, [] => []
  | _, [root] => root.children
  | 0, _ :: _ :: _ => []
  | fuel + 1, top :: next :: rest => closeAllFuel endIdx fuel (closeNode endIdx top next :: rest)

/-- The final pop loop of `collectHeadings`: close everything at the line
count and return the root's children. -/
def closeAll (endIdx : Nat) (stack : List OpenNode) : List HeadingNode :=
  closeAllFuel endIdx stack.length stack

/-- `collectHeadings` (chunk/markdown.ts): headings of levels 2-5 arranged
into a tree under an implicit root. -/
def collectHeadings (lines : List Str) (documentTitle : Str) : List HeadingNode :=
  closeAll lines.length (collectHeadingsGo 0 lines [⟨1, documentTitle, 1, []⟩])

/-- A flattened section (`Section` in chunk/markdown.ts). -/
structure MdSection where
  path : List Str
  start : Nat
  endL : Nat
  hasChildren : Bool

mutual

/-- `flattenHeadingPaths` on one node. -/
def flattenNode : HeadingNode → List Str → List MdSection
  | .mk _level title start endL children, pfx =>
    let path := pfx ++ [title]
    ⟨path, start, endL, !children.isEmpty⟩ ::
      (if children.isEmpty then [] else flattenNodes children path)

/-- `flattenHeadingPaths` (chunk/markdown.ts lines 276-291). -/
def flattenNodes : List HeadingNode → List Str → List MdSection
  | [], _ => []
  | n :: rest, pfx => flattenNode n pfx ++ flattenNodes rest pfx

end

/-- `buildHeadingChunks` (chunk/markdown.ts lines 112-128): leaf sections
become breadcrumbed chunks passed through the token limiter. -/
def buildHeadingChunks (lines : List Str) (headings : List HeadingNode) (pfx : List Str) :
    List ChunkDraft :=
  (flattenNodes headings []).foldl (fun chunks s =>
    if s.hasChildren then chunks
    else
      let slice := cleanLines ((lines.drop (s.start - 1)).take (s.endL - (s.start - 1)))
      let sectionContent := trimStr (joinLines slice)
      if sectionContent = [] then chunks
      else
        let breadcrumb := buildBreadcrumb ((pfx ++ s.path).map some)
        let content := joinTwoWithBlank breadcrumb sectionContent
        chunks ++ enforceTokenLimit content breadcrumb s.path (s.start : Int) (s.endL : Int)
          ("doc".data)) []

/-- `buildFallbackChunks` (chunk/markdown.ts lines 130-137). -/
def buildFallbackChunks (lines : List Str) (title : Str) (pfx : List Str) : List ChunkDraft :=
  let text := trimStr (joinLines (cleanLines lines))
  if text = [] then []
  else
    let breadcrumb := buildBreadcrumb ((pfx ++ [title]).map some)
    let content := joinTwoWithBlank breadcrumb text
    enforceTokenLimit content breadcrumb [title] 1 (lines.length : Int) ("doc".data)

/-- Test of `/^#{2,5}\s/m`: some line opens with two to five hashes
followed by whitespace. -/
def hasNestedHeading (content : Str) : Bool :=
  (splitOnChar '\n' content).any (fun line =>
    let n := (line.takeWhile (fun c => decide (c = '#'))).length
    decide (2 ≤ n) && decide (n ≤ 5) &&
      (match line.drop n with
        | c :: _ => isWs c
        | [] => false))

/-- `tryBuildSingleChunk` (chunk/markdown.ts lines 45-63). -/
def tryBuildSingleChunk (lines : List Str) (title : Str) (pfx : List Str) :
    Option ChunkDraft :=
  let content := trimStr (joinLines (cleanLines lines))
  if content = [] then none
  else if hasNestedHeading content then none
  else if !containsCodeSnippet content then none
  else
    let breadcrumb := buildBreadcrumb ((pfx ++ [title]).map some)
    let fullContent := joinTwoWithBlank breadcrumb content
    if approxTokens fullContent > MAX_CHUNK_TOKENS then none
    else some (makeChunk fullContent breadcrumb title 1 (lines.length : Int) ("doc".data))

/-- `split(/\r?\n/)`: split at newlines, absorbing one carriage return
before each. -/
def splitLinesRN (s : Str) : List Str :=
  (splitOnChar '\n' s).map (fun l =>
    if l.getLast? = some '\r' then l.dropLast else l)

/-- `buildMarkdownChunks` (chunk/markdown.ts lines 10-35). -/
def buildMarkdownChunks (content : Str) (documentTitle : Option Str) (pfx : List Str) :
    List ChunkDraft :=
  let title0 := trimStr (documentTitle.getD ("Document".data))
  let title := if title0 = [] then ("Document".data) else title0
  let lines := splitLinesRN content
  match tryBuildSingleChunk lines title pfx with
  | some single => [single]
  | none =>
    let headings := collectHeadings lines title
    let chunks :=
      if headings.length > 0 then buildHeadingChunks lines headings pfx
      else buildFallbackChunks lines title pfx
    if chunks.length = 0 then buildFallbackChunks lines title pfx else chunks

/-! ## chunk/code.ts — code chunking -/

def TARGET_TOKENS : Nat := 320
def CODE_OVERLAP_LINES : Nat := 8
def MAX_TOKENS : Nat := 1000
def MERGE_COMBINED_MAX_TOKENS : Nat := 800
def MIN_TOKENS : Nat := 50

/-- `CodeChunkResult` (chunk/code.ts lines 98-108). -/
structure CodeChunkResult where
  text : Str
  startLine : Int
  endLine : Int
  symbolName : Option Str := none
  symbolType : Option Str := none
  symbolId : Option Str := none
  partIndex : Option Int := none
  partCount : Option Int := none
  language : Option Str := none
  deriving DecidableEq, Repr

/-- The line loop of `chunkByLinesFallback` (chunk/code.ts lines 297-312),
returning the chunks, the leftover window and its start line. `.slice`
from `max(0, len - 8)` is `.drop (len - 8)` under truncated subtraction. -/
def cblLoop (baseStartLine : Int) (language : Option Str) :
    List Str → Int → Int → List Str → List CodeChunkResult →
      (List CodeChunkResult × List Str × Int)
  | [], _, startLine, current, chunks => (chunks, current, startLine)
  | line :: rest, index, startLine, current, chunks =>
    let current1 := current ++ [line]
    if approxTokens (joinLines current1) ≥ TARGET_TOKENS then
      let endLine := baseStartLine + index
      let newChunk : CodeChunkResult := {
        text := joinLines current1
        startLine := startLine
        endLine := endLine
        language := language }
      let chunks1 := chunks ++ [newChunk]
      let current2 := current1.drop (current1.length - CODE_OVERLAP_LINES)
      cblLoop baseStartLine language rest (index + 1)
        (endLine - (current2.length : Int) + 1) current2 chunks1
    else
      cblLoop baseStartLine language rest (index + 1) startLine current1 chunks

/-- `chunkByLinesFallback` (chunk/code.ts lines 287-324). -/
def chunkByLinesFallback (code : Str) (baseStartLine : Int) (language : Option Str) :
    List CodeChunkResult :=
  let lines := splitOnChar '\n' code
  let res := cblLoop baseStartLine language lines 0 baseStartLine [] []
  if res.2.1.length > 0 then
    let tail : CodeChunkResult := {
      text := joinLines res.2.1
      startLine := res.2.2
      endLine := baseStartLine + (lines.length : Int) - 1
      language := language }
    res.1 ++ [tail]
  else res.1

/-- The line loop of `chunkSymbolLines` (chunk/code.ts lines 236-260),
returning the parts, the leftover window and the window start offset. -/
def cslLoop (baseStartLine : Int) (startRow : Nat) (symbolName : Option Str)
    (symbolType symbolId language : Str) :
    List Str → Int → Int → List Str → List CodeChunkResult →
      (List CodeChunkResult × List Str × Int)
  | [], _, chunkStart, chunkLines, parts => (parts, chunkLines, chunkStart)
  | line :: rest, index, chunkStart, chunkLines, parts =>
    let chunkLines1 := chunkLines ++ [line]
    if approxTokens (joinLines chunkLines1) ≥ TARGET_TOKENS then
      let newPart : CodeChunkResult := {
        text := joinLines chunkLines1
        startLine := baseStartLine + (startRow : Int) + chunkStart
        endLine := baseStartLine + (startRow : Int) + index
        symbolName := symbolName
        symbolType := some symbolType
        symbolId := some symbolId
        partIndex := some ((parts.length : Nat) : Int)
        partCount := some 0
        language := some language }
      let parts1 := parts ++ [newPart]
      let chunkLines2 := chunkLines1.drop (chunkLines1.length - CODE_OVERLAP_LINES)
      cslLoop baseStartLine startRow symbolName symbolType symbolId language rest
        (index + 1) (index - ((chunkLines2.length : Int) - 1)) chunkLines2 parts1
    else
      cslLoop baseStartLine startRow symbolName symbolType symbolId language rest
        (index + 1) chunkStart chunkLines1 parts

/-- `chunkSymbolLines` (chunk/code.ts lines 216-285). The tree-sitter node
is abstracted by its `startPosition.row`/`endPosition.row` and its symbol
identification, external inputs of this routine. -/
def chunkSymbolLines (startRow endRow : Nat) (lines : List Str) (baseStartLine : Int)
    (symbolName : Option Str) (symbolType symbolId language : Str) :
    List CodeChunkResult :=
  let nodeLines := (lines.drop startRow).take (endRow + 1 - startRow)
  if nodeLines.length = 0 then []
  else
    let res := cslLoop baseStartLine startRow symbolName symbolType symbolId language
      nodeLines 0 0 [] []
    let parts :=
      if res.2.1.length > 0 then
        let tail : CodeChunkResult := {
          text := joinLines res.2.1
          startLine := baseStartLine + (startRow : Int) + res.2.2
          endLine := baseStartLine + (startRow : Int) + (nodeLines.length : Int) - 1
          symbolName := symbolName
          symbolType := some symbolType
          symbolId := some symbolId
          partIndex := some (res.1.length : Int)
          partCount := some 0
          language := some language }
        res.1 ++ [tail]
      else res.1
    if parts.length > 1 then
      parts.map (fun p => { p with partCount := some (parts.length : Int) })
    else parts

/-- The loop of `splitLargeCodeChunk` (chunk/code.ts lines 423-439). -/
def slcLoop : List Str → List Str → List Str → List Str
  | [], current, segments =>
    if current.length > 0 then segments ++ [joinLines current] else segments
  | line :: rest, current, segments =>
    let current1 := current ++ [line]
    if approxTokens (joinLines current1) ≥ MAX_TOKENS then
      slcLoop rest [] (segments ++ [joinLines current1])
    else slcLoop rest current1 segments

/-- `splitLargeCodeChunk` (chunk/code.ts lines 423-439). -/
def splitLargeCodeChunk (code : Str) : List Str :=
  slcLoop (splitOnChar '\n' code) [] []

/-- The text after the first newline, if one exists (the `[^\n]*\n` step
of the fence regex: the greedy no-newline run can only end at the first
newline). -/
def afterFirstNl : Str → Option Str
  | [] => none
  | c :: rest => if c = '\n' then some rest else afterFirstNl rest

/-- The text before the last occurrence of a triple-backtick fence (the
greedy `([\s\S]*)` backtracks from the end to the last closing fence). -/
def beforeLastFence : Str → Option Str
  | [] => none
  | c :: rest =>
    match beforeLastFence rest with
    | some g => some (c :: g)
    | none => if List.isPrefixOf ("```".data) (c :: rest) then some [] else none

/-- One anchored attempt of `/```[^\n]*\n([\s\S]*)```/` at the current
position. -/
def tryFenceAt (s : Str) : Option Str :=
  if List.isPrefixOf ("```".data) s then
    match afterFirstNl (s.drop 3) with
    | some body => beforeLastFence body
    | none => none
  else none

/-- Leftmost match of the fence regex: on failure the engine restarts one
position later. -/
def fenceSearch : Str → Option Str
  | [] => none
  | c :: rest =>
    match tryFenceAt (c :: rest) with
    | some g => some g
    | none => fenceSearch rest

/-- `extractCode` (chunk/code.ts lines 498-502): the captured fence body
end-trimmed when the capture is non-empty (JS truthiness), otherwise the
trimmed content. -/
def extractCode (content : Str) : Str :=
  match fenceSearch content with
  | some g => if g ≠ [] then trimEnd g else trimStr content
  | none => trimStr content

/-- `path.basename`: strip trailing slashes, then take the last slash
component (degenerate all-slash or empty inputs return the input, as in
Node for "/" and ""). -/
def basename (s : Str) : Str :=
  let t := (s.reverse.dropWhile (fun c => decide (c = '/'))).reverse
  if t = [] then s else ((splitOnChar '/' t).getLast?).getD t

/-- `formatChunk` (chunk/code.ts lines 380-405). -/
def formatChunk (breadcrumb code : Str) (language : Option Str) (symbol : CodeChunkResult)
    (partIndex partCount : Option Int) : ChunkDraft :=
  let content := breadcrumb ++ '\n' :: '\n' :: wrapCodeFence code language
  { content := content
    tokenCount := approxTokens content
    chunkType := "code".data
    contextPath := breadcrumb
    title := (symbol.symbolName).getD (basename breadcrumb)
    preview := buildPreview code PREVIEW_CHAR_LIMIT
    lineStart := some symbol.startLine
    lineEnd := some symbol.endLine
    language := language
    symbolName := symbol.symbolName
    symbolType := symbol.symbolType
    symbolId := symbol.symbolId
    symbolPartIndex := partIndex
    symbolPartCount := partCount }

/-- `formatFallbackChunk` (chunk/code.ts lines 407-421). -/
def formatFallbackChunk (code filePath : Str) (language : Option Str) (pfx : List Str) :
    ChunkDraft :=
  let breadcrumb := buildBreadcrumb (pfx.map some ++ [some filePath, none])
  let content := breadcrumb ++ '\n' :: '\n' :: wrapCodeFence code language
  { content := content
    tokenCount := approxTokens content
    chunkType := "code".data
    contextPath := breadcrumb
    title := basename filePath
    preview := buildPreview code PREVIEW_CHAR_LIMIT
    lineStart := none
    lineEnd := none
    language := language }

/-- `canMerge` (chunk/code.ts lines 459-471). -/
def canMerge (a b : ChunkDraft) : Bool :=
  decide (a.chunkType = ("code".data)) && decide (b.chunkType = ("code".data)) &&
    decide (a.symbolName ≠ none) && decide (a.symbolName = b.symbolName) &&
    decide (a.symbolType = b.symbolType) && decide (a.contextPath = b.contextPath) &&
    decide (a.language = b.language)

/-- The fenced content both `combinedTokens` and `mergeChunks` build
(chunk/code.ts lines 473-496). -/
def mergedContent (a b : ChunkDraft) : Str :=
  let code := trimStr (extractCode a.content ++ '\n' :: extractCode b.content)
  a.contextPath ++ '\n' :: '\n' :: wrapCodeFence code a.language

/-- `combinedTokens` (chunk/code.ts lines 473-479). -/
def combinedTokens (a b : ChunkDraft) : Nat := approxTokens (mergedContent a b)

/-- `minLine` (chunk/code.ts lines 504-508). -/
def minLine : Option Int → Option Int → Option Int
  | some a, some b => some (min a b)
  | some a, none => some a
  | none, some b => some b
  | none, none => none

/-- `maxLine` (chunk/code.ts lines 510-514). -/
def maxLine : Option Int → Option Int → Option Int
  | some a, some b => some (max a b)
  | some a, none => some a
  | none, some b => some b
  | none, none => none

/-- `mergeChunks` (chunk/code.ts lines 481-496). -/
def mergeChunks (a b : ChunkDraft) : ChunkDraft :=
  let code := trimStr (extractCode a.content ++ '\n' :: extractCode b.content)
  { a with
    content := mergedContent a b
    tokenCount := approxTokens (mergedContent a b)
    preview := buildPreview code PREVIEW_CHAR_LIMIT
    lineStart := minLine a.lineStart b.lineStart
    lineEnd := maxLine a.lineEnd b.lineEnd
    symbolPartIndex := none
    symbolPartCount := none }

/-- The fold of `mergeSymbolChunks` (chunk/code.ts lines 446-456). -/
def mscLoop : ChunkDraft → List ChunkDraft → List ChunkDraft
  | buffer, [] => [buffer]
  | buffer, chunk :: rest =>
    if canMerge buffer chunk &&
        decide (combinedTokens buffer chunk ≤ MERGE_COMBINED_MAX_TOKENS) then
      mscLoop (mergeChunks buffer chunk) rest
    else buffer :: mscLoop chunk rest

/-- `mergeSymbolChunks` (chunk/code.ts lines 441-457). -/
def mergeSymbolChunks (chunks : List ChunkDraft) : List ChunkDraft :=
  if chunks.length < 2 then chunks
  else match chunks with
    | [] => []
    | c :: rest => mscLoop c rest

/-- `pruneRedundantNestedChunks` (chunk/code.ts lines 516-546). The
`other === chunk` reference test is rendered as an index comparison:
every draft object in the array is freshly constructed, so reference
equality coincides with position equality. -/
def pruneRedundantNestedChunks (chunks : List ChunkDraft) : List ChunkDraft :=
  if chunks.length ≤ 1 then chunks
  else
    (List.range chunks.length).filterMap (fun i =>
      match chunks[i]? with
      | none => none
      | some chunk =>
        let code := extractCode chunk.content
        let drop :=
          match chunk.lineStart, chunk.lineEnd with
          | some s, some e =>
            decide (code ≠ []) && decide (chunk.tokenCount < MIN_TOKENS) &&
              (List.range chunks.length).any (fun j =>
                decide (j ≠ i) &&
                  (match chunks[j]? with
                   | none => false
                   | some other =>
                     match other.lineStart, other.lineEnd with
                     | some oStart, some oEnd =>
                       decide (oStart ≤ s) && decide (oEnd ≥ e) &&
                         containsSeq code (extractCode other.content)
                     | _, _ => false))
          | _, _ => false
        if drop then none else some chunk)

/-- The per-raw-chunk formatting of `buildCodeChunkDrafts` (chunk/code.ts
lines 343-374). -/
def formatRawChunks (pfx : List Str) (filePath : Str) (language : Option Str) :
    List CodeChunkResult → List ChunkDraft
  | [] => []
  | chunk :: rest =>
    let text := trimStr chunk.text
    if text = [] then formatRawChunks pfx filePath language rest
    else
      let breadcrumb := buildBreadcrumb (pfx.map some ++ [some filePath, chunk.symbolName])
      let content := breadcrumb ++ '\n' :: '\n' :: wrapCodeFence text language
      (if approxTokens content > MAX_TOKENS then
        let parts := splitLargeCodeChunk text
        (List.range parts.length).map (fun (idx : Nat) =>
          formatChunk breadcrumb ((parts[idx]?).getD []) language chunk
            (some (Int.ofNat idx)) (some (parts.length : Int)))
      else [formatChunk breadcrumb text language chunk none none])
        ++ formatRawChunks pfx filePath language rest

/-- `buildCodeChunkDrafts` (chunk/code.ts lines 326-378) over the raw
chunks that `buildCodeChunksRaw` produced; the tree-sitter parse behind
`buildCodeChunksRaw` is an external component, and `chunkByLinesFallback`
and `chunkSymbolLines` are the two producers of these raw chunks. -/
def buildCodeChunkDrafts (rawChunks : List CodeChunkResult) (content filePath : Str)
    (language : Option Str) (pfx : List Str) : List ChunkDraft :=
  if rawChunks.length = 0 then [formatFallbackChunk content filePath language pfx]
  else pruneRedundantNestedChunks
    (mergeSymbolChunks (formatRawChunks pfx filePath language rawChunks))

/-! ## store/crawl.ts — documents table -/

/-- A row of the `documents` table. `active` is the SQL integer flag. -/
structure DocRow where
  id : Nat
  sourceId : Nat
  path : Str
  uri : Str
  title : Str
  hash : Str
  contentType : Str
  versionLabel : Str
  createdAt : Nat
  updatedAt : Nat
  active : Nat
  deriving DecidableEq, Repr

/-- A row of the `chunks` table, reduced to the columns the claims read. -/
structure ChunkRow where
  id : Nat
  documentId : Nat
  content : Str
  deriving DecidableEq, Repr

/-- The library database state touched by `upsertDocument` and
`deactivateMissingDocuments`: blobs keyed by hash, document rows, chunk
rows and the autoincrement counter. -/
structure LibraryDb where
  blobs : List (Str × Str)
  documents : List DocRow
  chunks : List ChunkRow
  nextDocId : Nat
  deriving DecidableEq, Repr

/-- Input record of `upsertDocument` (store/crawl.ts). -/
structure UpsertInput where
  sourceId : Nat
  path : Str
  uri : Str
  title : Str
  hash : Str
  contentType : Str
  versionLabel : Str
  content : Str
  deriving DecidableEq, Repr

/-- The `WHERE source_id = ? AND path = ? AND version_label = ?` predicate. -/
def docKeyPred (input : UpsertInput) (r : DocRow) : Bool :=
  decide (r.sourceId = input.sourceId) && decide (r.path = input.path)
    && decide (r.versionLabel = input.versionLabel)

/-- `upsertDocument` (store/crawl.ts lines 73-125): insert the blob if its
hash is unseen, then insert a fresh active row, refresh an unchanged row in
place, or rewrite a changed row; returns the row id and whether content
changed. -/
def upsertDocument (db : LibraryDb) (now : Nat) (input : UpsertInput) :
    LibraryDb × Nat × Bool :=
  let blobs := if db.blobs.any (fun b => decide (b.1 = input.hash)) then db.blobs
               else db.blobs ++ [(input.hash, input.content)]
  match db.documents.find? (docKeyPred input) with
  | none =>
    let row : DocRow :=
      { id := db.nextDocId, sourceId := input.sourceId, path := input.path,
        uri := input.uri, title := input.title, hash := input.hash,
        contentType := input.contentType, versionLabel := input.versionLabel,
        createdAt := now, updatedAt := now, active := 1 }
    (⟨blobs, db.documents ++ [row], db.chunks, db.nextDocId + 1⟩, db.nextDocId, true)
  | some existing =>
    if existing.hash = input.hash then
      let docs := db.documents.map (fun r =>
        if r.id = existing.id then
          { r with title := input.title, uri := input.uri, updatedAt := now, active := 1 }
        else r)
      (⟨blobs, docs, db.chunks, db.nextDocId⟩, existing.id, false)
    else
      let docs := db.documents.map (fun r =>
        if r.id = existing.id then
          { r with title := input.title, uri := input.uri, hash := input.hash,
                   contentType := input.contentType, updatedAt := now, active := 1 }
        else r)
      (⟨blobs, docs, db.chunks, db.nextDocId⟩, existing.id, true)

/-- `deactivateMissingDocuments` (store/crawl.ts lines 127-145): set
`active = 0` on every row of the source and version label whose path is
not kept (the empty `keepPaths` case deactivates them all). -/
def deactivateMissingDocuments (db : LibraryDb) (sourceId : Nat)
    (versionLabel : Str) (keepPaths : List Str) : LibraryDb :=
  if keepPaths.isEmpty then
    { db with documents := db.documents.map (fun r =>
        if decide (r.sourceId = sourceId) && decide (r.versionLabel = versionLabel) then
          { r with active := 0 }
        else r) }
  else
    { db with documents := db.documents.map (fun r =>
        if decide (r.sourceId = sourceId) && decide (r.versionLabel = versionLabel)
            && decide (r.path ∉ keepPaths) then
          { r with active := 0 }
        else r) }

/-- One successful sync of `(sourceId, versionLabel)` as the ingest
orchestrator drives the store (ingest/github/ingest.ts lines 92-169):
upsert every loaded file, then deactivate the rows whose paths were not
seen this run. -/
def runGithubSyncStore (db : LibraryDb) (now : Nat) (sourceId : Nat)
    (versionLabel : Str) (files : List UpsertInput) : LibraryDb :=
  let db' := files.foldl (fun d f => (upsertDocument d now f).1) db
  deactivateMissingDocuments db' sourceId versionLabel (files.map (·.path))

/-- The schema constraint `documents_unique (source_id, path, version_label)`
(migrations/library/0001_init.ts). -/
def UniqueKeys (db : LibraryDb) : Prop :=
  db.documents.Pairwise (fun a b =>
    ¬(a.sourceId = b.sourceId ∧ a.path = b.path ∧ a.versionLabel = b.versionLabel))

/-- Primary-key uniqueness of the autoincrement row id. -/
def UniqueIds (db : LibraryDb) : Prop :=
  db.documents.Pairwise (fun a b => a.id ≠ b.id)

/-- The autoincrement counter is strictly above every existing row id. -/
def FreshNext (db : LibraryDb) : Prop :=
  ∀ r ∈ db.documents, r.id < db.nextDocId

/-- Key-match proposition decided by `docKeyPred`. -/
def KeyMatches (input : UpsertInput) (r : DocRow) : Prop :=
  r.sourceId = input.sourceId ∧ r.path = input.path ∧ r.versionLabel = input.versionLabel

theorem docKeyPred_iff (input : UpsertInput) (r : DocRow) :
    docKeyPred input r = true ↔ KeyMatches input r := by
  simp [docKeyPred, KeyMatches, and_assoc]

theorem pairwise_id_inj {docs : List DocRow}
    (hids : docs.Pairwise (fun a b => a.id ≠ b.id))
    {a b : DocRow} (ha : a ∈ docs) (hb : b ∈ docs) (h : a.id = b.id) : a = b := by
  by_contra hne
  exact hids.forall (fun x y hxy => (Ne.symm hxy)) ha hb hne h

/-- After `upsertDocument`, every document row either carries the input key
with `active = 1`, or is an untouched pre-existing row whose key differs
from the input key; the table invariants are preserved and row ids are
unchanged except for the possible fresh insert. -/
theorem upsertDocument_step (db : LibraryDb) (now : Nat) (input : UpsertInput)
    (hkeys : UniqueKeys db) (hids : UniqueIds db) (hfresh : FreshNext db) :
    UniqueKeys (upsertDocument db now input).1 ∧
    UniqueIds (upsertDocument db now input).1 ∧
    FreshNext (upsertDocument db now input).1 ∧
    ∀ r' ∈ (upsertDocument db now input).1.documents,
      (KeyMatches input r' ∧ r'.active = 1)
      ∨ (r' ∈ db.documents ∧ ¬KeyMatches input r') := by
  unfold UniqueKeys UniqueIds FreshNext at *
  cases hfind : db.documents.find? (docKeyPred input) with
  | none =>
    have hnone : ∀ x ∈ db.documents, ¬ docKeyPred input x = true :=
      fun x hx => by
        have := List.find?_eq_none.mp hfind x hx
        simpa using this
    have hnokey : ∀ x ∈ db.documents, ¬ KeyMatches input x :=
      fun x hx hk => hnone x hx ((docKeyPred_iff input x).mpr hk)
    simp only [upsertDocument, hfind]
    refine ⟨?_, ?_, ?_, ?_⟩
    · refine List.pairwise_append.mpr ⟨hkeys, List.pairwise_singleton _ _, ?_⟩
      intro a ha b hb
      simp only [List.mem_singleton] at hb
      subst hb
      intro ⟨h1, h2, h3⟩
      exact hnokey a ha ⟨h1, h2, h3⟩
    · refine List.pairwise_append.mpr ⟨hids, List.pairwise_singleton _ _, ?_⟩
      intro a ha b hb
      simp only [List.mem_singleton] at hb
      subst hb
      exact Nat.ne_of_lt (hfresh a ha)
    · intro r hr
      rcases List.mem_append.mp hr with h | h
      · exact Nat.lt_succ_of_lt (hfresh r h)
      · simp only [List.mem_singleton] at h
        subst h
        exact Nat.lt_succ_self _
    · intro r' hr'
      rcases List.mem_append.mp hr' with h | h
      · exact Or.inr ⟨h, hnokey r' h⟩
      · simp only [List.mem_singleton] at h
        subst h
        exact Or.inl ⟨⟨rfl, rfl, rfl⟩, rfl⟩
  | some ex =>
    have hexmem : ex ∈ db.documents := List.mem_of_find?_eq_some hfind
    have hexkey : KeyMatches input ex :=
      (docKeyPred_iff input ex).mp (List.find?_some hfind)
    have main : ∀ g : DocRow → DocRow,
        (∀ r, (g r).id = r.id) → (∀ r, (g r).sourceId = r.sourceId) →
        (∀ r, (g r).path = r.path) → (∀ r, (g r).versionLabel = r.versionLabel) →
        (∀ r, (g r).active = 1) →
        (db.documents.map (fun r => if r.id = ex.id then g r else r)).Pairwise
            (fun a b =>
              ¬(a.sourceId = b.sourceId ∧ a.path = b.path ∧ a.versionLabel = b.versionLabel)) ∧
        (db.documents.map (fun r => if r.id = ex.id then g r else r)).Pairwise
            (fun a b => a.id ≠ b.id) ∧
        (∀ r' ∈ db.documents.map (fun r => if r.id = ex.id then g r else r),
            r'.id < db.nextDocId) ∧
        (∀ r' ∈ db.documents.map (fun r => if r.id = ex.id then g r else r),
            (KeyMatches input r' ∧ r'.active = 1)
            ∨ (r' ∈ db.documents ∧ ¬KeyMatches input r')) := by
      intro g hgid hgsrc hgpath hgver hgact
      have hid : ∀ r : DocRow, (if r.id = ex.id then g r else r).id = r.id := by
        intro r
        by_cases h : r.id = ex.id <;> simp [h, hgid]
      have hsrc : ∀ r : DocRow, (if r.id = ex.id then g r else r).sourceId = r.sourceId := by
        intro r
        by_cases h : r.id = ex.id <;> simp [h, hgsrc]
      have hpath : ∀ r : DocRow, (if r.id = ex.id then g r else r).path = r.path := by
        intro r
        by_cases h : r.id = ex.id <;> simp [h, hgpath]
      have hver : ∀ r : DocRow, (if r.id = ex.id then g r else r).versionLabel = r.versionLabel := by
        intro r
        by_cases h : r.id = ex.id <;> simp [h, hgver]
      refine ⟨?_, ?_, ?_, ?_⟩
      · rw [List.pairwise_map]
        refine hkeys.imp_of_mem ?_
        intro a b _ _ hne
        simpa only [hid, hsrc, hpath, hver] using hne
      · rw [List.pairwise_map]
        refine hids.imp_of_mem ?_
        intro a b _ _ hne
        simpa only [hid] using hne
      · intro r' hr'
        rcases List.mem_map.mp hr' with ⟨r, hr, hEq⟩
        have := hfresh r hr
        rw [← hEq, hid]
        exact this
      · intro r' hr'
        rcases List.mem_map.mp hr' with ⟨r, hr, hEq⟩
        by_cases hrid : r.id = ex.id
        · have hrex : r = ex := pairwise_id_inj hids hr hexmem hrid
          subst hrex
          simp only [if_pos hrid] at hEq
          subst hEq
          exact Or.inl ⟨⟨(hgsrc r).trans hexkey.1, (hgpath r).trans hexkey.2.1,
            (hgver r).trans hexkey.2.2⟩, hgact r⟩
        · simp only [if_neg hrid] at hEq
          subst hEq
          refine Or.inr ⟨hr, ?_⟩
          intro hk
          have hrex : r ≠ ex := fun hEq2 => hrid (by rw [hEq2])
          have hsymm : Symmetric (fun a b : DocRow =>
              ¬(a.sourceId = b.sourceId ∧ a.path = b.path ∧ a.versionLabel = b.versionLabel)) := by
            intro x y hxy hyx
            exact hxy ⟨hyx.1.symm, hyx.2.1.symm, hyx.2.2.symm⟩
          exact hkeys.forall hsymm hr hexmem hrex
            ⟨hk.1.trans hexkey.1.symm, hk.2.1.trans hexkey.2.1.symm,
              hk.2.2.trans hexkey.2.2.symm⟩
    by_cases hh : ex.hash = input.hash
    · have h := main
        (fun r => { r with title := input.title, uri := input.uri, updatedAt := now, active := 1 })
        (fun _ => rfl) (fun _ => rfl) (fun _ => rfl) (fun _ => rfl) (fun _ => rfl)
      simpa only [upsertDocument, hfind, if_pos hh] using h
    · have h := main
        (fun r => { r with title := input.title, uri := input.uri, hash := input.hash,
                            contentType := input.contentType, updatedAt := now, active := 1 })
        (fun _ => rfl) (fun _ => rfl) (fun _ => rfl) (fun _ => rfl) (fun _ => rfl)
      simpa only [upsertDocument, hfind, if_neg hh] using h

/-- Every row of the source and version whose path lies in `paths` is active. -/
def ActiveFor (db : LibraryDb) (sourceId : Nat) (versionLabel : Str) (paths : List Str) : Prop :=
  ∀ r ∈ db.documents, r.sourceId = sourceId → r.versionLabel = versionLabel →
    r.path ∈ paths → r.active = 1

theorem fold_upsert_invariant (now sourceId : Nat) (versionLabel : Str) :
    ∀ (files : List UpsertInput) (db : LibraryDb) (acc : List Str),
      (∀ f ∈ files, f.sourceId = sourceId ∧ f.versionLabel = versionLabel) →
      UniqueKeys db → UniqueIds db → FreshNext db →
      ActiveFor db sourceId versionLabel acc →
      ActiveFor (files.foldl (fun d f => (upsertDocument d now f).1) db)
        sourceId versionLabel (acc ++ files.map (·.path)) := by
  intro files
  induction files with
  | nil =>
    intro db acc _ _ _ _ ha
    simpa using ha
  | cons f fs ih =>
    intro db acc hfiles hk hi hf ha
    obtain ⟨hfs, hfv⟩ := hfiles f (List.mem_cons_self _ _)
    have step := upsertDocument_step db now f hk hi hf
    have ha1 : ActiveFor (upsertDocument db now f).1 sourceId versionLabel (acc ++ [f.path]) := by
      intro r hr hrs hrv hrp
      rcases step.2.2.2 r hr with ⟨_, hact⟩ | ⟨hmem, hnk⟩
      · exact hact
      · rcases List.mem_append.mp hrp with hp | hp
        · exact ha r hmem hrs hrv hp
        · simp only [List.mem_singleton] at hp
          exact absurd ⟨hrs.trans hfs.symm, hp, hrv.trans hfv.symm⟩ hnk
    have hrec := ih (upsertDocument db now f).1 (acc ++ [f.path])
      (fun g hg => hfiles g (List.mem_cons_of_mem _ hg))
      step.1 step.2.1 step.2.2.1 ha1
    simpa [List.append_assoc, List.foldl_cons] using hrec

/-! ## store FTS search (searchFTS, normalizeFtsQuery, isFtsSyntaxError) -/

/-- A raw FTS hit; `score` carries the raw bm25 value as a rational. -/
structure FtsRow where
  chunkId : Nat
  score : ℚ
  content : Str
  deriving DecidableEq

/-- An error raised by the text engine, reduced to its message. -/
structure FtsError where
  message : Str
  deriving DecidableEq

/-- `isFtsSyntaxError`: the lowercased message contains fts5, syntax
error, or no such column. -/
def isFtsSyntaxError (e : FtsError) : Bool :=
  containsSeq ("fts5".data) (toLowerStr e.message)
  || containsSeq ("syntax error".data) (toLowerStr e.message)
  || containsSeq ("no such column".data) (toLowerStr e.message)

/-- The quote class of `normalizeFtsQuery`: double quote, apostrophe,
backtick. -/
def isQuoteChar (c : Char) : Bool := c = '"' ∨ c = Char.ofNat 39 ∨ c = Char.ofNat 96

/-- Word characters of the normalize regex: the ASCII fragment of the
letter and number classes, plus underscore. -/
def isWordChar (c : Char) : Bool := c.isAlpha || c.isDigit || c = '_'

/-- The cleaned value computed inside `normalizeFtsQuery` before its
fallback: quotes stripped, non-word runs and whitespace runs replaced by
single spaces, then trimmed — this is the "letters, digits and underscore
only, whitespace-separated" form of the spec. -/
def ftsCleanedQuery (input : Str) : Str :=
  trimStr (replaceRunsBySpace isWs (replaceRunsBySpace (fun c => !isWordChar c)
    (replaceRunsBySpace isQuoteChar (trimStr input))))

/-- `normalizeFtsQuery`: the cleaned form, falling back to the trimmed
query when cleaning leaves nothing (`cleaned || trimmed`). -/
def normalizeFtsQuery (input : Str) : Str :=
  let trimmed := trimStr input
  let cleaned := ftsCleanedQuery input
  if cleaned = [] then trimmed else cleaned

/-- The score mapping applied to every returned row:
`1 / (1 + Math.max(0, Math.abs(bm25)))`. -/
def scoreFtsRow (r : FtsRow) : FtsRow :=
  { r with score := 1 / (1 + max 0 |r.score|) }

/-- `searchFTS` with the SQL engine abstracted to a function from the
match query to rows or an engine error: run the verbatim query; on a
syntax error retry once with the normalized form unless it is empty or
unchanged, in which case the original error is rethrown; errors of the
retry propagate; returned rows are rescored. -/
def searchFTS (engine : Str → Except FtsError (List FtsRow)) (query : Str) :
    Except FtsError (List FtsRow) :=
  match engine query with
  | .ok rows => .ok (rows.map scoreFtsRow)
  | .error e =>
    if isFtsSyntaxError e then
      let fallback := normalizeFtsQuery query
      if fallback = [] ∨ fallback = query then .error e
      else
        match engine fallback with
        | .ok rows => .ok (rows.map scoreFtsRow)
        | .error e2 => .error e2
    else .error e

/-- Engine for the C5 counterexample: raises an FTS syntax error on the
query with surrounding spaces, succeeds on anything else. -/
def exEngineA : Str → Except FtsError (List FtsRow) := fun q =>
  if q = (" !!! ".data) then .error ⟨("fts5: syntax error".data)⟩ else .ok []

/-- Engine for the C5 witness: accepts the cleaned query, raises an FTS
syntax error otherwise. -/
def exEngineB : Str → Except FtsError (List FtsRow) := fun q =>
  if q = ("a b".data) then .ok [⟨5, 3, "c".data⟩]
  else .error ⟨("fts5: syntax error".data)⟩

/-! ## search/hybrid.ts — fuseRankedLists -/

/-- A search hit, reduced to the fields the fusion reads and rewrites. -/
structure SearchHit where
  chunkId : Nat
  score : ℚ
  content : Str
  deriving DecidableEq

/-- Value stored in the fusion map (`hit`, accumulated `score`, `bestRank`). -/
structure FuseEntry where
  hit : SearchHit
  score : ℚ
  bestRank : Nat
  deriving DecidableEq

/-- Lookup in the insertion-ordered association-list embedding of a
JavaScript `Map` keyed by chunk id. -/
def mapLookup (c : Nat) : List (Nat × FuseEntry) → Option FuseEntry
  | [] => none
  | (k, e) :: rest => if c = k then some e else mapLookup c rest

/-- `Map.set`: update in place when the key exists, append otherwise. -/
def mapSet (c : Nat) (e : FuseEntry) : List (Nat × FuseEntry) → List (Nat × FuseEntry)
  | [] => [(c, e)]
  | (k, e2) :: rest => if c = k then (c, e) :: rest else (k, e2) :: mapSet c e rest

/-- Inner loop of `fuseRankedLists` over one ranked list: rank is the
1-based index, the contribution is `weight / (60 + rank)`, and `bestRank`
keeps the minimum. -/
def addHits (w : ℚ) : Nat → List SearchHit → List (Nat × FuseEntry) → List (Nat × FuseEntry)
  | _, [], m => m
  | idx, hit :: rest, m =>
    let rank := idx + 1
    let rrf := w / (60 + (rank : ℚ))
    let m' := match mapLookup hit.chunkId m with
      | none => mapSet hit.chunkId ⟨hit, rrf, rank⟩ m
      | some ex => mapSet hit.chunkId ⟨ex.hit, ex.score + rrf, min ex.bestRank rank⟩ m
    addHits w (idx + 1) rest m'

/-- Outer loop of `fuseRankedLists`: list `i` uses `weights[i] ?? 1`. -/
def fuseAddLists : List (List SearchHit) → List ℚ → List (Nat × FuseEntry) → List (Nat × FuseEntry)
  | [], _, m => m
  | l :: ls, ws, m => fuseAddLists ls ws.tail (addHits (ws.headD 1) 0 l m)

/-- The bonus pass: `+0.05` for a best rank of 1, else `+0.02` for a best
rank of at most 3. -/
def applyBonus (e : FuseEntry) : FuseEntry :=
  if e.bestRank = 1 then { e with score := e.score + 0.05 }
  else if e.bestRank ≤ 3 then { e with score := e.score + 0.02 }
  else e

/-- `fuseRankedLists` (search/hybrid.ts lines 43-75): accumulate
reciprocal-rank contributions with `k = 60`, apply the top-rank bonus,
sort descending by score (JavaScript sort is stable; `insertionSort` with
the non-strict descending relation is the stable sort) and truncate. -/
def fuseRankedLists (lists : List (List SearchHit)) (weights : List ℚ) (limit : Nat) :
    List SearchHit :=
  let entries := fuseAddLists lists weights []
  let boosted := entries.map (fun p => applyBonus p.2)
  let sorted := boosted.insertionSort (fun a b => b.score ≤ a.score)
  (sorted.take limit).map (fun e => { e.hit with score := e.score })

/-- 1-based rank of the first hit with the given chunk id, starting the
count at `idx`. -/
def rankOfGo (c : Nat) : Nat → List SearchHit → Option Nat
  | _, [] => none
  | idx, h :: rest => if h.chunkId = c then some (idx + 1) else rankOfGo c (idx + 1) rest

/-- 1-based rank of a chunk id within one ranked list. -/
def rankOf (c : Nat) (l : List SearchHit) : Option Nat := rankOfGo c 0 l

/-- Sum of the reciprocal-rank contributions of the lists containing the
chunk: `weight_i / (60 + rank_i)`, with absent lists contributing 0. -/
def sumContrib (c : Nat) : List (List SearchHit) → List ℚ → ℚ
  | [], _ => 0
  | l :: ls, ws =>
    (match rankOf c l with
      | some r => ws.headD 1 / (60 + (r : ℚ))
      | none => 0) + sumContrib c ls ws.tail

/-- Best (minimum) rank of a chunk across all lists. -/
def bestRankSpec (c : Nat) : List (List SearchHit) → Option Nat
  | [] => none
  | l :: ls =>
    match rankOf c l, bestRankSpec c ls with
    | some r, some r2 => some (min r r2)
    | some r, none => some r
    | none, o => o

/-- The bonus determined by the best rank. -/
def bonusOf : Option Nat → ℚ
  | none => 0
  | some r => if r = 1 then 0.05 else if r ≤ 3 then 0.02 else 0

/-- The fused score the spec describes: reciprocal-rank sum plus bonus. -/
def fusedScore (c : Nat) (lists : List (List SearchHit)) (weights : List ℚ) : ℚ :=
  sumContrib c lists weights + bonusOf (bestRankSpec c lists)

/-- First hit carrying the chunk id across the lists (the hit the map
retains). -/
def firstHitOf (c : Nat) : List (List SearchHit) → Option SearchHit
  | [] => none
  | l :: ls =>
    match l.find? (fun h => decide (h.chunkId = c)) with
    | some h => some h
    | none => firstHitOf c ls

theorem mapLookup_mapSet_self (c : Nat) (e : FuseEntry) (m : List (Nat × FuseEntry)) :
    mapLookup c (mapSet c e m) = some e := by
  induction m with
  | nil => simp [mapSet, mapLookup]
  | cons p rest ih =>
    obtain ⟨k, e2⟩ := p
    by_cases h : c = k
    · simp [mapSet, mapLookup, h]
    · simp [mapSet, mapLookup, h, ih]

theorem mapLookup_mapSet_ne (c c2 : Nat) (e : FuseEntry) (m : List (Nat × FuseEntry))
    (h : c ≠ c2) : mapLookup c (mapSet c2 e m) = mapLookup c m := by
  induction m with
  | nil => simp [mapSet, mapLookup, h]
  | cons p rest ih =>
    obtain ⟨k, e2⟩ := p
    by_cases h2 : c2 = k
    · subst h2
      simp [mapSet, mapLookup, h]
    · by_cases h3 : c = k <;> simp [mapSet, mapLookup, h2, h3, ih]

theorem rankOfGo_none_of_not_mem (c : Nat) (l : List SearchHit)
    (h : c ∉ l.map (·.chunkId)) : ∀ idx, rankOfGo c idx l = none := by
  induction l with
  | nil => intro idx; rfl
  | cons x rest ih =>
    intro idx
    simp only [List.map_cons, List.mem_cons, not_or] at h
    have hx : ¬ x.chunkId = c := fun hc => h.1 hc.symm
    simp [rankOfGo, hx, ih h.2]

theorem rankOfGo_some_find (c : Nat) (l : List SearchHit) :
    ∀ idx r, rankOfGo c idx l = some r →
      ∃ h, l.find? (fun x => decide (x.chunkId = c)) = some h ∧ h.chunkId = c := by
  induction l with
  | nil => intro idx r h; exact absurd h (by simp [rankOfGo])
  | cons x rest ih =>
    intro idx r h
    by_cases hx : x.chunkId = c
    · exact ⟨x, by simp [List.find?, hx], hx⟩
    · simp only [rankOfGo, if_neg hx] at h
      obtain ⟨h0, hfind, hc⟩ := ih (idx + 1) r h
      exact ⟨h0, by simp [List.find?, hx, hfind], hc⟩

/-- Effect of one ranked list on the fusion map, at every key. -/
theorem addHits_lookup (w : ℚ) (l : List SearchHit) :
    ∀ (idx : Nat) (m : List (Nat × FuseEntry)) (c : Nat),
      (l.map (·.chunkId)).Nodup →
      ((rankOfGo c idx l = none → mapLookup c (addHits w idx l m) = mapLookup c m)
      ∧ (∀ r h, rankOfGo c idx l = some r →
          l.find? (fun x => decide (x.chunkId = c)) = some h →
          (mapLookup c m = none →
            mapLookup c (addHits w idx l m) = some ⟨h, w / (60 + (r : ℚ)), r⟩)
          ∧ (∀ e, mapLookup c m = some e →
              mapLookup c (addHits w idx l m)
                = some ⟨e.hit, e.score + w / (60 + (r : ℚ)), min e.bestRank r⟩))) := by
  induction l with
  | nil =>
    intro idx m c _
    refine ⟨fun _ => rfl, fun r h hrank _ => ?_⟩
    exact absurd hrank (by simp [rankOfGo])
  | cons x rest ih =>
    intro idx m c hnodup
    simp only [List.map_cons, List.nodup_cons] at hnodup
    obtain ⟨hxout, hnodup2⟩ := hnodup
    by_cases hx : x.chunkId = c
    · subst hx
      have hrest : ∀ i, rankOfGo x.chunkId i rest = none :=
        rankOfGo_none_of_not_mem _ _ hxout
      constructor
      · intro hnone
        exact absurd hnone (by simp [rankOfGo])
      · intro r h hrank hfind
        simp [rankOfGo] at hrank
        subst hrank
        simp [List.find?] at hfind
        subst hfind
        constructor
        · intro hnone
          simp only [addHits, hnone]
          have := (ih (idx + 1)
            (mapSet x.chunkId ⟨x, w / (60 + ((idx + 1 : Nat) : ℚ)), idx + 1⟩ m) x.chunkId
            hnodup2).1 (hrest _)
          rw [this, mapLookup_mapSet_self]
        · intro e he
          simp only [addHits, he]
          have := (ih (idx + 1)
            (mapSet x.chunkId
              ⟨e.hit, e.score + w / (60 + ((idx + 1 : Nat) : ℚ)), min e.bestRank (idx + 1)⟩ m)
            x.chunkId hnodup2).1 (hrest _)
          rw [this, mapLookup_mapSet_self]
    · have hCne : c ≠ x.chunkId := fun hc => hx hc.symm
      have hm' : mapLookup c (addHits w idx (x :: rest) m)
          = mapLookup c (addHits w (idx + 1) rest
              (match mapLookup x.chunkId m with
                | none => mapSet x.chunkId ⟨x, w / (60 + ((idx + 1 : Nat) : ℚ)), idx + 1⟩ m
                | some ex => mapSet x.chunkId
                    ⟨ex.hit, ex.score + w / (60 + ((idx + 1 : Nat) : ℚ)),
                      min ex.bestRank (idx + 1)⟩ m)) := by
        simp only [addHits]
      have hpreserve : mapLookup c (match mapLookup x.chunkId m with
          | none => mapSet x.chunkId ⟨x, w / (60 + ((idx + 1 : Nat) : ℚ)), idx + 1⟩ m
          | some ex => mapSet x.chunkId
              ⟨ex.hit, ex.score + w / (60 + ((idx + 1 : Nat) : ℚ)),
                min ex.bestRank (idx + 1)⟩ m) = mapLookup c m := by
        cases mapLookup x.chunkId m <;>
          simp [mapLookup_mapSet_ne c x.chunkId _ m hCne]
      have ihm := ih (idx + 1) (match mapLookup x.chunkId m with
          | none => mapSet x.chunkId ⟨x, w / (60 + ((idx + 1 : Nat) : ℚ)), idx + 1⟩ m
          | some ex => mapSet x.chunkId
              ⟨ex.hit, ex.score + w / (60 + ((idx + 1 : Nat) : ℚ)),
                min ex.bestRank (idx + 1)⟩ m) c hnodup2
      constructor
      · intro hnone
        simp only [rankOfGo, if_neg hx] at hnone
        rw [hm', ihm.1 hnone, hpreserve]
      · intro r h hrank hfind
        simp only [rankOfGo, if_neg hx] at hrank
        simp only [List.find?, decide_eq_true_eq, hx, decide_False] at hfind
        have ihr := ihm.2 r h hrank hfind
        constructor
        · intro hnone
          rw [hm', ihr.1 (by rw [hpreserve]; exact hnone)]
        · intro e he
          rw [hm', ihr.2 e (by rw [hpreserve]; exact he)]

theorem find_none_of_rankOfGo_none (c : Nat) (l : List SearchHit) :
    ∀ idx, rankOfGo c idx l = none →
      l.find? (fun x => decide (x.chunkId = c)) = none := by
  induction l with
  | nil => intro _ _; rfl
  | cons x rest ih =>
    intro idx h
    by_cases hx : x.chunkId = c
    · simp [rankOfGo, hx] at h
    · simp only [rankOfGo, if_neg hx] at h
      simp [List.find?, hx, ih (idx + 1) h]

theorem sumContrib_eq_zero (c : Nat) (ls : List (List SearchHit)) :
    ∀ ws, bestRankSpec c ls = none → sumContrib c ls ws = 0 := by
  induction ls with
  | nil => intro ws _; rfl
  | cons l ls2 ih =>
    intro ws h
    cases hr : rankOf c l with
    | some r => simp [bestRankSpec, hr] at h; rcases hbr : bestRankSpec c ls2 <;> simp [hbr] at h
    | none =>
      simp only [bestRankSpec, hr] at h
      simp [sumContrib, hr, ih ws.tail h]

theorem firstHitOf_chunkId (c : Nat) (lists : List (List SearchHit)) (h : SearchHit) :
    firstHitOf c lists = some h → h.chunkId = c := by
  induction lists with
  | nil => intro hx; exact absurd hx (by simp [firstHitOf])
  | cons l ls ih =>
    intro hx
    simp only [firstHitOf] at hx
    cases hf : l.find? (fun x => decide (x.chunkId = c)) with
    | some h0 =>
      rw [hf] at hx
      have := List.find?_some hf
      simp only [decide_eq_true_eq] at this
      cases hx
      exact this
    | none =>
      rw [hf] at hx
      exact ih hx

/-- Effect of the whole outer fusion loop on the map, at every key. -/
theorem fuseAddLists_lookup (lists : List (List SearchHit)) :
    ∀ (ws : List ℚ) (m : List (Nat × FuseEntry)) (c : Nat),
      (∀ l ∈ lists, (l.map (·.chunkId)).Nodup) →
      ((bestRankSpec c lists = none →
          mapLookup c (fuseAddLists lists ws m) = mapLookup c m)
      ∧ (∀ br, bestRankSpec c lists = some br →
          (mapLookup c m = none →
            ∃ h, firstHitOf c lists = some h ∧
              mapLookup c (fuseAddLists lists ws m)
                = some ⟨h, sumContrib c lists ws, br⟩)
          ∧ (∀ e, mapLookup c m = some e →
              mapLookup c (fuseAddLists lists ws m)
                = some ⟨e.hit, e.score + sumContrib c lists ws, min e.bestRank br⟩))) := by
  induction lists with
  | nil =>
    intro ws m c _
    exact ⟨fun _ => rfl, fun br hbr => absurd hbr (by simp [bestRankSpec])⟩
  | cons l ls ih =>
    intro ws m c hnodup
    have hl := hnodup l (List.mem_cons_self _ _)
    have hls := fun l2 h2 => hnodup l2 (List.mem_cons_of_mem _ h2)
    have hadd := addHits_lookup (ws.headD 1) l 0 m c hl
    have ihm := ih ws.tail (addHits (ws.headD 1) 0 l m) c hls
    cases hr : rankOf c l with
    | none =>
      have hkeep : mapLookup c (addHits (ws.headD 1) 0 l m) = mapLookup c m := hadd.1 hr
      have hfnone := find_none_of_rankOfGo_none c l 0 hr
      constructor
      · intro hnone
        simp only [bestRankSpec, hr] at hnone
        simp only [fuseAddLists]
        rw [ihm.1 hnone, hkeep]
      · intro br hbr
        simp only [bestRankSpec, hr] at hbr
        constructor
        · intro hnone
          obtain ⟨h0, hfirst, hlook⟩ := (ihm.2 br hbr).1 (by rw [hkeep]; exact hnone)
          refine ⟨h0, ?_, ?_⟩
          · simp [firstHitOf, hfnone, hfirst]
          · simp only [fuseAddLists]
            rw [hlook]
            simp [sumContrib, hr]
        · intro e he
          have hlook := (ihm.2 br hbr).2 e (by rw [hkeep]; exact he)
          simp only [fuseAddLists]
          rw [hlook]
          simp [sumContrib, hr]
    | some r =>
      obtain ⟨h0, hfind, hc0⟩ := rankOfGo_some_find c l 0 r hr
      have haddsome := hadd.2 r h0 hr hfind
      constructor
      · intro hnone
        rcases hbrv : bestRankSpec c ls <;> simp [bestRankSpec, hr, hbrv] at hnone
      · intro br hbr
        cases hbrls : bestRankSpec c ls with
        | none =>
          have hbrr : br = r := by
            simp [bestRankSpec, hr, hbrls] at hbr
            omega
          subst hbrr
          have hzero := sumContrib_eq_zero c ls ws.tail hbrls
          constructor
          · intro hnone
            have h1 := haddsome.1 hnone
            refine ⟨h0, by simp [firstHitOf, hfind], ?_⟩
            simp only [fuseAddLists]
            rw [ihm.1 hbrls, h1]
            simp [sumContrib, hr, hzero]
          · intro e he
            have h1 := haddsome.2 e he
            simp only [fuseAddLists]
            rw [ihm.1 hbrls, h1]
            simp [sumContrib, hr, hzero]
        | some r2 =>
          have hbrr : br = min r r2 := by
            simp [bestRankSpec, hr, hbrls] at hbr
            omega
          subst hbrr
          constructor
          · intro hnone
            have h1 := haddsome.1 hnone
            have hrec := (ihm.2 r2 hbrls).2 ⟨h0, ws.headD 1 / (60 + (r : ℚ)), r⟩ h1
            refine ⟨h0, by simp [firstHitOf, hfind], ?_⟩
            simp only [fuseAddLists]
            rw [hrec]
            simp [sumContrib, hr]
          · intro e he
            have h1 := haddsome.2 e he
            have hrec := (ihm.2 r2 hbrls).2
              ⟨e.hit, e.score + ws.headD 1 / (60 + (r : ℚ)), min e.bestRank r⟩ h1
            simp only [fuseAddLists]
            rw [hrec]
            simp only [sumContrib, hr]
            rw [add_assoc, min_assoc]

theorem mapSet_keys (c : Nat) (e : FuseEntry) (m : List (Nat × FuseEntry)) :
    (mapSet c e m).map Prod.fst =
      if c ∈ m.map Prod.fst then m.map Prod.fst else m.map Prod.fst ++ [c] := by
  induction m with
  | nil => simp [mapSet]
  | cons p rest ih =>
    obtain ⟨k, e2⟩ := p
    by_cases h : c = k
    · subst h
      simp [mapSet]
    · simp only [mapSet, if_neg h, List.map_cons, ih]
      by_cases hmem : c ∈ rest.map Prod.fst <;>
        simp [hmem, h, Ne.symm h]

theorem mapSet_keys_nodup (c : Nat) (e : FuseEntry) (m : List (Nat × FuseEntry))
    (h : (m.map Prod.fst).Nodup) : ((mapSet c e m).map Prod.fst).Nodup := by
  rw [mapSet_keys]
  by_cases hmem : c ∈ m.map Prod.fst
  · simpa [hmem] using h
  · simp only [if_neg hmem]
    simpa [List.nodup_append, hmem] using h

theorem addHits_keys_nodup (w : ℚ) (l : List SearchHit) :
    ∀ (idx : Nat) (m : List (Nat × FuseEntry)),
      (m.map Prod.fst).Nodup → ((addHits w idx l m).map Prod.fst).Nodup := by
  induction l with
  | nil => intro idx m h; exact h
  | cons x rest ih =>
    intro idx m h
    simp only [addHits]
    cases mapLookup x.chunkId m <;>
      exact ih _ _ (mapSet_keys_nodup _ _ _ h)

theorem fuseAddLists_keys_nodup (lists : List (List SearchHit)) :
    ∀ (ws : List ℚ) (m : List (Nat × FuseEntry)),
      (m.map Prod.fst).Nodup → ((fuseAddLists lists ws m).map Prod.fst).Nodup := by
  induction lists with
  | nil => intro ws m h; exact h
  | cons l ls ih =>
    intro ws m h
    exact ih _ _ (addHits_keys_nodup _ _ _ _ h)

theorem mapLookup_of_mem (m : List (Nat × FuseEntry)) (k : Nat) (e : FuseEntry)
    (hnodup : (m.map Prod.fst).Nodup) (hmem : (k, e) ∈ m) : mapLookup k m = some e := by
  induction m with
  | nil => exact absurd hmem (List.not_mem_nil _)
  | cons p rest ih =>
    obtain ⟨k2, e2⟩ := p
    simp only [List.map_cons, List.nodup_cons] at hnodup
    rcases List.mem_cons.mp hmem with h | h
    · obtain ⟨h1, h2⟩ := Prod.mk.injEq .. ▸ h
      injection h with h1 h2
      subst h1
      subst h2
      simp [mapLookup]
    · by_cases hk : k = k2
      · subst hk
        exact absurd (by simpa using List.mem_map_of_mem Prod.fst h) hnodup.1
      · simp only [mapLookup, if_neg hk]
        exact ih hnodup.2 h

theorem applyBonus_hit (e : FuseEntry) : (applyBonus e).hit = e.hit := by
  unfold applyBonus
  by_cases h1 : e.bestRank = 1
  · simp [h1]
  · by_cases h2 : e.bestRank ≤ 3 <;> simp [h1, h2]

theorem applyBonus_score (e : FuseEntry) :
    (applyBonus e).score = e.score + bonusOf (some e.bestRank) := by
  unfold applyBonus bonusOf
  by_cases h1 : e.bestRank = 1
  · simp [h1]
  · by_cases h2 : e.bestRank ≤ 3 <;> simp [h1, h2]

/-! ## Evaluation lemmas for the chunker (symbolic traces) -/

theorem splitOnChar_not_mem (sep : Char) (l : Str) (h : sep ∉ l) :
    splitOnChar sep l = [l] := by
  induction l with
  | nil => rfl
  | cons c rest ih =>
    simp only [List.mem_cons, not_or] at h
    have hrest := ih h.2
    simp [splitOnChar, Ne.symm h.1, hrest]

theorem splitOnChar_sep_cons (sep : Char) (a rest : Str) (h : sep ∉ a) :
    splitOnChar sep (a ++ sep :: rest) = a :: splitOnChar sep rest := by
  induction a with
  | nil => simp [splitOnChar]
  | cons c a2 ih =>
    simp only [List.mem_cons, not_or] at h
    have ha2 := ih h.2
    simp [splitOnChar, Ne.symm h.1, ha2]

theorem joinLines_pair (a b : Str) : joinLines [a, b] = a ++ '\n' :: b := rfl

theorem joinLines_cons_ne (a : Str) (rest : List Str) (h : rest ≠ []) :
    joinLines (a :: rest) = a ++ '\n' :: joinLines rest := by
  cases rest with
  | nil => exact absurd rfl h
  | cons b more => rfl

theorem trimStr_eq_self (l : Str)
    (hhead : ∀ c, l.head? = some c → isWs c = false)
    (hlast : ∀ c, l.getLast? = some c → isWs c = false) :
    trimStr l = l := by
  have hstart : trimStart l = l := by
    cases l with
    | nil => rfl
    | cons c t =>
      have := hhead c rfl
      simp [trimStart, List.dropWhile_cons, this]
  have hendrev : l.reverse.dropWhile isWs = l.reverse := by
    cases hrev : l.reverse with
    | nil => rfl
    | cons c t =>
      have hc : l.getLast? = some c := by
        rw [← List.head?_reverse, hrev]
        rfl
      simp [List.dropWhile_cons, hlast c hc]
  unfold trimStr trimEnd
  rw [hstart, hendrev, List.reverse_reverse]

theorem approxTokens_le_of_length_le (a b : Str) (h : a.length ≤ b.length) :
    approxTokens a ≤ approxTokens b := by
  unfold approxTokens
  have : (a.length + 3) / 4 ≤ (b.length + 3) / 4 := Nat.div_le_div_right (by omega)
  omega

theorem takeOverlapLines_last (xs : List Str) (last : Str) (k : Nat)
    (h : k ≤ approxTokens last) :
    takeOverlapLines (xs ++ [last]) k = [last] := by
  unfold takeOverlapLines
  rw [List.reverse_append]
  simp only [List.reverse_cons, List.reverse_nil, List.nil_append, List.cons_append,
    List.singleton_append]
  unfold takeOverlapAux
  simp only [Nat.zero_add]
  rw [if_pos h]

theorem etlLoop_cons_small (breadcrumb title chunkType : Str) (startLine : Int)
    (line : Str) (rest : List Str) (i : Int) (cur : List Str) (ch : List ChunkDraft)
    (h : approxTokens (joinLines (cur ++ [line])) < MAX_CHUNK_TOKENS) :
    etlLoop breadcrumb title chunkType startLine (line :: rest) i cur ch
      = etlLoop breadcrumb title chunkType startLine rest (i + 1) (cur ++ [line]) ch := by
  simp only [etlLoop]
  rw [if_neg (by omega)]

theorem etlLoop_cons_emit (breadcrumb title chunkType : Str) (startLine : Int)
    (line : Str) (rest : List Str) (i : Int) (cur : List Str) (ch : List ChunkDraft)
    (hbig : MAX_CHUNK_TOKENS ≤ approxTokens (joinLines (cur ++ [line])))
    (hkeep : MIN_CHUNK_TOKENS ≤ approxTokens (trimStr (joinLines (cur ++ [line])))) :
    etlLoop breadcrumb title chunkType startLine (line :: rest) i cur ch
      = etlLoop breadcrumb title chunkType startLine rest (i + 1)
          (takeOverlapLines (cur ++ [line]) OVERLAP_TOKENS)
          (ch ++ [makeChunk (trimStr (joinLines (cur ++ [line]))) breadcrumb title
            (startLine + i - ((cur ++ [line]).length : Int) + 1) (startLine + i) chunkType]) := by
  simp only [etlLoop]
  rw [if_pos (by omega), if_pos (by omega)]

theorem mergeSmallLoop_cons_skip (buffer chunk : ChunkDraft) (rest : List ChunkDraft)
    (h : PREFERRED_MIN_TOKENS ≤ buffer.tokenCount) :
    mergeSmallLoop buffer (chunk :: rest) = buffer :: mergeSmallLoop chunk rest := by
  simp only [mergeSmallLoop]
  rw [if_neg (by omega)]

theorem mergeSmallLoop_cons_merge (buffer chunk : ChunkDraft) (rest : List ChunkDraft)
    (hsmall : buffer.tokenCount < PREFERRED_MIN_TOKENS)
    (hfit : approxTokens (trimStr (buffer.content ++ '\n' :: '\n' :: chunk.content))
      ≤ MAX_CHUNK_TOKENS) :
    mergeSmallLoop buffer (chunk :: rest) =
      mergeSmallLoop
        { buffer with
          content := trimStr (buffer.content ++ '\n' :: '\n' :: chunk.content)
          tokenCount := approxTokens (trimStr (buffer.content ++ '\n' :: '\n' :: chunk.content))
          preview := buildPreview (trimStr (buffer.content ++ '\n' :: '\n' :: chunk.content))
            PREVIEW_CHAR_LIMIT
          lineEnd := (match chunk.lineEnd with
            | some e => some e
            | none => buffer.lineEnd) } rest := by
  simp only [mergeSmallLoop]
  rw [if_pos ⟨hsmall, hfit⟩]

theorem makeChunk_tokenCount (content b t : Str) (s e : Int) (ct : Str) :
    (makeChunk content b t s e ct).tokenCount = approxTokens content := rfl

theorem makeChunk_content (content b t : Str) (s e : Int) (ct : Str) :
    (makeChunk content b t s e ct).content = content := rfl

theorem makeChunk_lineStart (content b t : Str) (s e : Int) (ct : Str) :
    (makeChunk content b t s e ct).lineStart = some s := rfl

theorem makeChunk_lineEnd (content b t : Str) (s e : Int) (ct : Str) :
    (makeChunk content b t s e ct).lineEnd = some e := rfl

theorem mergeSmallChunks_pair (c1 c2 : ChunkDraft) :
    mergeSmallChunks [c1, c2] = mergeSmallLoop c1 [c2] := by
  unfold mergeSmallChunks
  rw [if_neg (by simp)]


/-- Evaluation of the token limiter on a single overlong line: the line is
emitted once when the running count first reaches the limit and once more
as the leftover tail, both times with its full token count. -/
theorem enforceTokenLimit_single_line (content breadcrumb : Str) (path : List Str)
    (startLine endLine : Int) (chunkType : Str)
    (h1 : ('\n') ∉ content) (h2 : trimStr content = content)
    (h3 : MAX_CHUNK_TOKENS < approxTokens content) :
    enforceTokenLimit content breadcrumb path startLine endLine chunkType =
      [makeChunk content breadcrumb ((path.getLast?).getD ("Document".data))
        startLine startLine chunkType,
       makeChunk content breadcrumb ((path.getLast?).getD ("Document".data))
        endLine endLine chunkType] := by
  have hmintok : MIN_CHUNK_TOKENS ≤ approxTokens content := by
    unfold MIN_CHUNK_TOKENS MAX_CHUNK_TOKENS at *
    omega
  have hovtok : OVERLAP_TOKENS ≤ approxTokens content := by
    unfold OVERLAP_TOKENS MAX_CHUNK_TOKENS at *
    omega
  have hjoin : joinLines ([] ++ [content]) = content := rfl
  have hloop : etlLoop breadcrumb ((path.getLast?).getD ("Document".data)) chunkType startLine
      [content] 0 [] []
      = ([makeChunk content breadcrumb ((path.getLast?).getD ("Document".data))
          startLine startLine chunkType], [content]) := by
    rw [etlLoop_cons_emit _ _ _ _ _ _ _ _ _
      (by rw [hjoin]; omega) (by rw [hjoin, h2]; omega)]
    rw [takeOverlapLines_last [] content OVERLAP_TOKENS hovtok]
    simp only [etlLoop]
    rw [hjoin, h2]
    norm_num
  simp only [enforceTokenLimit]
  rw [if_neg (by omega)]
  rw [splitOnChar_not_mem '\n' content h1, hloop]
  dsimp only
  rw [show joinLines [content] = content from rfl, h2]
  rw [if_pos (show ([content] : List Str) ≠ [] by simp)]
  rw [if_pos hmintok]
  simp only [List.length_singleton, Nat.cast_one]
  rw [show endLine - 1 + 1 = endLine from by omega]
  rw [if_neg (by simp)]
  rw [show [makeChunk content breadcrumb (path.getLast?.getD ("Document".data)) startLine startLine chunkType] ++
      [makeChunk content breadcrumb (path.getLast?.getD ("Document".data)) endLine endLine chunkType]
      = [makeChunk content breadcrumb (path.getLast?.getD ("Document".data)) startLine startLine chunkType,
         makeChunk content breadcrumb (path.getLast?.getD ("Document".data)) endLine endLine chunkType] from rfl]
  rw [mergeSmallChunks_pair]
  rw [mergeSmallLoop_cons_skip _ _ _ (by
    rw [makeChunk_tokenCount]
    unfold PREFERRED_MIN_TOKENS MAX_CHUNK_TOKENS at *
    omega)]
  simp only [mergeSmallLoop]

/-! ## Token-limiter invariants (chunk/markdown.ts) -/

/-- The head of a `dropWhile` result never satisfies the predicate. -/
theorem head_dropWhile_false (p : Char → Bool) (l : Str) (d : Char)
    (h : (l.dropWhile p).head? = some d) : p d = false := by
  induction l with
  | nil => simp [List.dropWhile] at h
  | cons c t ih =>
    rw [List.dropWhile_cons] at h
    by_cases hc : p c
    · rw [if_pos hc] at h; exact ih h
    · rw [if_neg hc] at h
      simp only [List.head?_cons, Option.some.injEq] at h
      subst h
      exact Bool.eq_false_iff.mpr hc

/-- `trimEnd` returns a prefix of its argument. -/
theorem trimEnd_prefix (t : Str) : trimEnd t <+: t := by
  unfold trimEnd
  have h : List.dropWhile isWs t.reverse <:+ t.reverse := List.dropWhile_suffix isWs
  have h2 := List.reverse_prefix.mpr h
  simpa using h2

/-- `trimEnd` never lengthens its argument. -/
theorem length_trimEnd_le (s : Str) : (trimEnd s).length ≤ s.length := by
  obtain ⟨u, hu⟩ := trimEnd_prefix s
  calc (trimEnd s).length ≤ (trimEnd s).length + u.length := Nat.le_add_right _ _
    _ = s.length := by rw [← List.length_append, hu]

/-- The first character of a trimmed string is not whitespace. -/
theorem trimStr_head (s : Str) (d : Char) (h : (trimStr s).head? = some d) :
    isWs d = false := by
  unfold trimStr at h
  obtain ⟨u, hu⟩ := trimEnd_prefix (trimStart s)
  have hh : (trimStart s).head? = some d := by
    rw [← hu, List.head?_append, h]
    rfl
  exact head_dropWhile_false isWs s d hh

/-- The last character of a trimmed string is not whitespace. -/
theorem trimStr_getLast (s : Str) (d : Char) (h : (trimStr s).getLast? = some d) :
    isWs d = false := by
  unfold trimStr trimEnd at h
  rw [List.getLast?_eq_head?_reverse, List.reverse_reverse] at h
  exact head_dropWhile_false isWs (trimStart s).reverse d h

/-- Replicating a non-whitespace character gives a trim fixpoint. -/
theorem trimStr_replicate (n : Nat) (c : Char) (hc : isWs c = false) :
    trimStr (List.replicate n c) = List.replicate n c := by
  apply trimStr_eq_self
  · intro d hd
    cases n with
    | zero => simp at hd
    | succ m =>
      rw [List.replicate_succ] at hd
      simp only [List.head?_cons, Option.some.injEq] at hd
      subst hd; exact hc
  · intro d hd
    rw [List.getLast?_eq_head?_reverse, List.reverse_replicate] at hd
    cases n with
    | zero => simp at hd
    | succ m =>
      rw [List.replicate_succ] at hd
      simp only [List.head?_cons, Option.some.injEq] at hd
      subst hd; exact hc

theorem goodChunk_makeChunk (content b t : Str) (s e : Int) (ct : Str)
    (hmin : MIN_CHUNK_TOKENS ≤ approxTokens (trimStr content)) :
    GoodChunk (makeChunk (trimStr content) b t s e ct) :=
  ⟨hmin, rfl, fun d hd => trimStr_head content d hd, fun d hd => trimStr_getLast content d hd⟩

theorem goodChunk_content_ne_nil (c : ChunkDraft) (h : GoodChunk c) : c.content ≠ [] := by
  intro hnil
  have h1 := h.1
  rw [h.2.1, hnil] at h1
  exact absurd h1 (by decide)

/-- Every chunk the `enforceTokenLimit` while-loop accumulates is good. -/
theorem etlLoop_good (breadcrumb title chunkType : Str) (startLine : Int) :
    ∀ (lines : List Str) (i : Int) (cur : List Str) (ch : List ChunkDraft),
    (∀ c ∈ ch, GoodChunk c) →
    ∀ c ∈ (etlLoop breadcrumb title chunkType startLine lines i cur ch).1, GoodChunk c := by
  intro lines
  induction lines with
  | nil => intro i cur ch hch c hc; exact hch c hc
  | cons line rest ih =>
    intro i cur ch hch c hc
    simp only [etlLoop] at hc
    by_cases hbig : approxTokens (joinLines (cur ++ [line])) ≥ MAX_CHUNK_TOKENS
    · rw [if_pos hbig] at hc
      by_cases hmin : approxTokens (trimStr (joinLines (cur ++ [line]))) ≥ MIN_CHUNK_TOKENS
      · rw [if_pos hmin] at hc
        refine ih _ _ _ ?_ c hc
        intro c' hc'
        rcases List.mem_append.mp hc' with h | h
        · exact hch c' h
        · rcases List.mem_singleton.mp h with rfl
          exact goodChunk_makeChunk _ _ _ _ _ _ hmin
      · rw [if_neg hmin] at hc
        exact ih _ _ _ hch c hc
    · rw [if_neg hbig] at hc
      exact ih _ _ _ hch c hc

/-- Merging a good buffer with a good successor yields a good buffer. -/
theorem goodChunk_merge (buffer chunk : ChunkDraft) (hb : GoodChunk buffer)
    (hc : GoodChunk chunk) :
    GoodChunk { buffer with
      content := trimStr (buffer.content ++ '\n' :: '\n' :: chunk.content)
      tokenCount := approxTokens (trimStr (buffer.content ++ '\n' :: '\n' :: chunk.content))
      preview := buildPreview (trimStr (buffer.content ++ '\n' :: '\n' :: chunk.content))
        PREVIEW_CHAR_LIMIT
      lineEnd := (match chunk.lineEnd with
        | some e => some e
        | none => buffer.lineEnd) } := by
  have hbne := goodChunk_content_ne_nil buffer hb
  have hcne := goodChunk_content_ne_nil chunk hc
  have heq : trimStr (buffer.content ++ '\n' :: '\n' :: chunk.content)
      = buffer.content ++ '\n' :: '\n' :: chunk.content := by
    apply trimStr_eq_self
    · intro d hd
      cases hbc : buffer.content with
      | nil => exact absurd hbc hbne
      | cons x t =>
        rw [hbc] at hd
        simp only [List.cons_append, List.head?_cons, Option.some.injEq] at hd
        subst hd
        exact hb.2.2.1 x (by rw [hbc]; rfl)
    · intro d hd
      rw [show buffer.content ++ '\n' :: '\n' :: chunk.content
          = (buffer.content ++ ['\n', '\n']) ++ chunk.content by simp] at hd
      rw [List.getLast?_append] at hd
      cases hh : chunk.content.getLast? with
      | none => exact absurd (List.getLast?_eq_none_iff.mp hh) hcne
      | some x =>
        rw [hh] at hd
        simp only [Option.or_some, Option.some.injEq] at hd
        subst hd
        exact hc.2.2.2 x hh
  refine ⟨?_, rfl, fun d hd => trimStr_head _ d hd, fun d hd => trimStr_getLast _ d hd⟩
  show MIN_CHUNK_TOKENS ≤ approxTokens (trimStr (buffer.content ++ '\n' :: '\n' :: chunk.content))
  rw [heq]
  have hlen : buffer.content.length ≤ (buffer.content ++ '\n' :: '\n' :: chunk.content).length := by
    simp
  have hmono := approxTokens_le_of_length_le _ _ hlen
  have h1 := hb.1
  rw [hb.2.1] at h1
  omega

/-- The merge loop keeps every chunk good. -/
theorem mergeSmallLoop_good : ∀ (rest : List ChunkDraft) (buffer : ChunkDraft),
    GoodChunk buffer → (∀ c ∈ rest, GoodChunk c) →
    ∀ c ∈ mergeSmallLoop buffer rest, GoodChunk c := by
  intro rest
  induction rest with
  | nil =>
    intro buffer hb _ c hc
    simp only [mergeSmallLoop, List.mem_singleton] at hc
    subst hc; exact hb
  | cons chunk rest ih =>
    intro buffer hb hrest c hc
    simp only [mergeSmallLoop] at hc
    by_cases hcond : buffer.tokenCount < PREFERRED_MIN_TOKENS ∧
        approxTokens (trimStr (buffer.content ++ '\n' :: '\n' :: chunk.content))
          ≤ MAX_CHUNK_TOKENS
    · rw [if_pos hcond] at hc
      exact ih _ (goodChunk_merge buffer chunk hb (hrest chunk (by simp)))
        (fun c' hc' => hrest c' (by simp [hc'])) c hc
    · rw [if_neg hcond] at hc
      rcases List.mem_cons.mp hc with rfl | h
      · exact hb
      · exact ih chunk (hrest chunk (by simp)) (fun c' hc' => hrest c' (by simp [hc'])) c h

/-- `mergeSmallChunks` keeps every chunk good. -/
theorem mergeSmallChunks_good (chunks : List ChunkDraft)
    (h : ∀ c ∈ chunks, GoodChunk c) :
    ∀ c ∈ mergeSmallChunks chunks, GoodChunk c := by
  unfold mergeSmallChunks
  by_cases hl : chunks.length ≤ 1
  · rw [if_pos hl]; exact h
  · rw [if_neg hl]
    cases chunks with
    | nil => simp
    | cons c0 rest =>
      exact mergeSmallLoop_good rest c0 (h c0 (by simp)) (fun c' hc' => h c' (by simp [hc']))

/-- The clamped text stays within the token budget. -/
theorem approxTokens_clampToTokens_le (text : Str) (limit : Nat) (hl : 1 ≤ limit) :
    approxTokens (clampToTokens text limit) ≤ limit := by
  unfold clampToTokens
  by_cases h : approxTokens text ≤ limit
  · rw [if_pos h]; exact h
  · rw [if_neg h]
    have h1 : approxTokens (trimEnd (text.take (max 1 (limit * 4))))
        ≤ approxTokens (text.take (max 1 (limit * 4))) :=
      approxTokens_le_of_length_le _ _ (length_trimEnd_le _)
    have h2 : (text.take (max 1 (limit * 4))).length ≤ max 1 (limit * 4) :=
      List.length_take_le _ _
    unfold approxTokens at h1 ⊢
    omega

/-- Splitting an over-long content keeps every piece at 40 tokens or
more, unless no piece reached 40 tokens, in which case a single clamped
chunk of at most 600 tokens is produced. -/
theorem enforceTokenLimit_min_or_single (content breadcrumb : Str) (path : List Str)
    (startLine endLine : Int) (chunkType : Str)
    (hbig : MAX_CHUNK_TOKENS < approxTokens content) :
    (∀ c ∈ enforceTokenLimit content breadcrumb path startLine endLine chunkType,
      MIN_CHUNK_TOKENS ≤ c.tokenCount) ∨
    (∃ c, enforceTokenLimit content breadcrumb path startLine endLine chunkType = [c] ∧
      c.tokenCount ≤ MAX_CHUNK_TOKENS) := by
  have hloopgood := etlLoop_good breadcrumb ((path.getLast?).getD ("Document".data)) chunkType
      startLine (splitOnChar '\n' content) 0 [] [] (by simp)
  simp only [enforceTokenLimit]
  rw [if_neg (by omega)]
  set lr := etlLoop breadcrumb ((path.getLast?).getD ("Document".data)) chunkType startLine
      (splitOnChar '\n' content) 0 [] [] with hlr
  have hclamp : approxTokens (clampToTokens content MAX_CHUNK_TOKENS) ≤ MAX_CHUNK_TOKENS :=
    approxTokens_clampToTokens_le content MAX_CHUNK_TOKENS (by decide)
  have hsingle : ∀ ck : ChunkDraft, ck.tokenCount ≤ MAX_CHUNK_TOKENS →
      (∃ c, mergeSmallChunks [ck] = [c] ∧ c.tokenCount ≤ MAX_CHUNK_TOKENS) := by
    intro ck hck
    refine ⟨ck, ?_, hck⟩
    unfold mergeSmallChunks
    rw [if_pos (by simp)]
  have hgoodcase : ∀ cs : List ChunkDraft, (∀ c ∈ cs, GoodChunk c) → cs ≠ [] →
      (∀ c ∈ mergeSmallChunks (if cs = [] ∧ approxTokens content > 0
          then [makeChunk (clampToTokens content MAX_CHUNK_TOKENS) breadcrumb
            ((path.getLast?).getD ("Document".data)) startLine endLine chunkType]
          else cs), MIN_CHUNK_TOKENS ≤ c.tokenCount) := by
    intro cs hcs hne c hc
    rw [if_neg (by intro h; exact hne h.1)] at hc
    exact (mergeSmallChunks_good cs hcs c hc).1
  by_cases hend : lr.2 ≠ []
  · rw [if_pos hend]
    by_cases hmin : approxTokens (trimStr (joinLines lr.2)) ≥ MIN_CHUNK_TOKENS
    · rw [if_pos hmin]
      left
      refine hgoodcase _ ?_ (by simp)
      intro c' hc'
      rcases List.mem_append.mp hc' with h | h
      · exact hloopgood c' h
      · rcases List.mem_singleton.mp h with rfl
        exact goodChunk_makeChunk _ _ _ _ _ _ hmin
    · rw [if_neg hmin]
      by_cases hone : lr.1 = []
      · rw [if_pos ⟨hone, by omega⟩]
        right
        exact hsingle _ hclamp
      · left
        exact hgoodcase _ hloopgood hone
  · rw [if_neg hend]
    by_cases hone : lr.1 = []
    · rw [if_pos ⟨hone, by omega⟩]
      right
      exact hsingle _ hclamp
    · left
      exact hgoodcase _ hloopgood hone

/-! ## Line-range invariants of the code chunker -/

/-- Line-range soundness for a chunk draft: when both endpoints are set
they are ordered, and they are either both set or both unset. -/
def LineInv (c : ChunkDraft) : Prop :=
  (∃ s e, c.lineStart = some s ∧ c.lineEnd = some e ∧ s ≤ e) ∨
    (c.lineStart = none ∧ c.lineEnd = none)

theorem formatChunk_lineInv (breadcrumb code : Str) (language : Option Str)
    (symbol : CodeChunkResult) (pi pc : Option Int)
    (h : symbol.startLine ≤ symbol.endLine) :
    LineInv (formatChunk breadcrumb code language symbol pi pc) :=
  Or.inl ⟨symbol.startLine, symbol.endLine, rfl, rfl, h⟩

theorem formatFallbackChunk_lineInv (code filePath : Str) (language : Option Str)
    (pfx : List Str) : LineInv (formatFallbackChunk code filePath language pfx) :=
  Or.inr ⟨rfl, rfl⟩

theorem mergeChunks_lineInv (a b : ChunkDraft) (ha : LineInv a) (hb : LineInv b) :
    LineInv (mergeChunks a b) := by
  have hs : (mergeChunks a b).lineStart = minLine a.lineStart b.lineStart := rfl
  have he : (mergeChunks a b).lineEnd = maxLine a.lineEnd b.lineEnd := rfl
  unfold LineInv at *
  rcases ha with ⟨sa, ea, hsa, hea, hab⟩ | ⟨hsa, hea⟩ <;>
    rcases hb with ⟨sb, eb, hsb, heb, hbb⟩ | ⟨hsb, heb⟩ <;>
      rw [hs, he, hsa, hea, hsb, heb] <;> simp only [minLine, maxLine]
  · exact Or.inl ⟨min sa sb, max ea eb, rfl, rfl, le_trans (min_le_left sa sb)
      (le_trans hab (le_max_left ea eb))⟩
  · exact Or.inl ⟨sa, ea, rfl, rfl, hab⟩
  · exact Or.inl ⟨sb, eb, rfl, rfl, hbb⟩
  · exact Or.inr ⟨trivial, trivial⟩

theorem mscLoop_lineInv : ∀ (rest : List ChunkDraft) (buffer : ChunkDraft),
    LineInv buffer → (∀ c ∈ rest, LineInv c) →
    ∀ c ∈ mscLoop buffer rest, LineInv c := by
  intro rest
  induction rest with
  | nil =>
    intro buffer hb _ c hc
    simp only [mscLoop, List.mem_singleton] at hc
    subst hc; exact hb
  | cons chunk rest ih =>
    intro buffer hb hrest c hc
    simp only [mscLoop] at hc
    by_cases hcond : (canMerge buffer chunk &&
        decide (combinedTokens buffer chunk ≤ MERGE_COMBINED_MAX_TOKENS)) = true
    · rw [if_pos hcond] at hc
      exact ih _ (mergeChunks_lineInv buffer chunk hb (hrest chunk (by simp)))
        (fun c' hc' => hrest c' (by simp [hc'])) c hc
    · rw [if_neg hcond] at hc
      rcases List.mem_cons.mp hc with rfl | h
      · exact hb
      · exact ih chunk (hrest chunk (by simp)) (fun c' hc' => hrest c' (by simp [hc'])) c h

theorem mergeSymbolChunks_lineInv (chunks : List ChunkDraft)
    (h : ∀ c ∈ chunks, LineInv c) : ∀ c ∈ mergeSymbolChunks chunks, LineInv c := by
  unfold mergeSymbolChunks
  by_cases hl : chunks.length < 2
  · rw [if_pos hl]; exact h
  · rw [if_neg hl]
    cases chunks with
    | nil => simp
    | cons c0 rest =>
      exact mscLoop_lineInv rest c0 (h c0 (by simp)) (fun c' hc' => h c' (by simp [hc']))

/-- The pruning pass only keeps chunks of its input list. -/
theorem pruneRedundantNestedChunks_subset (chunks : List ChunkDraft) :
    ∀ c ∈ pruneRedundantNestedChunks chunks, c ∈ chunks := by
  intro c hc
  unfold pruneRedundantNestedChunks at hc
  by_cases hl : chunks.length ≤ 1
  · rw [if_pos hl] at hc; exact hc
  · rw [if_neg hl] at hc
    rcases List.mem_filterMap.mp hc with ⟨i, _, hi⟩
    cases hgi : chunks[i]? with
    | none => rw [hgi] at hi; exact absurd hi (by simp)
    | some chunk =>
      rw [hgi] at hi
      dsimp only at hi
      split at hi
      · exact absurd hi (by simp)
      · simp only [Option.some.injEq] at hi
        subst hi
        exact List.getElem?_mem hgi

theorem formatRawChunks_lineInv (pfx : List Str) (filePath : Str) (language : Option Str) :
    ∀ (raws : List CodeChunkResult), (∀ r ∈ raws, r.startLine ≤ r.endLine) →
    ∀ c ∈ formatRawChunks pfx filePath language raws, LineInv c := by
  intro raws
  induction raws with
  | nil => intro _ c hc; simp [formatRawChunks] at hc
  | cons chunk rest ih =>
    intro hraws c hc
    have hchunk : chunk.startLine ≤ chunk.endLine := hraws chunk (by simp)
    have hrest : ∀ r ∈ rest, r.startLine ≤ r.endLine := fun r hr => hraws r (by simp [hr])
    simp only [formatRawChunks] at hc
    by_cases hempty : trimStr chunk.text = []
    · rw [if_pos hempty] at hc
      exact ih hrest c hc
    · rw [if_neg hempty] at hc
      rcases List.mem_append.mp hc with h | h
      · by_cases hbig : approxTokens (buildBreadcrumb (pfx.map some ++
            [some filePath, chunk.symbolName]) ++ '\n' :: '\n' ::
            wrapCodeFence (trimStr chunk.text) language) > MAX_TOKENS
        · rw [if_pos hbig] at h
          rcases List.mem_map.mp h with ⟨idx, _, hidx⟩
          subst hidx
          exact formatChunk_lineInv _ _ _ _ _ _ hchunk
        · rw [if_neg hbig] at h
          rcases List.mem_singleton.mp h with rfl
          exact formatChunk_lineInv _ _ _ _ _ _ hchunk
      · exact ih hrest c h

/-- Line-range invariant for the whole draft pipeline: good raw chunks
give drafts whose set endpoints are ordered. -/
theorem buildCodeChunkDrafts_lineInv (raws : List CodeChunkResult)
    (content filePath : Str) (language : Option Str) (pfx : List Str)
    (h : ∀ r ∈ raws, r.startLine ≤ r.endLine) :
    ∀ c ∈ buildCodeChunkDrafts raws content filePath language pfx, LineInv c := by
  intro c hc
  unfold buildCodeChunkDrafts at hc
  by_cases hz : raws.length = 0
  · rw [if_pos hz] at hc
    rcases List.mem_singleton.mp hc with rfl
    exact formatFallbackChunk_lineInv _ _ _ _
  · rw [if_neg hz] at hc
    have hsub := pruneRedundantNestedChunks_subset _ c hc
    exact mergeSymbolChunks_lineInv _
      (formatRawChunks_lineInv pfx filePath language raws h) c hsub

/-! ## Start/end invariants of the raw code chunkers -/

/-- Loop invariant of `chunkByLinesFallback`: emitted chunks are ordered
and the window start tracks the cursor. -/
theorem cblLoop_ok (base : Int) (lang : Option Str) :
    ∀ (lines : List Str) (index startLine : Int) (current : List Str)
      (chunks : List CodeChunkResult),
    startLine + (current.length : Int) = base + index →
    (∀ r ∈ chunks, r.startLine ≤ r.endLine) →
    (∀ r ∈ (cblLoop base lang lines index startLine current chunks).1,
      r.startLine ≤ r.endLine) ∧
    ((cblLoop base lang lines index startLine current chunks).2.2 +
        ((cblLoop base lang lines index startLine current chunks).2.1.length : Int)
      = base + index + (lines.length : Int)) := by
  intro lines
  induction lines with
  | nil =>
    intro index startLine current chunks hinv hok
    simp only [cblLoop]
    refine ⟨hok, ?_⟩
    simp only [List.length_nil, Nat.cast_zero, add_zero]
    omega
  | cons line rest ih =>
    intro index startLine current chunks hinv hok
    simp only [cblLoop]
    by_cases hbig : approxTokens (joinLines (current ++ [line])) ≥ TARGET_TOKENS
    · rw [if_pos hbig]
      have hlen2 : 1 ≤ ((current ++ [line]).drop
          ((current ++ [line]).length - CODE_OVERLAP_LINES)).length := by
        rw [List.length_drop, List.length_append]
        simp only [List.length_singleton]
        unfold CODE_OVERLAP_LINES
        omega
      have := ih (index + 1)
        (base + index - (((current ++ [line]).drop
          ((current ++ [line]).length - CODE_OVERLAP_LINES)).length : Int) + 1)
        ((current ++ [line]).drop ((current ++ [line]).length - CODE_OVERLAP_LINES))
        (chunks ++ [{ text := joinLines (current ++ [line]), startLine := startLine, endLine := base + index, language := lang }])
        (by omega)
        (by
          intro r hr
          rcases List.mem_append.mp hr with h | h
          · exact hok r h
          · rcases List.mem_singleton.mp h with rfl
            show startLine ≤ base + index
            have hc : (0 : Int) ≤ (current.length : Int) := by positivity
            omega)
      constructor
      · exact this.1
      · have h2 := this.2
        push_cast [List.length_cons] at h2 ⊢
        omega
    · rw [if_neg hbig]
      have := ih (index + 1) startLine (current ++ [line]) chunks
        (by push_cast [List.length_append, List.length_singleton]; omega) hok
      constructor
      · exact this.1
      · have h2 := this.2
        push_cast [List.length_cons] at h2 ⊢
        omega

/-- Every chunk of `chunkByLinesFallback` has ordered line endpoints. -/
theorem chunkByLinesFallback_ok (code : Str) (base : Int) (lang : Option Str) :
    ∀ r ∈ chunkByLinesFallback code base lang, r.startLine ≤ r.endLine := by
  intro r hr
  unfold chunkByLinesFallback at hr
  have h := cblLoop_ok base lang (splitOnChar '\n' code) 0 base [] [] (by simp) (by simp)
  by_cases htail : (cblLoop base lang (splitOnChar '\n' code) 0 base [] []).2.1.length > 0
  · rw [if_pos htail] at hr
    rcases List.mem_append.mp hr with hm | hm
    · exact h.1 r hm
    · rcases List.mem_singleton.mp hm with rfl
      show (cblLoop base lang (splitOnChar '\n' code) 0 base [] []).2.2
        ≤ base + ((splitOnChar '\n' code).length : Int) - 1
      have h2 := h.2
      omega
  · rw [if_neg htail] at hr
    exact h.1 r hr

/-- Loop invariant of `chunkSymbolLines`. -/
theorem cslLoop_ok (base : Int) (startRow : Nat) (sn : Option Str) (st si lg : Str) :
    ∀ (lines : List Str) (index chunkStart : Int) (chunkLines : List Str)
      (parts : List CodeChunkResult),
    chunkStart + (chunkLines.length : Int) = index →
    (∀ r ∈ parts, r.startLine ≤ r.endLine) →
    (∀ r ∈ (cslLoop base startRow sn st si lg lines index chunkStart chunkLines parts).1,
      r.startLine ≤ r.endLine) ∧
    ((cslLoop base startRow sn st si lg lines index chunkStart chunkLines parts).2.2 +
        ((cslLoop base startRow sn st si lg lines index chunkStart
          chunkLines parts).2.1.length : Int)
      = index + (lines.length : Int)) := by
  intro lines
  induction lines with
  | nil =>
    intro index chunkStart chunkLines parts hinv hok
    simp only [cslLoop]
    refine ⟨hok, ?_⟩
    simp only [List.length_nil, Nat.cast_zero, add_zero]
    omega
  | cons line rest ih =>
    intro index chunkStart chunkLines parts hinv hok
    simp only [cslLoop]
    by_cases hbig : approxTokens (joinLines (chunkLines ++ [line])) ≥ TARGET_TOKENS
    · rw [if_pos hbig]
      have hlen2 : 1 ≤ ((chunkLines ++ [line]).drop
          ((chunkLines ++ [line]).length - CODE_OVERLAP_LINES)).length := by
        rw [List.length_drop, List.length_append]
        simp only [List.length_singleton]
        unfold CODE_OVERLAP_LINES
        omega
      have := ih (index + 1)
        (index - ((((chunkLines ++ [line]).drop
          ((chunkLines ++ [line]).length - CODE_OVERLAP_LINES)).length : Int) - 1))
        ((chunkLines ++ [line]).drop ((chunkLines ++ [line]).length - CODE_OVERLAP_LINES))
        (parts ++ [{ text := joinLines (chunkLines ++ [line]), startLine := base + (startRow : Int) + chunkStart, endLine := base + (startRow : Int) + index, symbolName := sn, symbolType := some st, symbolId := some si, partIndex := some ((parts.length : Nat) : Int), partCount := some 0, language := some lg }])
        (by omega)
        (by
          intro r hr
          rcases List.mem_append.mp hr with h | h
          · exact hok r h
          · rcases List.mem_singleton.mp h with rfl
            show base + (startRow : Int) + chunkStart ≤ base + (startRow : Int) + index
            have hc : (0 : Int) ≤ (chunkLines.length : Int) := by positivity
            omega)
      constructor
      · exact this.1
      · have h2 := this.2
        push_cast [List.length_cons] at h2 ⊢
        omega
    · rw [if_neg hbig]
      have := ih (index + 1) chunkStart (chunkLines ++ [line]) parts
        (by push_cast [List.length_append, List.length_singleton]; omega) hok
      constructor
      · exact this.1
      · have h2 := this.2
        push_cast [List.length_cons] at h2 ⊢
        omega

/-- Every chunk of `chunkSymbolLines` has ordered line endpoints. -/
theorem chunkSymbolLines_ok (startRow endRow : Nat) (lines : List Str) (base : Int)
    (sn : Option Str) (st si lg : Str) :
    ∀ r ∈ chunkSymbolLines startRow endRow lines base sn st si lg,
      r.startLine ≤ r.endLine := by
  intro r hr
  unfold chunkSymbolLines at hr
  by_cases hz : ((lines.drop startRow).take (endRow + 1 - startRow)).length = 0
  · rw [if_pos hz] at hr
    exact absurd hr (by simp)
  · rw [if_neg hz] at hr
    set nodeLines := (lines.drop startRow).take (endRow + 1 - startRow) with hnl
    have h := cslLoop_ok base startRow sn st si lg nodeLines 0 0 [] [] (by simp) (by simp)
    set res := cslLoop base startRow sn st si lg nodeLines 0 0 [] [] with hres
    have hparts : ∀ p ∈ (if res.2.1.length > 0 then
        res.1 ++ [{ text := joinLines res.2.1, startLine := base + (startRow : Int) + res.2.2, endLine := base + (startRow : Int) + (nodeLines.length : Int) - 1, symbolName := sn, symbolType := some st, symbolId := some si, partIndex := some (res.1.length : Int), partCount := some 0, language := some lg }]
        else res.1), p.startLine ≤ p.endLine := by
      intro p hp
      by_cases htail : res.2.1.length > 0
      · rw [if_pos htail] at hp
        rcases List.mem_append.mp hp with hm | hm
        · exact h.1 p hm
        · rcases List.mem_singleton.mp hm with rfl
          show base + (startRow : Int) + res.2.2
            ≤ base + (startRow : Int) + (nodeLines.length : Int) - 1
          have h2 := h.2
          omega
      · rw [if_neg htail] at hp
        exact h.1 p hp
    by_cases hmany : (if res.2.1.length > 0 then
        res.1 ++ [{ text := joinLines res.2.1, startLine := base + (startRow : Int) + res.2.2, endLine := base + (startRow : Int) + (nodeLines.length : Int) - 1, symbolName := sn, symbolType := some st, symbolId := some si, partIndex := some (res.1.length : Int), partCount := some 0, language := some lg }]
        else res.1).length > 1
    · rw [if_pos hmany] at hr
      rcases List.mem_map.mp hr with ⟨p, hp, hpr⟩
      subst hpr
      exact hparts p hp
    · rw [if_neg hmany] at hr
      exact hparts r hr

/-! ## Evaluation lemmas for the markdown pipeline counterexamples -/

/-- Strings whose first character is not whitespace are `trimStart`
fixpoints. -/
theorem trimStart_eq_self (l : Str)
    (hhead : ∀ c, l.head? = some c → isWs c = false) : trimStart l = l := by
  cases l with
  | nil => rfl
  | cons c t =>
    have := hhead c rfl
    simp [trimStart, List.dropWhile_cons, this]

/-- Strings whose last character is not whitespace are `trimEnd`
fixpoints. -/
theorem trimEnd_eq_self (l : Str)
    (hlast : ∀ c, l.getLast? = some c → isWs c = false) : trimEnd l = l := by
  unfold trimEnd
  cases hrev : l.reverse with
  | nil =>
    have hl : l = [] := by simpa using congrArg List.reverse hrev
    subst hl; rfl
  | cons c t =>
    have hc : l.getLast? = some c := by
      rw [List.getLast?_eq_head?_reverse, hrev]; rfl
    rw [List.dropWhile_cons, if_neg (by simp [hlast c hc])]
    rw [← hrev, List.reverse_reverse]

/-- A substring whose first character is absent is not contained. -/
theorem containsSeq_eq_false_of_not_mem (p : Char) (pt : Str) (l : Str) (h : p ∉ l) :
    containsSeq (p :: pt) l = false := by
  induction l with
  | nil => simp [containsSeq]
  | cons c rest ih =>
    simp only [containsSeq]
    rw [ih (fun hm => h (by simp [hm]))]
    have hpre : ¬((p :: pt) <+: (c :: rest)) := by
      intro hp
      rcases hp with ⟨u, hu⟩
      have hpc : p = c := by injection hu
      exact h (by simp [hpc])
    simp [hpre]

/-- No `<` means no pre/code tag. -/
theorem containsPreCodeTag_eq_false (l : Str) (h : ('<') ∉ l) :
    containsPreCodeTag l = false := by
  induction l with
  | nil => rfl
  | cons c rest ih =>
    simp only [containsPreCodeTag]
    rw [ih (fun hm => h (by simp [hm]))]
    have hc : decide (c = '<') = false := by
      simp only [decide_eq_false_iff_not]
      intro hc; exact h (by simp [hc])
    simp [hc]

/-- A line that does not start with a hash is not a heading. -/
theorem parseHeading_none_of_head (line : Str) (h : line.head? ≠ some '#') :
    parseHeading line = none := by
  cases line with
  | nil => rfl
  | cons c t =>
    have hc : c ≠ '#' := fun hc => h (by rw [hc]; rfl)
    simp only [parseHeading, List.takeWhile_cons]
    rw [if_neg (by simp [hc])]

/-- Content none of whose lines starts with a hash has no nested
heading. -/
theorem hasNestedHeading_false_of_no_hash (content : Str)
    (h : ∀ line ∈ splitOnChar '\n' content, line.head? ≠ some '#') :
    hasNestedHeading content = false := by
  unfold hasNestedHeading
  rw [List.any_eq_false]
  intro line hline
  cases line with
  | nil => simp
  | cons c t =>
    have hc : c ≠ '#' := by
      intro hc; exact h _ hline (by rw [hc]; rfl)
    simp only [List.takeWhile_cons]
    rw [if_neg (by simp [hc])]
    simp

/-- Lines without headings leave the heading collector empty. -/
theorem collectHeadings_nil_of_no_heading (lines : List Str) (title : Str)
    (h : ∀ line ∈ lines, parseHeading line = none) :
    collectHeadings lines title = [] := by
  have hgo : ∀ (ls : List Str), (∀ line ∈ ls, parseHeading line = none) →
      ∀ idx, collectHeadingsGo idx ls [⟨1, title, 1, []⟩] = [⟨1, title, 1, []⟩] := by
    intro ls
    induction ls with
    | nil => intro _ idx; rfl
    | cons l rest ih =>
      intro hh idx
      simp only [collectHeadingsGo, hh l (by simp)]
      exact ih (fun x hx => hh x (by simp [hx])) (idx + 1)
  unfold collectHeadings
  rw [hgo lines h]
  rfl

/-- Dropping a run of matching characters before a remainder. -/
theorem dropWhile_replicate_append (p : Char → Bool) (c : Char) (hc : p c = true) :
    ∀ (n : Nat) (rest : Str),
    List.dropWhile p (List.replicate n c ++ rest) = List.dropWhile p rest := by
  intro n
  induction n with
  | zero => intro rest; rfl
  | succ m ih =>
    intro rest
    rw [List.replicate_succ, List.cons_append, List.dropWhile_cons, if_pos hc]
    exact ih rest

/-- The token limiter on a breadcrumbed single overlong line: the
"Document" header plus a blank line plus one long line is emitted as one
over-limit chunk spanning the three raw lines, and the leftover line is
re-emitted as the tail chunk. -/
theorem etl_doc_prefix_line (content : Str)
    (h1 : ('\n') ∉ content)
    (h2 : trimStr content = content)
    (h3 : MAX_CHUNK_TOKENS < approxTokens content) :
    enforceTokenLimit (("Document".data) ++ '\n' :: '\n' :: content) ("Document".data)
      [("Document".data)] 1 1 ("doc".data) =
    [makeChunk (("Document".data) ++ '\n' :: '\n' :: content) ("Document".data)
      ("Document".data) 1 3 ("doc".data),
     makeChunk content ("Document".data) ("Document".data) 1 1 ("doc".data)] := by
  have hne : content ≠ [] := by
    intro h0; rw [h0] at h3; exact absurd h3 (by decide)
  have hMAX : MAX_CHUNK_TOKENS = 600 := rfl
  have hMIN : MIN_CHUNK_TOKENS = 40 := rfl
  have hOV : OVERLAP_TOKENS = 60 := rfl
  have hPREF : PREFERRED_MIN_TOKENS = 200 := rfl
  have hmono2 : ∀ (A : Str), approxTokens content ≤
      approxTokens (A ++ '\n' :: '\n' :: content) := by
    intro A
    apply approxTokens_le_of_length_le
    simp only [List.length_append, List.length_cons]
    omega
  have htrim2 : trimStr (("Document".data) ++ '\n' :: '\n' :: content)
      = ("Document".data) ++ '\n' :: '\n' :: content := by
    apply trimStr_eq_self
    · intro d hd
      simp only [List.head?_append] at hd
      have hD : (("Document".data).head?).or (('\n' :: '\n' :: content).head?) = some 'D' := rfl
      rw [hD] at hd
      have hd2 := Option.some.inj hd
      subst hd2
      decide
    · intro d hd
      rw [show ("Document".data) ++ '\n' :: '\n' :: content
          = (("Document".data) ++ ['\n', '\n']) ++ content by simp] at hd
      rw [List.getLast?_append] at hd
      cases hlast : content.getLast? with
      | none => exact absurd (List.getLast?_eq_none_iff.mp hlast) hne
      | some x =>
        rw [hlast] at hd
        simp only [Option.or_some, Option.some.injEq] at hd
        subst hd
        exact trimStr_getLast content x (by rw [h2]; exact hlast)
  have hsplit : splitOnChar '\n' (("Document".data) ++ '\n' :: '\n' :: content)
      = [("Document".data), [], content] := by
    rw [splitOnChar_sep_cons '\n' ("Document".data) ('\n' :: content) (by decide)]
    rw [show ('\n' :: content) = ([] : Str) ++ '\n' :: content from rfl]
    rw [splitOnChar_sep_cons '\n' [] content (by simp)]
    rw [splitOnChar_not_mem '\n' content h1]
  have hovtok : OVERLAP_TOKENS ≤ approxTokens content := by omega
  have hloop : etlLoop ("Document".data) ("Document".data) ("doc".data) 1
      [("Document".data), [], content] 0 [] []
      = ([makeChunk (("Document".data) ++ '\n' :: '\n' :: content) ("Document".data)
          ("Document".data) 1 3 ("doc".data)], [content]) := by
    rw [etlLoop_cons_small _ _ _ _ _ _ _ _ _ (by decide)]
    rw [etlLoop_cons_small _ _ _ _ _ _ _ _ _ (by decide)]
    have hcur : ((([] : List Str) ++ [("Document".data)]) ++ [([] : Str)]) ++ [content]
        = [("Document".data), [], content] := by simp
    have hjoin : joinLines [("Document".data), [], content]
        = ("Document".data) ++ '\n' :: '\n' :: content := rfl
    have hov2 : takeOverlapLines [("Document".data), ([] : Str), content] OVERLAP_TOKENS
        = [content] := by
      rw [show [("Document".data), ([] : Str), content]
          = [("Document".data), ([] : Str)] ++ [content] from rfl]
      exact takeOverlapLines_last _ content OVERLAP_TOKENS hovtok
    rw [etlLoop_cons_emit _ _ _ _ _ _ _ _ _
      (by rw [hcur, hjoin]; exact le_trans (le_of_lt h3) (hmono2 _))
      (by
        rw [hcur, hjoin, htrim2]
        refine le_trans ?_ (hmono2 _)
        omega)]
    rw [hcur, hov2]
    simp only [etlLoop]
    rw [hjoin, htrim2]
    norm_num [List.length_cons]
  simp only [enforceTokenLimit]
  rw [if_neg (by
    intro hle
    have hx := le_trans (hmono2 _) hle
    omega)]
  rw [show (([("Document".data)] : List Str).getLast?).getD ("Document".data)
      = ("Document".data) from rfl]
  rw [hsplit, hloop]
  dsimp only
  rw [show joinLines [content] = content from rfl, h2]
  rw [if_pos (show ([content] : List Str) ≠ [] by simp)]
  rw [if_pos (show MIN_CHUNK_TOKENS ≤ approxTokens content by omega)]
  simp only [List.length_singleton, Nat.cast_one]
  rw [show (1 : Int) - 1 + 1 = 1 from by omega]
  rw [if_neg (by simp)]
  rw [show [makeChunk (("Document".data) ++ '\n' :: '\n' :: content) ("Document".data)
        ("Document".data) 1 3 ("doc".data)] ++
      [makeChunk content ("Document".data) ("Document".data) 1 1 ("doc".data)]
      = [makeChunk (("Document".data) ++ '\n' :: '\n' :: content) ("Document".data)
          ("Document".data) 1 3 ("doc".data),
         makeChunk content ("Document".data) ("Document".data) 1 1 ("doc".data)] from rfl]
  rw [mergeSmallChunks_pair]
  rw [mergeSmallLoop_cons_skip _ _ _ (by
    rw [makeChunk_tokenCount]
    refine le_trans ?_ (hmono2 _)
    omega)]
  simp only [mergeSmallLoop]

/-- `buildMarkdownChunks` on a single long plain line (no newline, no
leading hash, no code snippet, trim fixpoint, over the token limit): the
single-chunk attempt and the heading collector both fail, the fallback
chunker breadcrumbs the content, and the token limiter emits it twice —
once over the limit. -/
theorem buildMarkdownChunks_single_long_line (content : Str)
    (h1 : ('\n') ∉ content)
    (h2 : trimStr content = content)
    (h3 : MAX_CHUNK_TOKENS < approxTokens content)
    (h4 : content.head? ≠ some '#')
    (h5 : containsCodeSnippet content = false) :
    buildMarkdownChunks content none [] =
      [makeChunk (("Document".data) ++ '\n' :: '\n' :: content) ("Document".data)
        ("Document".data) 1 3 ("doc".data),
       makeChunk content ("Document".data) ("Document".data) 1 1 ("doc".data)] := by
  have hne : content ≠ [] := by
    intro h0; rw [h0] at h3; exact absurd h3 (by decide)
  have hcr : content.getLast? ≠ some '\r' := by
    intro hl
    have := trimStr_getLast content '\r' (by rw [h2]; exact hl)
    exact absurd this (by decide)
  have htE : trimEnd content = content :=
    trimEnd_eq_self content (fun c hc => trimStr_getLast content c (by rw [h2]; exact hc))
  have hlines : splitLinesRN content = [content] := by
    unfold splitLinesRN
    rw [splitOnChar_not_mem '\n' content h1]
    simp only [List.map_cons, List.map_nil]
    rw [if_neg hcr]
  have hclean : cleanLines [content] = [content] := by
    simp [cleanLines, htE]
  have hnest : hasNestedHeading content = false :=
    hasNestedHeading_false_of_no_hash content (by
      rw [splitOnChar_not_mem '\n' content h1]
      intro line hl
      rcases List.mem_singleton.mp hl with rfl
      exact h4)
  have htry : tryBuildSingleChunk [content] ("Document".data) [] = none := by
    simp only [tryBuildSingleChunk]
    rw [hclean]
    rw [show joinLines [content] = content from rfl, h2]
    rw [if_neg hne]
    rw [hnest]
    rw [if_neg (by simp)]
    rw [h5]
    rw [if_pos (by decide)]
  have hhead : collectHeadings [content] ("Document".data) = [] :=
    collectHeadings_nil_of_no_heading _ _ (by
      intro line hl
      rcases List.mem_singleton.mp hl with rfl
      exact parseHeading_none_of_head _ h4)
  have hfb : buildFallbackChunks [content] ("Document".data) [] =
      [makeChunk (("Document".data) ++ '\n' :: '\n' :: content) ("Document".data)
        ("Document".data) 1 3 ("doc".data),
       makeChunk content ("Document".data) ("Document".data) 1 1 ("doc".data)] := by
    simp only [buildFallbackChunks]
    rw [hclean]
    rw [show joinLines [content] = content from rfl, h2]
    rw [if_neg hne]
    rw [show buildBreadcrumb ((([] : List Str) ++ [("Document".data)]).map some)
        = ("Document".data) from by decide]
    rw [show joinTwoWithBlank ("Document".data) content
        = ("Document".data) ++ '\n' :: '\n' :: content from by
      unfold joinTwoWithBlank
      rw [if_neg (by decide), if_neg hne]]
    rw [show (([content] : List Str).length : Int) = 1 by simp]
    exact etl_doc_prefix_line content h1 h2 h3
  simp only [buildMarkdownChunks]
  rw [show (if trimStr ((none : Option Str).getD ("Document".data)) = []
      then ("Document".data)
      else trimStr ((none : Option Str).getD ("Document".data))) = ("Document".data)
    from by decide]
  rw [hlines, htry, hhead]
  rw [show (if (([] : List HeadingNode)).length > 0
      then buildHeadingChunks [content] ([] : List HeadingNode) []
      else buildFallbackChunks [content] ("Document".data) [])
      = buildFallbackChunks [content] ("Document".data) [] from by rw [if_neg (by simp)]]
  rw [hfb]
  rw [if_neg (by simp)]

/-- A 4100-character line contains no code snippet. -/
theorem containsCodeSnippet_docA :
    containsCodeSnippet (List.replicate 4100 'x') = false := by
  have h1 : ('\n') ∉ List.replicate 4100 'x' := by
    intro hmem
    rcases List.mem_replicate.mp hmem with ⟨-, h⟩
    exact absurd h (by decide)
  have hs1 : containsSeq ("```".data) (List.replicate 4100 'x') = false := by
    rw [show ("```".data) = (Char.ofNat 96) :: ((Char.ofNat 96) :: [Char.ofNat 96])
      from by decide]
    apply containsSeq_eq_false_of_not_mem
    intro hmem
    rcases List.mem_replicate.mp hmem with ⟨-, h⟩
    exact absurd h (by decide)
  have hs2 : containsSeq ("~~~".data) (List.replicate 4100 'x') = false := by
    rw [show ("~~~".data) = '~' :: ('~' :: ['~']) from by decide]
    apply containsSeq_eq_false_of_not_mem
    intro hmem
    rcases List.mem_replicate.mp hmem with ⟨-, h⟩
    exact absurd h (by decide)
  have hind : (splitOnChar '\n' (List.replicate 4100 'x')).any isIndentedCodeLine
      = false := by
    rw [splitOnChar_not_mem '\n' _ h1]
    simp only [List.any_cons, List.any_nil, Bool.or_false]
    rw [show (4100 : Nat) = 4099 + 1 from rfl, List.replicate_succ]
    rfl
  have hpre : containsPreCodeTag (List.replicate 4100 'x') = false :=
    containsPreCodeTag_eq_false _ (by
      intro hmem
      rcases List.mem_replicate.mp hmem with ⟨-, h⟩
      exact absurd h (by decide))
  unfold containsCodeSnippet
  rw [hs1, hs2, hind, hpre]
  simp

/-- The two chunks of the 4100-character document carry 1028 and 1025
approximate tokens. -/
theorem docA_tokenCounts :
    (buildMarkdownChunks (List.replicate 4100 'x') none []).map (fun c => c.tokenCount)
      = [1028, 1025] := by
  have h1 : ('\n') ∉ List.replicate 4100 'x' := by
    intro hmem
    rcases List.mem_replicate.mp hmem with ⟨-, h⟩
    exact absurd h (by decide)
  have h2 : trimStr (List.replicate 4100 'x') = List.replicate 4100 'x' :=
    trimStr_replicate 4100 'x' (by decide)
  have h3 : approxTokens (List.replicate 4100 'x') = 1025 := by
    unfold approxTokens
    rw [List.length_replicate]
    decide
  have h4 : (List.replicate 4100 'x').head? ≠ some '#' := by
    rw [show (4100 : Nat) = 4099 + 1 from rfl, List.replicate_succ]
    intro h
    exact absurd (Option.some.inj h) (by decide)
  rw [buildMarkdownChunks_single_long_line _ h1 h2 (by rw [h3]; decide) h4
    containsCodeSnippet_docA]
  simp only [List.map_cons, List.map_nil, makeChunk_tokenCount, h3]
  rw [show approxTokens (("Document".data) ++ '\n' :: '\n' :: List.replicate 4100 'x')
      = 1028 from by
    unfold approxTokens
    rw [List.length_append]
    simp only [List.length_cons, List.length_replicate]
    decide]

/-- Heads pass through list append. -/
theorem head?_append_left (a b : Str) (c : Char) (h : a.head? = some c) :
    (a ++ b).head? = some c := by
  rw [List.head?_append, h]
  rfl

/-- The last element of an append with a non-empty right part. -/
theorem getLast?_append_right (a b : Str) (hb : b ≠ []) :
    (a ++ b).getLast? = b.getLast? := by
  rw [List.getLast?_append]
  cases hh : b.getLast? with
  | none => exact absurd (List.getLast?_eq_none_iff.mp hh) hb
  | some x => rfl

/-- An append ending in a cons is non-empty. -/
theorem append_cons_ne_nil (a : Str) (c : Char) (b : Str) : a ++ c :: b ≠ [] := by
  intro h
  rcases List.append_eq_nil.mp h with ⟨-, h2⟩
  exact List.cons_ne_nil _ _ h2

/-- The second document of the counterexample: a 900-character line, an
indented 2203-character line and a 300-character line. -/
def docB : Str :=
  List.replicate 900 'y' ++ '\n' ::
    ((List.replicate 2200 ' ' ++ ("foo".data)) ++ '\n' :: List.replicate 300 'z')

theorem docB_last : docB.getLast? = some 'z' := by
  unfold docB
  rw [getLast?_append_right _ _ (List.cons_ne_nil _ _)]
  rw [show ('\n' :: ((List.replicate 2200 ' ' ++ ("foo".data)) ++ '\n' ::
      List.replicate 300 'z')) = ['\n'] ++ ((List.replicate 2200 ' ' ++ ("foo".data)) ++
      '\n' :: List.replicate 300 'z') from rfl]
  rw [getLast?_append_right _ _ (append_cons_ne_nil _ _ _)]
  rw [getLast?_append_right _ _ (List.cons_ne_nil _ _)]
  rw [show ('\n' :: List.replicate 300 'z') = ['\n'] ++ List.replicate 300 'z' from rfl]
  rw [getLast?_append_right _ _ (by
    rw [show (300 : Nat) = 299 + 1 from rfl, List.replicate_succ]
    exact List.cons_ne_nil _ _)]
  rw [List.getLast?_eq_head?_reverse, List.reverse_replicate]
  rw [show (300 : Nat) = 299 + 1 from rfl, List.replicate_succ]
  rfl

theorem docB_head : docB.head? = some 'y' := by
  unfold docB
  apply head?_append_left
  rw [show (900 : Nat) = 899 + 1 from rfl, List.replicate_succ]
  rfl

theorem docB_split : splitOnChar '\n' docB =
    [List.replicate 900 'y', List.replicate 2200 ' ' ++ ("foo".data),
     List.replicate 300 'z'] := by
  unfold docB
  rw [splitOnChar_sep_cons '\n' _ _ (by
    intro hmem
    rcases List.mem_replicate.mp hmem with ⟨-, h⟩
    exact absurd h (by decide))]
  rw [splitOnChar_sep_cons '\n' _ _ (by
    intro hmem
    rcases List.mem_append.mp hmem with h | h
    · rcases List.mem_replicate.mp h with ⟨-, h⟩
      exact absurd h (by decide)
    · exact absurd h (by decide))]
  rw [splitOnChar_not_mem '\n' _ (by
    intro hmem
    rcases List.mem_replicate.mp hmem with ⟨-, h⟩
    exact absurd h (by decide))]

/-- A character outside the alphabet of `docB` does not occur in it. -/
theorem notin_docB (q : Char) (hy : q ≠ 'y') (hn : q ≠ '\n') (hs : q ≠ ' ')
    (hf : q ∉ ("foo".data)) (hz : q ≠ 'z') : q ∉ docB := by
  unfold docB
  intro hmem
  rcases List.mem_append.mp hmem with h | h
  · rcases List.mem_replicate.mp h with ⟨-, h⟩
    exact hy h
  · rcases List.mem_cons.mp h with h | h
    · exact hn h
    · rcases List.mem_append.mp h with h | h
      · rcases List.mem_append.mp h with h | h
        · rcases List.mem_replicate.mp h with ⟨-, h⟩
          exact hs h
        · exact hf h
      · rcases List.mem_cons.mp h with h | h
        · exact hn h
        · rcases List.mem_replicate.mp h with ⟨-, h⟩
          exact hz h

/-- A three-chunk merge delegates to the merge loop. -/
theorem mergeSmallChunks_app3 (c1 c2 c3 : ChunkDraft) :
    mergeSmallChunks (((([] : List ChunkDraft) ++ [c1]) ++ [c2]) ++ [c3])
      = mergeSmallLoop c1 [c2, c3] := by
  rw [show ((([] : List ChunkDraft) ++ [c1]) ++ [c2]) ++ [c3] = [c1, c2, c3] by simp]
  unfold mergeSmallChunks
  rw [if_neg (by simp)]

/-- The chunker inverts line ranges on `docB`: the merged small chunk
keeps its buffer's start line 4 but takes the tail chunk's end line 3. -/
theorem docB_lines :
    (buildMarkdownChunks docB none []).map (fun c => (c.lineStart, c.lineEnd))
      = [(some 1, some 4), (some 4, some 3)] := by
  have hfne : (("foo".data) : Str) ≠ [] := by decide
  have hZne : List.replicate 300 'z' ≠ [] := by
    rw [show (300 : Nat) = 299 + 1 from rfl, List.replicate_succ]
    exact List.cons_ne_nil _ _
  have hSne : (List.replicate 2200 ' ' ++ ("foo".data)) ≠ [] := by
    intro h
    rcases List.append_eq_nil.mp h with ⟨-, h2⟩
    exact hfne h2
  have hBne : docB ≠ [] := by unfold docB; exact append_cons_ne_nil _ _ _
  have hYhead : (List.replicate 900 'y').head? = some 'y' := by
    rw [show (900 : Nat) = 899 + 1 from rfl, List.replicate_succ]
    rfl
  have hShead : (List.replicate 2200 ' ' ++ ("foo".data)).head? = some ' ' := by
    apply head?_append_left
    rw [show (2200 : Nat) = 2199 + 1 from rfl, List.replicate_succ]
    rfl
  have hZhead : (List.replicate 300 'z').head? = some 'z' := by
    rw [show (300 : Nat) = 299 + 1 from rfl, List.replicate_succ]
    rfl
  have hYlast : (List.replicate 900 'y').getLast? = some 'y' := by
    rw [List.getLast?_eq_head?_reverse, List.reverse_replicate]
    rw [show (900 : Nat) = 899 + 1 from rfl, List.replicate_succ]
    rfl
  have hZlast : (List.replicate 300 'z').getLast? = some 'z' := by
    rw [List.getLast?_eq_head?_reverse, List.reverse_replicate]
    rw [show (300 : Nat) = 299 + 1 from rfl, List.replicate_succ]
    rfl
  have hSlast : (List.replicate 2200 ' ' ++ ("foo".data)).getLast? = some 'o' := by
    rw [getLast?_append_right _ _ hfne]
    decide
  have htEY : trimEnd (List.replicate 900 'y') = List.replicate 900 'y' :=
    trimEnd_eq_self _ (by
      intro c hc
      rw [hYlast] at hc
      have h2 := Option.some.inj hc
      subst h2
      decide)
  have htES : trimEnd (List.replicate 2200 ' ' ++ ("foo".data))
      = List.replicate 2200 ' ' ++ ("foo".data) :=
    trimEnd_eq_self _ (by
      intro c hc
      rw [hSlast] at hc
      have h2 := Option.some.inj hc
      subst h2
      decide)
  have htEZ : trimEnd (List.replicate 300 'z') = List.replicate 300 'z' :=
    trimEnd_eq_self _ (by
      intro c hc
      rw [hZlast] at hc
      have h2 := Option.some.inj hc
      subst h2
      decide)
  have hclean : cleanLines [List.replicate 900 'y',
      List.replicate 2200 ' ' ++ ("foo".data), List.replicate 300 'z']
      = [List.replicate 900 'y', List.replicate 2200 ' ' ++ ("foo".data),
         List.replicate 300 'z'] := by
    simp only [cleanLines, List.map_cons, List.map_nil, htEY, htES, htEZ]
  have hjoinB : joinLines [List.replicate 900 'y',
      List.replicate 2200 ' ' ++ ("foo".data), List.replicate 300 'z'] = docB := by
    unfold docB
    rfl
  have htrimB : trimStr docB = docB :=
    trimStr_eq_self _
      (by
        intro c hc
        rw [docB_head] at hc
        have h2 := Option.some.inj hc
        subst h2
        decide)
      (by
        intro c hc
        rw [docB_last] at hc
        have h2 := Option.some.inj hc
        subst h2
        decide)
  have hlinesB : splitLinesRN docB = [List.replicate 900 'y',
      List.replicate 2200 ' ' ++ ("foo".data), List.replicate 300 'z'] := by
    unfold splitLinesRN
    rw [docB_split]
    simp only [List.map_cons, List.map_nil]
    rw [if_neg (by
      rw [hYlast]
      intro h
      exact absurd (Option.some.inj h) (by decide))]
    rw [if_neg (by
      rw [hSlast]
      intro h
      exact absurd (Option.some.inj h) (by decide))]
    rw [if_neg (by
      rw [hZlast]
      intro h
      exact absurd (Option.some.inj h) (by decide))]
  have hpY : parseHeading (List.replicate 900 'y') = none :=
    parseHeading_none_of_head _ (by
      rw [hYhead]
      intro h
      exact absurd (Option.some.inj h) (by decide))
  have hpS : parseHeading (List.replicate 2200 ' ' ++ ("foo".data)) = none :=
    parseHeading_none_of_head _ (by
      rw [hShead]
      intro h
      exact absurd (Option.some.inj h) (by decide))
  have hpZ : parseHeading (List.replicate 300 'z') = none :=
    parseHeading_none_of_head _ (by
      rw [hZhead]
      intro h
      exact absurd (Option.some.inj h) (by decide))
  have hnested : hasNestedHeading docB = false :=
    hasNestedHeading_false_of_no_hash _ (by
      rw [docB_split]
      intro line hl
      rcases List.mem_cons.mp hl with rfl | hl
      · rw [hYhead]
        intro h
        exact absurd (Option.some.inj h) (by decide)
      rcases List.mem_cons.mp hl with rfl | hl
      · rw [hShead]
        intro h
        exact absurd (Option.some.inj h) (by decide)
      rcases List.mem_cons.mp hl with rfl | hl
      · rw [hZhead]
        intro h
        exact absurd (Option.some.inj h) (by decide)
      · simp at hl)
  have hfence1 : containsSeq ("```".data) docB = false := by
    rw [show ("```".data) = (Char.ofNat 96) :: ((Char.ofNat 96) :: [Char.ofNat 96])
      from by decide]
    exact containsSeq_eq_false_of_not_mem _ _ _
      (notin_docB _ (by decide) (by decide) (by decide) (by decide) (by decide))
  have hfence2 : containsSeq ("~~~".data) docB = false := by
    rw [show ("~~~".data) = '~' :: ('~' :: ['~']) from by decide]
    exact containsSeq_eq_false_of_not_mem _ _ _
      (notin_docB _ (by decide) (by decide) (by decide) (by decide) (by decide))
  have hindS : isIndentedCodeLine (List.replicate 2200 ' ' ++ ("foo".data)) = true := by
    rw [show List.replicate 2200 ' ' ++ ("foo".data)
        = ' ' :: ' ' :: ' ' :: ' ' :: (List.replicate 2196 ' ' ++ ("foo".data)) from by
      rw [show (2200 : Nat) = 4 + 2196 from rfl, List.replicate_add]
      rfl]
    show decide ((List.replicate 2196 ' ' ++ ("foo".data)) ≠ []) = true
    exact decide_eq_true (by
      intro h
      rcases List.append_eq_nil.mp h with ⟨-, h2⟩
      exact hfne h2)
  have hcsB : containsCodeSnippet docB = true := by
    unfold containsCodeSnippet
    rw [hfence1, hfence2]
    rw [if_neg (by simp)]
    rw [docB_split]
    rw [show ([List.replicate 900 'y', List.replicate 2200 ' ' ++ ("foo".data),
        List.replicate 300 'z'].any isIndentedCodeLine) = true from by
      simp only [List.any_cons, List.any_nil, hindS]
      simp only [Bool.true_or, Bool.or_true]]
    rw [if_pos rfl]
  have htokFull : approxTokens (("Document".data) ++ '\n' :: '\n' :: docB) = 854 := by
    unfold docB approxTokens
    simp only [List.length_append, List.length_cons, List.length_replicate]
    decide
  have htok228 : approxTokens (("Document".data) ++ '\n' :: '\n' ::
      List.replicate 900 'y') = 228 := by
    unfold approxTokens
    simp only [List.length_append, List.length_cons, List.length_replicate]
    decide
  have htok779 : approxTokens (("Document".data) ++ '\n' :: '\n' ::
      (List.replicate 900 'y' ++ '\n' :: (List.replicate 2200 ' ' ++ ("foo".data))))
      = 779 := by
    unfold approxTokens
    simp only [List.length_append, List.length_cons, List.length_replicate]
    decide
  have htokS : approxTokens (List.replicate 2200 ' ' ++ ("foo".data)) = 551 := by
    unfold approxTokens
    simp only [List.length_append, List.length_cons, List.length_replicate]
    decide
  have htok626 : approxTokens ((List.replicate 2200 ' ' ++ ("foo".data)) ++ '\n' ::
      List.replicate 300 'z') = 626 := by
    unfold approxTokens
    simp only [List.length_append, List.length_cons, List.length_replicate]
    decide
  have htok76 : approxTokens (("foo".data) ++ '\n' :: List.replicate 300 'z') = 76 := by
    unfold approxTokens
    simp only [List.length_append, List.length_cons, List.length_replicate]
    decide
  have htokZ : approxTokens (List.replicate 300 'z') = 75 := by
    unfold approxTokens
    simp only [List.length_replicate]
    decide
  have htokM : approxTokens ((("foo".data) ++ '\n' :: List.replicate 300 'z') ++
      '\n' :: '\n' :: List.replicate 300 'z') = 152 := by
    unfold approxTokens
    simp only [List.length_append, List.length_cons, List.length_replicate]
    decide
  have htrimA : trimStr (("Document".data) ++ '\n' :: '\n' ::
      (List.replicate 900 'y' ++ '\n' :: (List.replicate 2200 ' ' ++ ("foo".data))))
      = ("Document".data) ++ '\n' :: '\n' ::
        (List.replicate 900 'y' ++ '\n' :: (List.replicate 2200 ' ' ++ ("foo".data))) := by
    apply trimStr_eq_self
    · intro c hc
      rw [head?_append_left ("Document".data) _ 'D' rfl] at hc
      have h2 := Option.some.inj hc
      subst h2
      decide
    · intro c hc
      rw [getLast?_append_right _ _ (List.cons_ne_nil _ _)] at hc
      rw [show ('\n' :: '\n' :: (List.replicate 900 'y' ++ '\n' ::
          (List.replicate 2200 ' ' ++ ("foo".data))))
          = ['\n', '\n'] ++ (List.replicate 900 'y' ++ '\n' ::
            (List.replicate 2200 ' ' ++ ("foo".data))) from rfl] at hc
      rw [getLast?_append_right _ _ (append_cons_ne_nil _ _ _)] at hc
      rw [getLast?_append_right _ _ (List.cons_ne_nil _ _)] at hc
      rw [show ('\n' :: (List.replicate 2200 ' ' ++ ("foo".data)))
          = ['\n'] ++ (List.replicate 2200 ' ' ++ ("foo".data)) from rfl] at hc
      rw [getLast?_append_right _ _ hSne] at hc
      rw [hSlast] at hc
      have h2 := Option.some.inj hc
      subst h2
      decide
  have hlastFZ : (("foo".data) ++ '\n' :: List.replicate 300 'z').getLast?
      = some 'z' := by
    rw [getLast?_append_right _ _ (List.cons_ne_nil _ _)]
    rw [show ('\n' :: List.replicate 300 'z') = ['\n'] ++ List.replicate 300 'z' from rfl]
    rw [getLast?_append_right _ _ hZne]
    exact hZlast
  have htrim5 : trimStr ((List.replicate 2200 ' ' ++ ("foo".data)) ++ '\n' ::
      List.replicate 300 'z') = ("foo".data) ++ '\n' :: List.replicate 300 'z' := by
    unfold trimStr trimStart
    rw [show (List.replicate 2200 ' ' ++ ("foo".data)) ++ '\n' :: List.replicate 300 'z'
        = List.replicate 2200 ' ' ++ (("foo".data) ++ '\n' :: List.replicate 300 'z')
        from by rw [List.append_assoc]]
    rw [dropWhile_replicate_append isWs ' ' (by decide)]
    rw [show List.dropWhile isWs (("foo".data) ++ '\n' :: List.replicate 300 'z')
        = ("foo".data) ++ '\n' :: List.replicate 300 'z' from by
      rw [show ("foo".data) ++ '\n' :: List.replicate 300 'z'
          = 'f' :: (("oo".data) ++ '\n' :: List.replicate 300 'z') from rfl]
      rw [List.dropWhile_cons, if_neg (by decide)]]
    exact trimEnd_eq_self _ (by
      intro c hc
      rw [hlastFZ] at hc
      have h2 := Option.some.inj hc
      subst h2
      decide)
  have htrimZ : trimStr (List.replicate 300 'z') = List.replicate 300 'z' :=
    trimStr_replicate 300 'z' (by decide)
  have htrimM : trimStr ((("foo".data) ++ '\n' :: List.replicate 300 'z') ++
      '\n' :: '\n' :: List.replicate 300 'z')
      = (("foo".data) ++ '\n' :: List.replicate 300 'z') ++
        '\n' :: '\n' :: List.replicate 300 'z' := by
    apply trimStr_eq_self
    · intro c hc
      rw [head?_append_left _ _ 'f' (head?_append_left ("foo".data) _ 'f' rfl)] at hc
      have h2 := Option.some.inj hc
      subst h2
      decide
    · intro c hc
      rw [getLast?_append_right _ _ (List.cons_ne_nil _ _)] at hc
      rw [show ('\n' :: '\n' :: List.replicate 300 'z')
          = ['\n', '\n'] ++ List.replicate 300 'z' from rfl] at hc
      rw [getLast?_append_right _ _ hZne] at hc
      rw [hZlast] at hc
      have h2 := Option.some.inj hc
      subst h2
      decide
  have htry : tryBuildSingleChunk [List.replicate 900 'y',
      List.replicate 2200 ' ' ++ ("foo".data), List.replicate 300 'z']
      ("Document".data) [] = none := by
    simp only [tryBuildSingleChunk]
    rw [hclean, hjoinB, htrimB]
    rw [if_neg hBne]
    rw [hnested]
    rw [if_neg (by simp)]
    rw [hcsB]
    rw [if_neg (by decide)]
    rw [show buildBreadcrumb ((([] : List Str) ++ [("Document".data)]).map some)
        = ("Document".data) from by decide]
    rw [show joinTwoWithBlank ("Document".data) docB
        = ("Document".data) ++ '\n' :: '\n' :: docB from by
      unfold joinTwoWithBlank
      rw [if_neg (by decide), if_neg hBne]]
    rw [if_pos (by rw [htokFull]; decide)]
  have hheads : collectHeadings [List.replicate 900 'y',
      List.replicate 2200 ' ' ++ ("foo".data), List.replicate 300 'z']
      ("Document".data) = [] :=
    collectHeadings_nil_of_no_heading _ _ (by
      intro line hl
      rcases List.mem_cons.mp hl with rfl | hl
      · exact hpY
      rcases List.mem_cons.mp hl with rfl | hl
      · exact hpS
      rcases List.mem_cons.mp hl with rfl | hl
      · exact hpZ
      · simp at hl)
  have hsplitFull : splitOnChar '\n' (("Document".data) ++ '\n' :: '\n' :: docB)
      = [("Document".data), [], List.replicate 900 'y',
         List.replicate 2200 ' ' ++ ("foo".data), List.replicate 300 'z'] := by
    rw [splitOnChar_sep_cons '\n' ("Document".data) ('\n' :: docB) (by decide)]
    rw [show ('\n' :: docB) = ([] : Str) ++ '\n' :: docB from rfl]
    rw [splitOnChar_sep_cons '\n' [] docB (by simp)]
    rw [docB_split]
  have hovA : takeOverlapLines [("Document".data), [], List.replicate 900 'y',
      List.replicate 2200 ' ' ++ ("foo".data)] OVERLAP_TOKENS
      = [List.replicate 2200 ' ' ++ ("foo".data)] := by
    rw [show [("Document".data), ([] : Str), List.replicate 900 'y',
        List.replicate 2200 ' ' ++ ("foo".data)]
        = [("Document".data), ([] : Str), List.replicate 900 'y']
          ++ [List.replicate 2200 ' ' ++ ("foo".data)] from rfl]
    exact takeOverlapLines_last _ _ _ (by rw [htokS]; decide)
  have hovB : takeOverlapLines [List.replicate 2200 ' ' ++ ("foo".data),
      List.replicate 300 'z'] OVERLAP_TOKENS = [List.replicate 300 'z'] := by
    rw [show [List.replicate 2200 ' ' ++ ("foo".data), List.replicate 300 'z']
        = [List.replicate 2200 ' ' ++ ("foo".data)] ++ [List.replicate 300 'z'] from rfl]
    exact takeOverlapLines_last _ _ _ (by rw [htokZ]; decide)
  simp only [buildMarkdownChunks]
  rw [show (if trimStr ((none : Option Str).getD ("Document".data)) = []
      then ("Document".data)
      else trimStr ((none : Option Str).getD ("Document".data))) = ("Document".data)
    from by decide]
  rw [hlinesB, htry, hheads]
  rw [show (if (([] : List HeadingNode)).length > 0
      then buildHeadingChunks [List.replicate 900 'y',
        List.replicate 2200 ' ' ++ ("foo".data), List.replicate 300 'z']
        ([] : List HeadingNode) []
      else buildFallbackChunks [List.replicate 900 'y',
        List.replicate 2200 ' ' ++ ("foo".data), List.replicate 300 'z']
        ("Document".data) [])
      = buildFallbackChunks [List.replicate 900 'y',
        List.replicate 2200 ' ' ++ ("foo".data), List.replicate 300 'z']
        ("Document".data) [] from by rw [if_neg (by simp)]]
  rw [ite_self]
  simp only [buildFallbackChunks]
  rw [hclean, hjoinB, htrimB]
  rw [if_neg hBne]
  rw [show buildBreadcrumb ((([] : List Str) ++ [("Document".data)]).map some)
      = ("Document".data) from by decide]
  rw [show joinTwoWithBlank ("Document".data) docB
      = ("Document".data) ++ '\n' :: '\n' :: docB from by
    unfold joinTwoWithBlank
    rw [if_neg (by decide), if_neg hBne]]
  rw [show (([List.replicate 900 'y', List.replicate 2200 ' ' ++ ("foo".data),
      List.replicate 300 'z'] : List Str).length : Int) = 3 from by
    simp only [List.length_cons, List.length_nil]
    norm_num]
  simp only [enforceTokenLimit]
  rw [if_neg (by rw [htokFull]; decide)]
  rw [show (([("Document".data)] : List Str).getLast?).getD ("Document".data)
      = ("Document".data) from rfl]
  rw [hsplitFull]
  rw [etlLoop_cons_small _ _ _ _ _ _ _ _ _ (by decide)]
  rw [etlLoop_cons_small _ _ _ _ _ _ _ _ _ (by decide)]
  rw [etlLoop_cons_small _ _ _ _ _ _ _ _ _ (by
    rw [show ((([] : List Str) ++ [("Document".data)]) ++ [([] : Str)])
        ++ [List.replicate 900 'y']
        = [("Document".data), [], List.replicate 900 'y'] from by
      simp only [List.nil_append, List.singleton_append, List.cons_append]]
    rw [show joinLines [("Document".data), ([] : Str), List.replicate 900 'y']
        = ("Document".data) ++ '\n' :: '\n' :: List.replicate 900 'y' from rfl]
    rw [htok228]
    decide)]
  rw [etlLoop_cons_emit _ _ _ _ _ _ _ _ _
    (by
      rw [show (((([] : List Str) ++ [("Document".data)]) ++ [([] : Str)])
          ++ [List.replicate 900 'y']) ++ [List.replicate 2200 ' ' ++ ("foo".data)]
          = [("Document".data), [], List.replicate 900 'y',
             List.replicate 2200 ' ' ++ ("foo".data)] from by
        simp only [List.nil_append, List.singleton_append, List.cons_append]]
      rw [show joinLines [("Document".data), ([] : Str), List.replicate 900 'y',
          List.replicate 2200 ' ' ++ ("foo".data)]
          = ("Document".data) ++ '\n' :: '\n' :: (List.replicate 900 'y' ++ '\n' ::
            (List.replicate 2200 ' ' ++ ("foo".data))) from rfl]
      rw [htok779]
      decide)
    (by
      rw [show (((([] : List Str) ++ [("Document".data)]) ++ [([] : Str)])
          ++ [List.replicate 900 'y']) ++ [List.replicate 2200 ' ' ++ ("foo".data)]
          = [("Document".data), [], List.replicate 900 'y',
             List.replicate 2200 ' ' ++ ("foo".data)] from by
        simp only [List.nil_append, List.singleton_append, List.cons_append]]
      rw [show joinLines [("Document".data), ([] : Str), List.replicate 900 'y',
          List.replicate 2200 ' ' ++ ("foo".data)]
          = ("Document".data) ++ '\n' :: '\n' :: (List.replicate 900 'y' ++ '\n' ::
            (List.replicate 2200 ' ' ++ ("foo".data))) from rfl]
      rw [htrimA, htok779]
      decide)]
  rw [show (((([] : List Str) ++ [("Document".data)]) ++ [([] : Str)])
      ++ [List.replicate 900 'y']) ++ [List.replicate 2200 ' ' ++ ("foo".data)]
      = [("Document".data), [], List.replicate 900 'y',
         List.replicate 2200 ' ' ++ ("foo".data)] from by
    simp only [List.nil_append, List.singleton_append, List.cons_append]]
  rw [hovA]
  rw [etlLoop_cons_emit _ _ _ _ _ _ _ _ _
    (by
      rw [show ([List.replicate 2200 ' ' ++ ("foo".data)] : List Str)
          ++ [List.replicate 300 'z']
          = [List.replicate 2200 ' ' ++ ("foo".data), List.replicate 300 'z'] from rfl]
      rw [show joinLines [List.replicate 2200 ' ' ++ ("foo".data),
          List.replicate 300 'z']
          = (List.replicate 2200 ' ' ++ ("foo".data)) ++ '\n' :: List.replicate 300 'z'
          from rfl]
      rw [htok626]
      decide)
    (by
      rw [show ([List.replicate 2200 ' ' ++ ("foo".data)] : List Str)
          ++ [List.replicate 300 'z']
          = [List.replicate 2200 ' ' ++ ("foo".data), List.replicate 300 'z'] from rfl]
      rw [show joinLines [List.replicate 2200 ' ' ++ ("foo".data),
          List.replicate 300 'z']
          = (List.replicate 2200 ' ' ++ ("foo".data)) ++ '\n' :: List.replicate 300 'z'
          from rfl]
      rw [htrim5, htok76]
      decide)]
  rw [show ([List.replicate 2200 ' ' ++ ("foo".data)] : List Str)
      ++ [List.replicate 300 'z']
      = [List.replicate 2200 ' ' ++ ("foo".data), List.replicate 300 'z'] from rfl]
  rw [hovB]
  simp only [etlLoop]
  rw [show joinLines [("Document".data), ([] : Str), List.replicate 900 'y',
      List.replicate 2200 ' ' ++ ("foo".data)]
      = ("Document".data) ++ '\n' :: '\n' :: (List.replicate 900 'y' ++ '\n' ::
        (List.replicate 2200 ' ' ++ ("foo".data))) from rfl]
  rw [htrimA]
  rw [show joinLines [List.replicate 2200 ' ' ++ ("foo".data), List.replicate 300 'z']
      = (List.replicate 2200 ' ' ++ ("foo".data)) ++ '\n' :: List.replicate 300 'z'
      from rfl]
  rw [htrim5]
  dsimp only
  rw [show joinLines [List.replicate 300 'z'] = List.replicate 300 'z' from rfl]
  rw [htrimZ]
  rw [if_pos (show ([List.replicate 300 'z'] : List Str) ≠ [] from List.cons_ne_nil _ _)]
  rw [if_pos (show MIN_CHUNK_TOKENS ≤ approxTokens (List.replicate 300 'z') by
    rw [htokZ]; decide)]
  simp only [List.length_singleton, Nat.cast_one]
  rw [show (3 : Int) - 1 + 1 = 3 from by norm_num]
  rw [if_neg (by
    intro h
    rcases List.append_eq_nil.mp h.1 with ⟨-, h2⟩
    exact List.cons_ne_nil _ _ h2)]
  rw [show ((List.length [("Document".data), ([] : Str), List.replicate 900 'y',
      List.replicate 2200 ' ' ++ ("foo".data)] : Nat) : Int) = 4 from rfl]
  rw [show ((List.length [List.replicate 2200 ' ' ++ ("foo".data),
      List.replicate 300 'z'] : Nat) : Int) = 2 from rfl]
  rw [show (1 : Int) + (0 + 1 + 1 + 1) - 4 + 1 = 1 from by norm_num]
  rw [show (1 : Int) + (0 + 1 + 1 + 1 + 1) - 2 + 1 = 4 from by norm_num]
  rw [show (1 : Int) + (0 + 1 + 1 + 1 + 1) = 5 from by norm_num]
  rw [show (1 : Int) + (0 + 1 + 1 + 1) = 4 from by norm_num]
  rw [mergeSmallChunks_app3]
  rw [mergeSmallLoop_cons_skip _ _ _ (by
    rw [makeChunk_tokenCount, htok779]
    decide)]
  rw [mergeSmallLoop_cons_merge _ _ _
    (by
      rw [makeChunk_tokenCount, htok76]
      decide)
    (by
      simp only [makeChunk_content]
      rw [htrimM, htokM]
      decide)]
  simp only [mergeSmallLoop]
  simp only [List.map_cons, List.map_nil, makeChunk_lineStart, makeChunk_lineEnd]

/-- C4: every chunk returned by `fuseRankedLists` (its lists carrying
distinct chunk ids, as ranked search results do) has score equal to the
sum over the lists containing it of `weight_i / (60 + rank_i)` with ranks
from 1, plus 0.05 when its best rank is 1, else 0.02 when its best rank is
at most 3; the output is sorted by descending score and has at most
`limit` entries. -/
theorem fuseRankedLists_spec (lists : List (List SearchHit)) (weights : List ℚ) (limit : Nat)
    (hnodup : ∀ l ∈ lists, (l.map (·.chunkId)).Nodup) :
    (∀ h ∈ fuseRankedLists lists weights limit,
        h.score = fusedScore h.chunkId lists weights)
    ∧ (fuseRankedLists lists weights limit).Pairwise (fun a b => b.score ≤ a.score)
    ∧ (fuseRankedLists lists weights limit).length ≤ limit := by
  haveI : IsTotal FuseEntry (fun a b => b.score ≤ a.score) :=
    ⟨fun a b => le_total b.score a.score⟩
  haveI : IsTrans FuseEntry (fun a b => b.score ≤ a.score) :=
    ⟨fun _ _ _ h1 h2 => le_trans h2 h1⟩
  refine ⟨?_, ?_, ?_⟩
  · intro h hmem
    obtain ⟨e, hetake, hEq⟩ := List.mem_map.mp hmem
    have hesort : e ∈ (fuseAddLists lists weights []).map (fun p => applyBonus p.2) :=
      ((List.perm_insertionSort _ _).mem_iff).mp (List.mem_of_mem_take hetake)
    obtain ⟨p, hpmem, hpeq⟩ := List.mem_map.mp hesort
    have hkeys : ((fuseAddLists lists weights []).map Prod.fst).Nodup :=
      fuseAddLists_keys_nodup lists weights [] (by simp)
    have hlookup : mapLookup p.1 (fuseAddLists lists weights []) = some p.2 :=
      mapLookup_of_mem _ _ _ hkeys (by simpa using hpmem)
    have hchar := fuseAddLists_lookup lists weights [] p.1 hnodup
    cases hbr : bestRankSpec p.1 lists with
    | none =>
      rw [hchar.1 hbr] at hlookup
      exact absurd hlookup (by simp [mapLookup])
    | some br =>
      obtain ⟨h0, hfirst, hlook⟩ := (hchar.2 br hbr).1 rfl
      rw [hlookup] at hlook
      injection hlook with hlook
      have h1 : h.score = e.score := by rw [← hEq]
      have h2 : h.chunkId = e.hit.chunkId := by rw [← hEq]
      have h3 : e.hit = h0 := by rw [← hpeq, hlook, applyBonus_hit]
      have h4 : e.score = sumContrib p.1 lists weights + bonusOf (some br) := by
        rw [← hpeq, hlook, applyBonus_score]
      rw [h1, h2, h3, h4, firstHitOf_chunkId p.1 lists h0 hfirst, fusedScore, hbr]
  · have hsorted := List.sorted_insertionSort (fun a b : FuseEntry => b.score ≤ a.score)
      ((fuseAddLists lists weights []).map (fun p => applyBonus p.2))
    have htake := List.Pairwise.sublist (List.take_sublist limit _) hsorted
    simp only [fuseRankedLists]
    rw [List.pairwise_map]
    exact htake.imp (fun h => h)
  · simp only [fuseRankedLists, List.length_map, List.length_take]
    exact min_le_left _ _

/-- Concrete ranked lists for the C4 witness. -/
def listsW : List (List SearchHit) := [[⟨1, 0, "a".data⟩]]

/-- Witness for C4: the fusion of a concrete duplicate-free list respects
the output limit (the nodup hypothesis discharged by computation). -/
theorem fuseRankedLists_spec_witness :
    (fuseRankedLists listsW [2] 8).length ≤ 8 :=
  (fuseRankedLists_spec listsW [2] 8 (by decide)).2.2

/-- Counterexample for C5: on the query consisting of spaces around three
exclamation marks, the letters-digits-underscore normal form is empty, so
per the claim the original error should be rethrown — but `searchFTS`
retries with the trimmed query (still pure punctuation) and returns its
result. -/
theorem searchFTS_empty_normal_form_retries :
    searchFTS exEngineA (" !!! ".data) = .ok []
    ∧ ftsCleanedQuery (" !!! ".data) = []
    ∧ normalizeFtsQuery (" !!! ".data) = ("!!!".data) := by
  refine ⟨by decide, by decide, by decide⟩

/-- C5 (amended): `searchFTS` retries exactly once and only on an FTS
syntax error, using `normalizeFtsQuery` — the letters-digits-underscore
collapsed form when that is non-empty, otherwise the trimmed query; the
original error is rethrown when that value is empty or identical to the
query; a retry failure propagates; and every returned row carries
`score = 1 / (1 + |bm25|)`, which lies in `(0, 1]`. -/
theorem searchFTS_retry_and_score (engine : Str → Except FtsError (List FtsRow)) (query : Str) :
    (∀ rows, engine query = .ok rows →
      searchFTS engine query = .ok (rows.map scoreFtsRow))
    ∧ (∀ e, engine query = .error e → isFtsSyntaxError e = false →
        searchFTS engine query = .error e)
    ∧ (∀ e, engine query = .error e → isFtsSyntaxError e = true →
        (normalizeFtsQuery query = [] ∨ normalizeFtsQuery query = query) →
        searchFTS engine query = .error e)
    ∧ (∀ e, engine query = .error e → isFtsSyntaxError e = true →
        normalizeFtsQuery query ≠ [] → normalizeFtsQuery query ≠ query →
        searchFTS engine query =
          (match engine (normalizeFtsQuery query) with
            | .ok rows => .ok (rows.map scoreFtsRow)
            | .error e2 => .error e2))
    ∧ (∀ r : FtsRow, 0 < (scoreFtsRow r).score ∧ (scoreFtsRow r).score ≤ 1
        ∧ (scoreFtsRow r).score = 1 / (1 + |r.score|)) := by
  refine ⟨?_, ?_, ?_, ?_, ?_⟩
  · intro rows h
    simp [searchFTS, h]
  · intro e h hsyn
    simp [searchFTS, h, hsyn]
  · intro e h hsyn hdeg
    rcases hdeg with hdeg | hdeg <;> simp [searchFTS, h, hsyn, hdeg]
  · intro e h hsyn hne hneq
    have hcond : ¬(normalizeFtsQuery query = [] ∨ normalizeFtsQuery query = query) := by
      rintro (hc | hc)
      exacts [hne hc, hneq hc]
    simp only [searchFTS, h, hsyn, if_true, if_neg hcond]
  · intro r
    have habs : (0 : ℚ) ≤ |r.score| := abs_nonneg _
    have hmax : max (0 : ℚ) |r.score| = |r.score| := max_eq_right habs
    have hpos : (0 : ℚ) < 1 + |r.score| := by linarith
    refine ⟨?_, ?_, ?_⟩
    · simpa [scoreFtsRow, hmax] using div_pos one_pos hpos
    · simp only [scoreFtsRow, hmax]
      rw [div_le_one hpos]
      linarith
    · simp [scoreFtsRow, hmax]

/-- Witness for C5: a concrete syntax-erroring engine is retried with the
normalized query and its rows come back rescored. -/
theorem searchFTS_retry_and_score_witness :
    searchFTS exEngineB ("a?b".data) = .ok ([⟨5, 3, "c".data⟩].map scoreFtsRow) := by
  have h := (searchFTS_retry_and_score exEngineB ("a?b".data)).2.2.2.1
    ⟨("fts5: syntax error".data)⟩ (by decide) (by decide) (by decide) (by decide)
  rw [h]
  rfl

/-- C1: after a successful sync of one `(source_id, version_label)` — every
loaded file upserted via `upsertDocument`, then
`deactivateMissingDocuments` called with the paths seen this run — a
document row of that source and version label has `active = 1` if and only
if its path is among the paths observed this run (the table satisfying its
unique-key and primary-key constraints beforehand). -/
theorem sync_active_iff_seen (db : LibraryDb) (now sourceId : Nat) (versionLabel : Str)
    (files : List UpsertInput)
    (hkeys : UniqueKeys db) (hids : UniqueIds db) (hfresh : FreshNext db)
    (hfiles : ∀ f ∈ files, f.sourceId = sourceId ∧ f.versionLabel = versionLabel) :
    ∀ r ∈ (runGithubSyncStore db now sourceId versionLabel files).documents,
      r.sourceId = sourceId → r.versionLabel = versionLabel →
      (r.active = 1 ↔ r.path ∈ files.map (·.path)) := by
  have hfold := fold_upsert_invariant now sourceId versionLabel files db []
    hfiles hkeys hids hfresh (by intro r _ _ _ h; exact absurd h (List.not_mem_nil r.path))
  simp only [List.nil_append] at hfold
  intro r hr hrs hrv
  unfold runGithubSyncStore deactivateMissingDocuments at hr
  by_cases hemp : (files.map (·.path)).isEmpty
  · rw [if_pos hemp] at hr
    obtain ⟨r0, hr0, hEq⟩ := List.mem_map.mp hr
    have hkeep : files.map (·.path) = [] := by simpa using hemp
    rw [hkeep]
    by_cases hc : (decide (r0.sourceId = sourceId)
        && decide (r0.versionLabel = versionLabel)) = true
    · rw [if_pos hc] at hEq
      subst hEq
      simp
    · rw [if_neg hc] at hEq
      subst hEq
      exact absurd (by simp [hrs, hrv]) hc
  · rw [if_neg hemp] at hr
    obtain ⟨r0, hr0, hEq⟩ := List.mem_map.mp hr
    by_cases hc : (decide (r0.sourceId = sourceId) && decide (r0.versionLabel = versionLabel)
        && decide (r0.path ∉ files.map (·.path))) = true
    · rw [if_pos hc] at hEq
      subst hEq
      have hnotin : r0.path ∉ files.map (·.path) := by
        simp only [Bool.and_eq_true, decide_eq_true_eq] at hc
        exact hc.2
      simp only [List.mem_map, not_exists, not_and] at hnotin
      simpa using hnotin
    · rw [if_neg hc] at hEq
      subst hEq
      have hin : r0.path ∈ files.map (·.path) := by
        simp only [Bool.and_eq_true, decide_eq_true_eq, not_not] at hc
        by_contra hno
        exact hc ⟨⟨hrs, hrv⟩, hno⟩
      have hact := hfold r0 hr0 hrs hrv hin
      simp [hact, hin]

/-- Concrete database for the C1 witness: one stale active row of source 7. -/
def dbW : LibraryDb :=
  ⟨[], [⟨1, 7, "old.md".data, "u1".data, "t1".data, "h1".data,
        "text/markdown".data, "16.x".data, 0, 0, 1⟩], [], 2⟩

/-- Concrete file list for the C1 witness: one freshly seen path. -/
def filesW : List UpsertInput :=
  [⟨7, "new.md".data, "u2".data, "t2".data, "h2".data,
    "text/markdown".data, "16.x".data, "content".data⟩]

/-- Witness for C1: in a concrete sync the freshly upserted row is active
and its path was observed this run. -/
theorem sync_active_iff_seen_witness :
    (⟨2, 7, "new.md".data, "u2".data, "t2".data, "h2".data,
      "text/markdown".data, "16.x".data, 9, 9, 1⟩ : DocRow).active = 1 ↔
      (⟨2, 7, "new.md".data, "u2".data, "t2".data, "h2".data,
        "text/markdown".data, "16.x".data, 9, 9, 1⟩ : DocRow).path
        ∈ filesW.map (·.path) :=
  sync_active_iff_seen dbW 9 7 ("16.x".data) filesW
    (by unfold UniqueKeys dbW; simp)
    (by unfold UniqueIds dbW; simp)
    (by unfold FreshNext dbW; simp)
    (by decide)
    ⟨2, 7, "new.md".data, "u2".data, "t2".data, "h2".data,
      "text/markdown".data, "16.x".data, 9, 9, 1⟩
    (by decide) (by decide) (by decide)

/-- C10: when `upsertDocument` finds an existing row of the same key whose
stored hash equals the input hash, it reports `changed = false` yet still
mutates the row: title, uri and `updated_at` are refreshed and `active` is
set to 1, while the row's hash and content-type columns, its created-at,
the blob store, the chunks table, every other document row, and the
autoincrement counter are untouched. -/
theorem upsertDocument_unchanged_reactivates (db : LibraryDb) (now : Nat)
    (input : UpsertInput) (ex : DocRow)
    (hfind : db.documents.find? (docKeyPred input) = some ex)
    (hhash : ex.hash = input.hash)
    (hblob : db.blobs.any (fun b => decide (b.1 = input.hash)) = true) :
    (upsertDocument db now input).2.2 = false
    ∧ (upsertDocument db now input).2.1 = ex.id
    ∧ (upsertDocument db now input).1.blobs = db.blobs
    ∧ (upsertDocument db now input).1.chunks = db.chunks
    ∧ (upsertDocument db now input).1.nextDocId = db.nextDocId
    ∧ { ex with title := input.title, uri := input.uri, updatedAt := now, active := 1 }
        ∈ (upsertDocument db now input).1.documents
    ∧ ∀ r ∈ db.documents, r.id ≠ ex.id → r ∈ (upsertDocument db now input).1.documents := by
  have hexmem : ex ∈ db.documents := List.mem_of_find?_eq_some hfind
  have hres : upsertDocument db now input =
      (⟨db.blobs,
        db.documents.map (fun r => if r.id = ex.id then
          { r with title := input.title, uri := input.uri, updatedAt := now, active := 1 }
        else r),
        db.chunks, db.nextDocId⟩, ex.id, false) := by
    simp only [upsertDocument, hfind, hblob, if_true, if_pos hhash]
  rw [hres]
  refine ⟨rfl, rfl, rfl, rfl, rfl, ?_, ?_⟩
  · have h := List.mem_map_of_mem
      (fun r => if r.id = ex.id then
        { r with title := input.title, uri := input.uri, updatedAt := now, active := 1 }
      else r) hexmem
    simpa using h
  · intro r hr hne
    have h := List.mem_map_of_mem
      (fun r => if r.id = ex.id then
        { r with title := input.title, uri := input.uri, updatedAt := now, active := 1 }
      else r) hr
    simpa [if_neg hne] using h

/-- Concrete row for the C10 witness: a deactivated document row. -/
def rowU : DocRow :=
  ⟨1, 7, "a.md".data, "u1".data, "t1".data, "h1".data,
   "text/markdown".data, "16.x".data, 0, 0, 0⟩

/-- Concrete database for the C10 witness. -/
def dbU : LibraryDb :=
  ⟨[("h1".data, "body".data)], [rowU], [⟨3, 1, "chunk".data⟩], 2⟩

/-- Concrete input for the C10 witness: same key and same hash as `rowU`. -/
def inputU : UpsertInput :=
  ⟨7, "a.md".data, "u2".data, "t2".data, "h1".data,
   "text/markdown".data, "16.x".data, "body".data⟩

/-- Witness for C10: a concrete unchanged-hash upsert reports no change,
keeps blob, chunks and counter, and reactivates the row in place. -/
theorem upsertDocument_unchanged_reactivates_witness :
    (upsertDocument dbU 9 inputU).2.2 = false
    ∧ (upsertDocument dbU 9 inputU).2.1 = 1
    ∧ (upsertDocument dbU 9 inputU).1.blobs = dbU.blobs
    ∧ (upsertDocument dbU 9 inputU).1.chunks = dbU.chunks
    ∧ (upsertDocument dbU 9 inputU).1.nextDocId = dbU.nextDocId
    ∧ { rowU with title := inputU.title, uri := inputU.uri, updatedAt := 9, active := 1 }
        ∈ (upsertDocument dbU 9 inputU).1.documents
    ∧ ∀ r ∈ dbU.documents, r.id ≠ rowU.id →
        r ∈ (upsertDocument dbU 9 inputU).1.documents :=
  upsertDocument_unchanged_reactivates dbU 9 inputU rowU
    (by decide) (by decide) (by decide)

/-- C9: the version planner satisfies the literal scenario: with tags
v16.2.0, v16.1.0, v15.9.9 and series label 16.x, `pickLatestForSeries`
returns v16.2.0; `extractMajorVersion` of v16.2.3 is 16.x; and
`parseSeriesLabel` of "main" is null. -/
theorem versionPlanningScenario :
    pickLatestForSeries ["v16.2.0".data, "v16.1.0".data, "v15.9.9".data] ("16.x".data)
        = some ("v16.2.0".data)
    ∧ extractMajorVersion ("v16.2.3".data) = ("16.x".data)
    ∧ parseSeriesLabel ("main".data) = none := by
  refine ⟨by decide, by decide, by decide⟩

theorem streamGuard_characterization (m : Nat) (xs : List Nat) :
    ∀ loaded, loaded ≤ m →
      streamGuard m loaded xs =
        if loaded + xs.sum ≤ m then .ok (loaded + xs.sum)
        else .error ("Archive exceeded limit".data) := by
  induction xs with
  | nil =>
    intro loaded h
    simp [streamGuard, h]
  | cons sz rest ih =>
    intro loaded h
    simp only [streamGuard, List.sum_cons]
    by_cases hover : loaded + sz > m
    · rw [if_pos hover, if_neg (by omega)]
    · rw [if_neg hover, ih (loaded + sz) (by omega)]
      have harith : loaded + sz + rest.sum = loaded + (sz + rest.sum) := by omega
      rw [harith]

/-- C8: `downloadArchive`'s size guard accepts exactly when the
content-length header (when present and non-empty) is at most the cap and
the streamed byte total is at most the cap; a value equal to the cap is
accepted and one byte over is rejected, the header check and the streaming
check both being strict. The default cap is 500 MB. -/
theorem downloadArchive_size_cap :
    (∀ (res : OkResponse) (maxBytes : Nat),
        fetchSizeGuard maxBytes res = .ok res.chunkSizes.sum ↔
          ((∀ n, res.contentLength = some n → n ≤ maxBytes)
            ∧ res.chunkSizes.sum ≤ maxBytes))
    ∧ DEFAULT_MAX_BYTES = 524288000 := by
  constructor
  · intro res maxBytes
    have hstream := streamGuard_characterization maxBytes res.chunkSizes 0 (Nat.zero_le _)
    simp only [Nat.zero_add] at hstream
    cases hcl : res.contentLength with
    | none =>
      simp only [fetchSizeGuard, hcl, hstream]
      by_cases hle : res.chunkSizes.sum ≤ maxBytes
      · simp [hle]
      · simp [hle]
    | some n =>
      simp only [fetchSizeGuard, hcl]
      by_cases hn : n > maxBytes
      · rw [if_pos hn]
        constructor
        · intro hok
          simp at hok
        · rintro ⟨hbound, _⟩
          have := hbound n rfl
          omega
      · rw [if_neg hn, hstream]
        by_cases hle : res.chunkSizes.sum ≤ maxBytes
        · simp only [if_pos hle, true_iff]
          refine ⟨?_, hle⟩
          intro k hk
          injection hk with hk
          omega
        · simp [hle]
  · rfl

/-- C7: `syncGithubRepo` resolves the commit SHA by the candidate chain
header SHA, trailing hex of the top-level directory, hex of the URL tail,
previously known SHA, in that order; and whenever the resolved SHA equals
the (truthy) previous SHA with `force` unset, the run returns status
not-modified, which carries no files. -/
theorem syncGithubRepo_sha_resolution :
    (∀ i : ResolveShaInput, resolveCommitSha i = resolveShaSpecChain i)
    ∧ (∀ (st : SyncState) (files : List Str),
        st.force = false →
        resolveCommitSha ⟨st.downloadSha, st.downloadUrl, st.topLevelDir, st.previousSha⟩
          = st.previousSha →
        truthy st.previousSha = true →
        ∃ sha, syncGithubRepoModel st files = .notModified sha) := by
  constructor
  · intro i
    unfold resolveCommitSha resolveShaSpecChain
    cases i.headerSha with
    | none =>
      simp only [List.findSome?]
      cases parseShaFromTopLevel i.topLevelDir <;>
        cases hurl : parseShaFromUrl i.url <;>
          cases i.previous <;> simp [List.findSome?, hurl]
    | some h =>
      by_cases hh : h ≠ [] ∧ isHexSha h = true
      · simp [hh, List.findSome?]
      · simp only [if_neg hh, List.findSome?]
        cases parseShaFromTopLevel i.topLevelDir <;>
          cases hurl : parseShaFromUrl i.url <;>
            cases i.previous <;> simp [List.findSome?, hurl]
  · intro st files hforce hresolved htruthy
    unfold syncGithubRepoModel
    by_cases hdl : st.downloadNotModified
    · exact ⟨st.previousSha, by simp [hdl]⟩
    · refine ⟨st.previousSha, ?_⟩
      simp [hdl, hresolved, htruthy, hforce]

/-- Witness for C7: a concrete run in which the URL-tail SHA equals the
previous SHA and `force` is unset returns not-modified. -/
theorem syncGithubRepo_sha_resolution_witness :
    ∃ sha,
      syncGithubRepoModel
        ⟨false, none, ("u/deadbeef1.zip".data), none, some ("deadbeef1".data), false⟩
        ["file.md".data] = .notModified sha :=
  syncGithubRepo_sha_resolution.2
    ⟨false, none, ("u/deadbeef1.zip".data), none, some ("deadbeef1".data), false⟩
    ["file.md".data] rfl (by decide) (by decide)

/-- C3 counterexample: a single line of 2404 identical characters has 601
approximate tokens, so it exceeds the 600-token limit, yet
`enforceTokenLimit` returns two chunks of 601 tokens each — both above
the 600-token output bound the claim asserts. -/
theorem enforceTokenLimit_over_limit_output :
    MAX_CHUNK_TOKENS < approxTokens (List.replicate 2404 'x') ∧
    (enforceTokenLimit (List.replicate 2404 'x') [] [] 1 1 ("doc".data)).map
      (fun c => c.tokenCount) = [601, 601] := by
  have h3 : approxTokens (List.replicate 2404 'x') = 601 := by
    unfold approxTokens
    rw [List.length_replicate]
    decide
  have h1 : ('\n') ∉ List.replicate 2404 'x' := by
    intro hmem
    rcases List.mem_replicate.mp hmem with ⟨-, h⟩
    exact absurd h (by decide)
  have h2 : trimStr (List.replicate 2404 'x') = List.replicate 2404 'x' :=
    trimStr_replicate 2404 'x' (by decide)
  refine ⟨by rw [h3]; decide, ?_⟩
  rw [enforceTokenLimit_single_line _ _ _ _ _ _ h1 h2 (by rw [h3]; decide)]
  simp only [List.map_cons, List.map_nil, makeChunk_tokenCount, h3]

/-- C3 (amended): when a content exceeds 600 approximate tokens, the
line-by-line splitter's outputs each have at least 40 tokens, unless no
piece reached 40 tokens, in which case the result is a single chunk
clamped to at most 600 tokens; output chunks may exceed 600 tokens (see
the counterexample). A content of exactly 600 tokens is returned unsplit
as a single chunk. -/
theorem enforceTokenLimit_min_tokens_and_passthrough (content breadcrumb : Str)
    (path : List Str) (startLine endLine : Int) (chunkType : Str) :
    (MAX_CHUNK_TOKENS < approxTokens content →
      (∀ c ∈ enforceTokenLimit content breadcrumb path startLine endLine chunkType,
        MIN_CHUNK_TOKENS ≤ c.tokenCount) ∨
      (∃ c, enforceTokenLimit content breadcrumb path startLine endLine chunkType = [c] ∧
        c.tokenCount ≤ MAX_CHUNK_TOKENS)) ∧
    (approxTokens content = MAX_CHUNK_TOKENS →
      enforceTokenLimit content breadcrumb path startLine endLine chunkType =
        [makeChunk content breadcrumb ((path.getLast?).getD ("Document".data))
          startLine endLine chunkType]) := by
  constructor
  · intro hbig
    exact enforceTokenLimit_min_or_single content breadcrumb path startLine endLine
      chunkType hbig
  · intro h600
    simp only [enforceTokenLimit]
    rw [if_pos (le_of_eq h600)]

/-- Witness for the amended C3 theorem: a 2404-character line (601 tokens)
is over the limit and every resulting chunk has at least 40 tokens; a
2400-character line (exactly 600 tokens) passes through as one chunk. -/
theorem enforceTokenLimit_min_tokens_and_passthrough_witness :
    ((∀ c ∈ enforceTokenLimit (List.replicate 2404 'x') [] [] 1 1 ("doc".data),
        MIN_CHUNK_TOKENS ≤ c.tokenCount) ∨
      (∃ c, enforceTokenLimit (List.replicate 2404 'x') [] [] 1 1 ("doc".data) = [c] ∧
        c.tokenCount ≤ MAX_CHUNK_TOKENS)) ∧
    enforceTokenLimit (List.replicate 2400 'x') [] [] 1 1 ("doc".data) =
      [makeChunk (List.replicate 2400 'x') [] ("Document".data) 1 1 ("doc".data)] := by
  constructor
  · exact (enforceTokenLimit_min_tokens_and_passthrough (List.replicate 2404 'x')
      [] [] 1 1 ("doc".data)).1
      (by unfold approxTokens; rw [List.length_replicate]; decide)
  · exact (enforceTokenLimit_min_tokens_and_passthrough (List.replicate 2400 'x')
      [] [] 1 1 ("doc".data)).2
      (by unfold approxTokens; rw [List.length_replicate]; decide)

/-- C2 (amended): the code chunking pipeline keeps line ranges ordered:
raw chunks from both line chunkers satisfy startLine ≤ endLine, and
drafts built by `buildCodeChunkDrafts` from ordered raw chunks have
lineStart ≤ lineEnd whenever both are set. (The markdown pipeline
violates both the line ordering and any 1000-token bound; see the
counterexample.) -/
theorem chunk_line_ranges_ordered :
    (∀ (code : Str) (base : Int) (lang : Option Str),
      ∀ r ∈ chunkByLinesFallback code base lang, r.startLine ≤ r.endLine) ∧
    (∀ (startRow endRow : Nat) (lines : List Str) (base : Int) (sn : Option Str)
      (st si lg : Str),
      ∀ r ∈ chunkSymbolLines startRow endRow lines base sn st si lg,
        r.startLine ≤ r.endLine) ∧
    (∀ (raws : List CodeChunkResult) (content filePath : Str) (language : Option Str)
      (pfx : List Str), (∀ r ∈ raws, r.startLine ≤ r.endLine) →
      ∀ c ∈ buildCodeChunkDrafts raws content filePath language pfx,
        ∀ s e, c.lineStart = some s → c.lineEnd = some e → s ≤ e) := by
  refine ⟨chunkByLinesFallback_ok, chunkSymbolLines_ok, ?_⟩
  intro raws content filePath language pfx h c hc s e hs he
  rcases buildCodeChunkDrafts_lineInv raws content filePath language pfx h c hc with
    ⟨s', e', hs', he', hle⟩ | ⟨hs', he'⟩
  · rw [hs'] at hs
    rw [he'] at he
    have h1 := Option.some.inj hs
    have h2 := Option.some.inj he
    subst h1
    subst h2
    exact hle
  · rw [hs'] at hs
    exact absurd hs (by simp)

/-- Witness for the amended C2 theorem: the single chunk of a one-line
fallback split spans line 1 to 1, and a draft built from a raw chunk on
lines 3-5 keeps 3 ≤ 5. -/
theorem chunk_line_ranges_ordered_witness :
    ((1 : Int) ≤ 1) ∧ ((3 : Int) ≤ 5) := by
  constructor
  · exact chunk_line_ranges_ordered.1 ("a".data) 1 none
      { text := "a".data, startLine := 1, endLine := 1, language := none } (by decide)
  · exact chunk_line_ranges_ordered.2.2
      [{ text := "a".data, startLine := 3, endLine := 5 }] ("a".data) ("a.ts".data) none []
      (by decide)
      { content := ("a.ts\n\n```\na\n```".data), tokenCount := 4, chunkType := "code".data,
        contextPath := "a.ts".data, title := "a.ts".data, preview := "a".data,
        lineStart := some 3, lineEnd := some 5 }
      (by decide) 3 5 rfl rfl

/-- C2 counterexample: the markdown chunker violates both halves of the
claimed invariant. A single 4100-character line yields two chunks of
1028 and 1025 tokens (over any 1000-token bound), and `docB` yields a
second chunk with lineStart = 4 but lineEnd = 3 (start after end). -/
theorem buildMarkdownChunks_range_and_token_violations :
    ((buildMarkdownChunks (List.replicate 4100 'x') none []).map (fun c => c.tokenCount)
      = [1028, 1025]) ∧
    ((buildMarkdownChunks docB none []).map (fun c => (c.lineStart, c.lineEnd))
      = [(some 1, some 4), (some 4, some 3)]) :=
  ⟨docA_tokenCounts, docB_lines⟩


/-! ## Crawler URL normalization (WebsiteCrawler.normalizeUrl) -/

/-- Characters that terminate the host component of an absolute URL. -/
def urlSepChar (c : Char) : Bool :=
  decide (c = '/') || decide (c = '?') || decide (c = '#')

/-- The components of a parsed absolute URL as exposed by `new URL`:
`protocol` is the scheme with its trailing colon, `search` the query with
its leading question mark (empty when the query is empty). -/
structure UrlParts where
  protocol : Str
  host : Str
  pathname : Str
  search : Str
  deriving DecidableEq, Repr

/-- Splits a string around the first occurrence of the pattern `pat`. -/
def splitSeq? (pat : Str) : Str → Option (Str × Str)
  | [] => none
  | c :: rest =>
    if List.isPrefixOf pat (c :: rest) then some ([], (c :: rest).drop pat.length)
    else
      match splitSeq? pat rest with
      | some (a, b) => some (c :: a, b)
      | none => none

/-- The query of the part after the path: everything between a leading
question mark and the fragment. -/
def queryOf (s : Str) : Str :=
  if s.head? = some '?' then s.tail.takeWhile (fun c => decide (c ≠ '#')) else []

/-- The pathname read from the remainder after the host: everything up to
the query or fragment, defaulting to `/`. -/
def urlPathname (more : Str) : Str :=
  let path0 := more.takeWhile (fun c => !(decide (c = '?') || decide (c = '#')))
  if path0 = [] then ("/".data) else path0

/-- The search read from the remainder after the host: the query with its
question mark, empty when the query is empty. -/
def urlSearch (more : Str) : Str :=
  let query := queryOf (more.dropWhile (fun c => !(decide (c = '?') || decide (c = '#'))))
  if query = [] then ([] : Str) else '?' :: query

/-- The parser body once `scheme` and the remainder after `://` are
separated. -/
def parseUrlParts (scheme rest : Str) : Option UrlParts :=
  if scheme = [] then none
  else if scheme.any urlSepChar then none
  else if rest.takeWhile (fun c => !urlSepChar c) = [] then none
  else
    some ⟨toLowerStr scheme ++ (":".data),
      toLowerStr (rest.takeWhile (fun c => !urlSepChar c)),
      urlPathname (rest.dropWhile (fun c => !urlSepChar c)),
      urlSearch (rest.dropWhile (fun c => !urlSepChar c))⟩

/-- Model of `new URL` restricted to absolute URLs of the shape
`scheme://host[/path][?query][#fragment]` (no userinfo, no percent
decoding, no port elision): scheme and host are lowercased, the fragment
is dropped, an empty path reads as `/`, and `search` is empty unless the
query itself is non-empty.  Anything else is rejected. -/
def parseUrl (url : Str) : Option UrlParts :=
  (splitSeq? ("://".data) url).bind (fun p => parseUrlParts p.1 p.2)

/-- `replace(/\/+/g, "/")`: collapses every run of slashes to one slash;
the flag records whether the previous character was a slash. -/
def collapseSlashesGo : Bool → Str → Str
  | _, [] => []
  | inRun, c :: rest =>
    if c = '/' then
      if inRun then collapseSlashesGo true rest
      else '/' :: collapseSlashesGo true rest
    else c :: collapseSlashesGo false rest

/-- Collapses runs of slashes in a string. -/
def collapseSlashes (s : Str) : Str := collapseSlashesGo false s

/-- `replace(":", "")` on a protocol: removes the first colon. -/
def removeFirstColon : Str → Str
  | [] => []
  | c :: rest => if c = ':' then rest else c :: removeFirstColon rest

/-- The scheme of a parsed URL: `protocol.replace(":", "")`. -/
def nuScheme (parsed : UrlParts) : Str := removeFirstColon parsed.protocol

/-- The normalized path: slash runs collapsed (defaulting to `/`), then a
trailing `.md` stripped case-insensitively via `slice(0, -3)`. -/
def nuPath (parsed : UrlParts) : Str :=
  let collapsed := collapseSlashes parsed.pathname
  let path1 := if collapsed = [] then ("/".data) else collapsed
  if endsWithStr (".md".data) (toLowerStr path1) then dropLastN 3 path1 else path1

/-- The `normalized` local of the source after the conditional
`+= parsed.search`. -/
def nuNormalized (parsed : UrlParts) : Str :=
  let normalized :=
    nuScheme parsed ++ ("://".data) ++ toLowerStr parsed.host ++ nuPath parsed
  if parsed.search ≠ [] then normalized ++ parsed.search else normalized

/-- `normalized.replace(/\/$/, "")`: one trailing slash stripped. -/
def nuResult (parsed : UrlParts) : Str :=
  if (nuNormalized parsed).getLast? = some '/' then (nuNormalized parsed).dropLast
  else nuNormalized parsed

/-- The body of `WebsiteCrawler.normalizeUrl` on a successful parse:
keeps only `http` and `https`, builds the normalized string and strips a
single trailing slash, falling back to `scheme://host` when nothing
remains. -/
def normalizeParsed (parsed : UrlParts) : Option Str :=
  if ¬(parsed.protocol = ("http:".data) ∨ parsed.protocol = ("https:".data)) then
    none
  else if nuResult parsed = [] then
    some (nuScheme parsed ++ ("://".data) ++ toLowerStr parsed.host)
  else some (nuResult parsed)

/-- `WebsiteCrawler.normalizeUrl`: parses the URL (`none` models the
`catch` on an invalid URL) and normalizes the parsed parts. -/
def normalizeUrl (url : Str) : Option Str :=
  (parseUrl url).bind normalizeParsed

/-- `normalizeUrl` is not idempotent: a path whose `.md` strip exposes
another `.md`, a query reduced to a bare `?` by the trailing-slash strip,
and a query whose trailing slash run is only shortened by one, all
re-normalize to something new. -/
theorem normalizeUrl_not_idempotent :
    normalizeUrl (("http://a/x.md.md").data) = some (("http://a/x.md").data) ∧
    normalizeUrl (("http://a/x.md").data) = some (("http://a/x").data) ∧
    normalizeUrl (("http://a/b?/").data) = some (("http://a/b?").data) ∧
    normalizeUrl (("http://a/b?").data) = some (("http://a/b").data) ∧
    normalizeUrl (("http://a/b?x//").data) = some (("http://a/b?x/").data) ∧
    normalizeUrl (("http://a/b?x/").data) = some (("http://a/b?x").data) := by
  decide
/-! ## URL normalization lemmas -/

/-- `Char.ofNat` inverts `Char.toNat` below the surrogate range. -/
theorem toNat_ofNat_small (n : Nat) (h : n < 55296) : (Char.ofNat n).toNat = n := by
  unfold Char.ofNat
  rw [dif_pos (Or.inl h)]
  show (BitVec.ofNatLt n _).toNat = n
  exact BitVec.toNat_ofNatLt _ _

/-- `Char.toLower` fixes characters outside the uppercase range. -/
theorem toLower_eq_self (c : Char) (h : ¬(c.toNat ≥ 65 ∧ c.toNat ≤ 90)) :
    Char.toLower c = c := by
  unfold Char.toLower
  rw [if_neg h]

/-- The code of a lowered character. -/
theorem toLower_toNat (c : Char) :
    (Char.toLower c).toNat =
      if c.toNat ≥ 65 ∧ c.toNat ≤ 90 then c.toNat + 32 else c.toNat := by
  unfold Char.toLower
  by_cases h : c.toNat ≥ 65 ∧ c.toNat ≤ 90
  · rw [if_pos h, if_pos h]
    exact toNat_ofNat_small _ (by have := c.val.toNat_lt; omega)
  · rw [if_neg h, if_neg h]

/-- `Char.toLower` is idempotent. -/
theorem toLower_toLower (c : Char) :
    Char.toLower (Char.toLower c) = Char.toLower c := by
  by_cases h : c.toNat ≥ 65 ∧ c.toNat ≤ 90
  · refine toLower_eq_self _ ?_
    rw [toLower_toNat, if_pos h]
    omega
  · rw [toLower_eq_self c h, toLower_eq_self c h]

/-- `toLowerStr` is idempotent. -/
theorem toLowerStr_idem (s : Str) : toLowerStr (toLowerStr s) = toLowerStr s := by
  unfold toLowerStr
  rw [List.map_map]
  exact List.map_congr_left (fun c _ => toLower_toLower c)

/-- `toLowerStr` preserves length. -/
theorem toLowerStr_length (s : Str) : (toLowerStr s).length = s.length :=
  List.length_map _ _

/-- `toLowerStr` distributes over append. -/
theorem toLowerStr_append (a b : Str) :
    toLowerStr (a ++ b) = toLowerStr a ++ toLowerStr b :=
  List.map_append _ _ _

/-- The head of a lowercased string. -/
theorem toLowerStr_head? (s : Str) :
    (toLowerStr s).head? = Option.map Char.toLower s.head? :=
  List.head?_map _ _

/-- Lowercasing does not move a character in or out of the URL separator
set. -/
theorem urlSepChar_toLower (c : Char) :
    urlSepChar (Char.toLower c) = urlSepChar c := by
  by_cases h : c.toNat ≥ 65 ∧ c.toNat ≤ 90
  · have hlow : (Char.toLower c).toNat = c.toNat + 32 := by
      rw [toLower_toNat, if_pos h]
    have h1 : urlSepChar c = false := by
      simp only [urlSepChar, Bool.or_eq_false_iff, decide_eq_false_iff_not]
      refine ⟨⟨?_, ?_⟩, ?_⟩ <;> · intro he; rw [he] at h; exact absurd h (by decide)
    have h2 : urlSepChar (Char.toLower c) = false := by
      simp only [urlSepChar, Bool.or_eq_false_iff, decide_eq_false_iff_not]
      refine ⟨⟨fun he => ?_, fun he => ?_⟩, fun he => ?_⟩
      · rw [he, show ('/').toNat = 47 from rfl] at hlow; omega
      · rw [he, show ('?').toNat = 63 from rfl] at hlow; omega
      · rw [he, show ('#').toNat = 35 from rfl] at hlow; omega
    rw [h1, h2]
  · rw [toLower_eq_self c h]

/-- A separator character is a slash, a question mark or a hash. -/
theorem urlSepChar_cases (c : Char) (h : urlSepChar c = true) :
    c = '/' ∨ c = '?' ∨ c = '#' := by
  simp only [urlSepChar, Bool.or_eq_true, decide_eq_true_eq] at h
  tauto

/-- `takeWhile` over an append whose left part satisfies the predicate and
whose right part opens with a failing character. -/
theorem takeWhile_append_all (p : Char → Bool) (a b : Str)
    (ha : ∀ c ∈ a, p c = true) (hb : ∀ c, b.head? = some c → p c = false) :
    (a ++ b).takeWhile p = a := by
  induction a with
  | nil =>
    rw [List.nil_append]
    cases b with
    | nil => rfl
    | cons d t =>
      rw [List.takeWhile_cons, if_neg (by simp [hb d rfl])]
  | cons c t ih =>
    rw [List.cons_append, List.takeWhile_cons, if_pos (ha c (by simp))]
    rw [ih (fun x hx => ha x (by simp [hx]))]

/-- `dropWhile` over the same split. -/
theorem dropWhile_append_all (p : Char → Bool) (a b : Str)
    (ha : ∀ c ∈ a, p c = true) (hb : ∀ c, b.head? = some c → p c = false) :
    (a ++ b).dropWhile p = b := by
  induction a with
  | nil =>
    rw [List.nil_append]
    cases b with
    | nil => rfl
    | cons d t =>
      rw [List.dropWhile_cons, if_neg (by simp [hb d rfl])]
  | cons c t ih =>
    rw [List.cons_append, List.dropWhile_cons, if_pos (ha c (by simp))]
    exact ih (fun x hx => ha x (by simp [hx]))

/-- The head of a `takeWhile` result is the head of the input. -/
theorem head?_takeWhile (p : Char → Bool) (l : Str) (d : Char)
    (h : (l.takeWhile p).head? = some d) : l.head? = some d := by
  cases l with
  | nil => simp at h
  | cons c t =>
    rw [List.takeWhile_cons] at h
    by_cases hc : p c
    · rw [if_pos hc] at h
      simpa using h
    · rw [if_neg hc] at h
      simp at h

/-- The head of a `take` is the head of the input. -/
theorem head?_take_eq (l : Str) (n : Nat) (d : Char)
    (h : (l.take n).head? = some d) : l.head? = some d := by
  cases l with
  | nil => simp at h
  | cons c t =>
    cases n with
    | zero => simp at h
    | succ m => simpa using h

/-- A positive `take` keeps the head. -/
theorem head?_take_pos (l : Str) (n : Nat) (d : Char)
    (h : l.head? = some d) (hn : 1 ≤ n) : (l.take n).head? = some d := by
  cases l with
  | nil => simp at h
  | cons c t =>
    cases n with
    | zero => omega
    | succ m => simpa using h

/-- Splitting off a literal `http://` head. -/
theorem splitSeq_http (R : Str) :
    splitSeq? ("://".data) (("http".data) ++ ("://".data) ++ R)
      = some (("http".data), R) := by
  simp [splitSeq?, List.isPrefixOf]

/-- Splitting off a literal `https://` head. -/
theorem splitSeq_https (R : Str) :
    splitSeq? ("://".data) (("https".data) ++ ("://".data) ++ R)
      = some (("https".data), R) := by
  simp [splitSeq?, List.isPrefixOf]

/-- No adjacent pair of slashes, as a Boolean predicate. -/
def collapsedB : Str → Bool
  | c :: d :: rest => !(decide (c = '/') && decide (d = '/')) && collapsedB (d :: rest)
  | _ => true

theorem collapsedB_cons_elim (c : Char) (l : Str)
    (h : collapsedB (c :: l) = true) : collapsedB l = true := by
  cases l with
  | nil => rfl
  | cons d r =>
    simp only [collapsedB, Bool.and_eq_true] at h
    exact h.2

theorem collapsedB_pair (c d : Char) (r : Str)
    (h : collapsedB (c :: d :: r) = true) : ¬(c = '/' ∧ d = '/') := by
  simp only [collapsedB, Bool.and_eq_true, Bool.not_eq_true', Bool.and_eq_false_iff,
    decide_eq_false_iff_not] at h
  rcases h.1 with h1 | h1 <;> tauto

theorem collapsedB_cons_intro (c : Char) (l : Str) (hl : collapsedB l = true)
    (hcd : c = '/' → ∀ d, l.head? = some d → d ≠ '/') :
    collapsedB (c :: l) = true := by
  cases l with
  | nil => rfl
  | cons d r =>
    simp only [collapsedB, Bool.and_eq_true, Bool.not_eq_true', Bool.and_eq_false_iff,
      decide_eq_false_iff_not]
    refine ⟨?_, hl⟩
    by_cases hc : c = '/'
    · exact Or.inr (hcd hc d rfl)
    · exact Or.inl hc

theorem collapsedB_head_of_slash (rest : Str)
    (h : collapsedB ('/' :: rest) = true) (d : Char) (hd : rest.head? = some d) :
    d ≠ '/' := by
  cases rest with
  | nil => simp at hd
  | cons e r =>
    have he : e = d := by simpa using hd
    subst he
    have := collapsedB_pair '/' e r h
    tauto

/-- Equation lemmas for the slash collapser. -/
theorem collapseGo_slash_true (rest : Str) :
    collapseSlashesGo true ('/' :: rest) = collapseSlashesGo true rest := rfl

theorem collapseGo_slash_false (rest : Str) :
    collapseSlashesGo false ('/' :: rest) = '/' :: collapseSlashesGo true rest := rfl

theorem collapseGo_other (b : Bool) (c : Char) (rest : Str) (hc : c ≠ '/') :
    collapseSlashesGo b (c :: rest) = c :: collapseSlashesGo false rest := by
  simp only [collapseSlashesGo, if_neg hc]

/-- The output of the slash collapser in run state never starts with a
slash. -/
theorem collapseSlashesGo_true_head (s : Str) :
    ∀ d, (collapseSlashesGo true s).head? = some d → d ≠ '/' := by
  induction s with
  | nil => intro d hd; simp [collapseSlashesGo] at hd
  | cons c rest ih =>
    intro d hd
    by_cases hc : c = '/'
    · subst hc
      rw [collapseGo_slash_true] at hd
      exact ih d hd
    · rw [collapseGo_other true c rest hc] at hd
      have : c = d := by simpa using hd
      subst this
      exact hc

/-- The slash collapser output has no adjacent slashes. -/
theorem collapsedB_collapseSlashesGo (s : Str) :
    ∀ b, collapsedB (collapseSlashesGo b s) = true := by
  induction s with
  | nil => intro b; rfl
  | cons c rest ih =>
    intro b
    by_cases hc : c = '/'
    · subst hc
      cases b with
      | true =>
        rw [collapseGo_slash_true]
        exact ih true
      | false =>
        rw [collapseGo_slash_false]
        exact collapsedB_cons_intro _ _ (ih true)
          (fun _ d hd => collapseSlashesGo_true_head rest d hd)
    · rw [collapseGo_other b c rest hc]
      exact collapsedB_cons_intro _ _ (ih false) (fun hcc => absurd hcc hc)

theorem collapsedB_collapseSlashes (s : Str) :
    collapsedB (collapseSlashes s) = true :=
  collapsedB_collapseSlashesGo s false

/-- On a string with no adjacent slashes the collapser is the identity. -/
theorem collapseSlashesGo_eq_self (s : Str) (h : collapsedB s = true) :
    collapseSlashesGo false s = s ∧
      ((∀ d, s.head? = some d → d ≠ '/') → collapseSlashesGo true s = s) := by
  induction s with
  | nil => exact ⟨rfl, fun _ => rfl⟩
  | cons c rest ih =>
    obtain ⟨ih1, ih2⟩ := ih (collapsedB_cons_elim c rest h)
    constructor
    · by_cases hc : c = '/'
      · subst hc
        rw [collapseGo_slash_false]
        rw [ih2 (fun d hd => collapsedB_head_of_slash rest h d hd)]
      · rw [collapseGo_other false c rest hc, ih1]
    · intro hhead
      have hc : c ≠ '/' := hhead c rfl
      rw [collapseGo_other true c rest hc, ih1]

theorem collapseSlashes_eq_self (s : Str) (h : collapsedB s = true) :
    collapseSlashes s = s :=
  (collapseSlashesGo_eq_self s h).1

/-- Collapsing only drops characters. -/
theorem mem_collapseSlashesGo (s : Str) :
    ∀ b c, c ∈ collapseSlashesGo b s → c ∈ s := by
  induction s with
  | nil => intro b c hc; simp [collapseSlashesGo] at hc
  | cons d rest ih =>
    intro b c hc
    by_cases hd : d = '/'
    · subst hd
      cases b with
      | true =>
        rw [collapseGo_slash_true] at hc
        exact List.mem_cons_of_mem _ (ih true c hc)
      | false =>
        rw [collapseGo_slash_false] at hc
        rcases List.mem_cons.mp hc with h1 | h1
        · rw [h1]; exact List.mem_cons_self _ rest
        · exact List.mem_cons_of_mem _ (ih true c h1)
    · rw [collapseGo_other b d rest hd] at hc
      rcases List.mem_cons.mp hc with h1 | h1
      · rw [h1]; exact List.mem_cons_self d rest
      · exact List.mem_cons_of_mem _ (ih false c h1)

/-- Collapsing keeps the head. -/
theorem head?_collapseSlashes (s : Str) (c : Char) (h : s.head? = some c) :
    (collapseSlashes s).head? = some c := by
  cases s with
  | nil => simp at h
  | cons d rest =>
    have hd : d = c := Option.some.inj h
    subst hd
    unfold collapseSlashes
    by_cases hd : d = '/'
    · subst hd
      rw [collapseGo_slash_false]
      rfl
    · rw [collapseGo_other false d rest hd]
      rfl

/-- `collapsedB` is closed under `take`. -/
theorem collapsedB_take (s : Str) : ∀ n, collapsedB s = true →
    collapsedB (s.take n) = true := by
  induction s with
  | nil => intro n _; simp [collapsedB]
  | cons c rest ih =>
    intro n h
    cases n with
    | zero => rfl
    | succ m =>
      rw [List.take_succ_cons]
      refine collapsedB_cons_intro _ _ (ih m (collapsedB_cons_elim c rest h)) ?_
      intro hc d hd
      subst hc
      exact collapsedB_head_of_slash rest h d (head?_take_eq _ _ _ hd)

/-- In a collapsed string ending in a slash, the previous character is not
a slash. -/
theorem collapsedB_dropLast_getLast (s : Str) : collapsedB s = true →
    s.getLast? = some '/' → ∀ d, s.dropLast.getLast? = some d → d ≠ '/' := by
  induction s with
  | nil => intro _ hl; simp at hl
  | cons c t ih =>
    intro h hl d hd
    cases t with
    | nil => simp at hd
    | cons e r =>
      rw [show (c :: e :: r).dropLast = c :: (e :: r).dropLast from rfl] at hd
      cases r with
      | nil =>
        have hdc : c = d := by simpa using hd
        have hes : e = '/' := by simpa using hl
        subst hdc
        intro hcs
        exact collapsedB_pair c e [] h ⟨hcs, hes⟩
      | cons f r2 =>
        have hne : (e :: f :: r2).dropLast ≠ [] := by
          rw [show (e :: f :: r2).dropLast = e :: (f :: r2).dropLast from rfl]
          exact List.cons_ne_nil _ _
        rw [show (c :: (e :: f :: r2).dropLast) = [c] ++ (e :: f :: r2).dropLast
          from rfl, getLast?_append_right _ _ hne] at hd
        have hl2 : (e :: f :: r2).getLast? = some '/' := by
          rw [show (c :: e :: f :: r2) = [c] ++ (e :: f :: r2) from rfl,
            getLast?_append_right _ _ (List.cons_ne_nil _ _)] at hl
          exact hl
        exact ih (collapsedB_cons_elim c _ h) hl2 d hd
/-- Parsing a canonical URL recovers its components. -/
theorem parseUrl_canonical_aux (ST host path2 X srch : Str)
    (hsplit : splitSeq? ("://".data) (ST ++ ("://".data) ++ host ++ path2 ++ X)
      = some (ST, host ++ (path2 ++ X)))
    (hSTne : ST ≠ []) (hSTsep : ST.any urlSepChar = false)
    (hhost : ∀ c ∈ host, urlSepChar c = false) (hhne : host ≠ [])
    (hph : path2.head? = some '/')
    (hpmem : ∀ c ∈ path2, ¬(c = '?' ∨ c = '#'))
    (hX : (X = [] ∧ srch = []) ∨
      (∃ q, X = '?' :: q ∧ q ≠ [] ∧ ('#') ∉ q ∧ srch = '?' :: q)) :
    parseUrl (ST ++ ("://".data) ++ host ++ path2 ++ X)
      = some ⟨toLowerStr ST ++ (":".data), toLowerStr host, path2, srch⟩ := by
  have hp2ne : path2 ≠ [] := by
    intro h0; rw [h0] at hph; simp at hph
  have hhx : ∀ c, (path2 ++ X).head? = some c → (!urlSepChar c) = false := by
    intro c hc
    have h2 : (path2 ++ X).head? = some '/' := head?_append_left _ _ _ hph
    rw [h2] at hc
    have h3 : '/' = c := Option.some.inj hc
    subst h3
    rfl
  have htw : (host ++ (path2 ++ X)).takeWhile (fun c => !urlSepChar c) = host :=
    takeWhile_append_all _ _ _ (fun c hc => by rw [hhost c hc]; rfl) hhx
  have hdw : (host ++ (path2 ++ X)).dropWhile (fun c => !urlSepChar c) = path2 ++ X :=
    dropWhile_append_all _ _ _ (fun c hc => by rw [hhost c hc]; rfl) hhx
  have hpmem2 : ∀ c ∈ path2, (fun c => !(decide (c = '?') || decide (c = '#'))) c
      = true := by
    intro c hc
    have := hpmem c hc
    simp only [Bool.not_eq_true', Bool.or_eq_false_iff, decide_eq_false_iff_not]
    tauto
  unfold parseUrl
  rw [hsplit, Option.some_bind]
  dsimp only
  unfold parseUrlParts
  rw [if_neg hSTne, if_neg (by simp [hSTsep]), htw, hdw, if_neg hhne]
  rcases hX with ⟨rfl, rfl⟩ | ⟨q, rfl, hqne, hqh, rfl⟩
  · simp only [List.append_nil]
    have hupath : urlPathname path2 = path2 := by
      unfold urlPathname
      dsimp only
      rw [List.takeWhile_eq_self_iff.mpr hpmem2, if_neg hp2ne]
    have husrch : urlSearch path2 = [] := by
      unfold urlSearch
      dsimp only
      rw [List.dropWhile_eq_nil_iff.mpr hpmem2]
      rfl
    rw [hupath, husrch]
  · have hupath : urlPathname (path2 ++ '?' :: q) = path2 := by
      unfold urlPathname
      dsimp only
      rw [takeWhile_append_all _ _ _ hpmem2 (fun c hc => by
        have h3 : '?' = c := Option.some.inj hc
        subst h3
        rfl)]
      rw [if_neg hp2ne]
    have husrch : urlSearch (path2 ++ '?' :: q) = '?' :: q := by
      unfold urlSearch
      dsimp only
      rw [dropWhile_append_all _ _ _ hpmem2 (fun c hc => by
        have h3 : '?' = c := Option.some.inj hc
        subst h3
        rfl)]
      rw [show queryOf ('?' :: q) = q.takeWhile (fun c => decide (c ≠ '#')) from rfl]
      rw [List.takeWhile_eq_self_iff.mpr (fun c hc => by
        simp only [decide_eq_true_eq]
        intro h0
        exact hqh (h0 ▸ hc))]
      rw [if_neg hqne]
    rw [hupath, husrch]

/-- `normalizeUrl` fixes canonical URLs: lowercase scheme and host, a
collapsed path that opens with a slash, does not end in `.md`, and (when
there is no query) does not end in a slash, and a query that is non-empty
and does not end in a slash. -/
theorem normalizeUrl_canonical (ST host path2 q : Str)
    (hST : ST = ("http".data) ∨ ST = ("https".data))
    (hhost : ∀ c ∈ host, urlSepChar c = false) (hhne : host ≠ [])
    (hhlow : toLowerStr host = host)
    (hph : path2.head? = some '/')
    (hpmem : ∀ c ∈ path2, ¬(c = '?' ∨ c = '#'))
    (hpcol : collapsedB path2 = true)
    (hplast : q = [] → ∀ d, path2.getLast? = some d → d ≠ '/')
    (hmd : endsWithStr (".md".data) (toLowerStr path2) = false)
    (hq : q = [] ∨ (q ≠ [] ∧ ('#') ∉ q ∧ ∀ d, q.getLast? = some d → d ≠ '/')) :
    normalizeUrl (ST ++ ("://".data) ++ host ++ path2 ++
        (if q = [] then [] else '?' :: q))
      = some (ST ++ ("://".data) ++ host ++ path2 ++
        (if q = [] then [] else '?' :: q)) := by
  have hp2ne : path2 ≠ [] := by
    intro h0; rw [h0] at hph; simp at hph
  have hSTne : ST ≠ [] := by
    rcases hST with rfl | rfl <;> decide
  have hSTsep : ST.any urlSepChar = false := by
    rcases hST with rfl | rfl <;> decide
  have hproto : toLowerStr ST ++ (":".data) = ("http:".data) ∨
      toLowerStr ST ++ (":".data) = ("https:".data) := by
    rcases hST with rfl | rfl
    · exact Or.inl (by decide)
    · exact Or.inr (by decide)
  have hcolon : removeFirstColon (toLowerStr ST ++ (":".data)) = ST := by
    rcases hST with rfl | rfl <;> decide
  rcases hq with rfl | ⟨hqne, hqh, hqlast⟩
  · rw [if_pos rfl, List.append_nil]
    have hsplit : splitSeq? ("://".data) (ST ++ ("://".data) ++ host ++ path2)
        = some (ST, host ++ path2) := by
      rcases hST with rfl | rfl
      · exact splitSeq_http _
      · exact splitSeq_https _
    have hparse := parseUrl_canonical_aux ST host path2 [] [] (by
        simp only [List.append_nil]
        exact hsplit)
      hSTne hSTsep hhost hhne hph hpmem (Or.inl ⟨rfl, rfl⟩)
    simp only [List.append_nil] at hparse
    have h2 : nuScheme ⟨toLowerStr ST ++ (":".data), toLowerStr host, path2, []⟩
        = ST := hcolon
    have h1 : nuPath ⟨toLowerStr ST ++ (":".data), toLowerStr host, path2, []⟩
        = path2 := by
      unfold nuPath
      dsimp only
      rw [collapseSlashes_eq_self path2 hpcol, if_neg hp2ne, if_neg (by simp [hmd])]
    have h3 : nuNormalized ⟨toLowerStr ST ++ (":".data), toLowerStr host, path2, []⟩
        = ST ++ ("://".data) ++ host ++ path2 := by
      unfold nuNormalized
      dsimp only
      rw [h2, h1, hhlow, hhlow]
      rw [if_neg (show ¬(([] : Str) ≠ []) from not_not_intro rfl)]
    have hlast : ∀ d, (ST ++ ("://".data) ++ host ++ path2).getLast? = some d →
        d ≠ '/' := by
      intro d hd
      rw [getLast?_append_right _ _ hp2ne] at hd
      exact hplast rfl d hd
    have h4 : nuResult ⟨toLowerStr ST ++ (":".data), toLowerStr host, path2, []⟩
        = ST ++ ("://".data) ++ host ++ path2 := by
      unfold nuResult
      rw [h3]
      rw [if_neg (fun hx => hlast '/' hx rfl)]
    unfold normalizeUrl
    rw [hparse, Option.some_bind]
    unfold normalizeParsed
    dsimp only
    rw [if_neg (not_not_intro hproto), h4]
    rw [if_neg (List.append_ne_nil_of_left_ne_nil
      (List.append_ne_nil_of_left_ne_nil (List.append_ne_nil_of_left_ne_nil hSTne _)
        _) _)]
  · rw [if_neg hqne]
    have hsplit : splitSeq? ("://".data)
        (ST ++ ("://".data) ++ host ++ path2 ++ '?' :: q)
        = some (ST, host ++ (path2 ++ '?' :: q)) := by
      rcases hST with rfl | rfl
      · have h0 := splitSeq_http (host ++ (path2 ++ '?' :: q))
        rw [show ("http".data) ++ ("://".data) ++ (host ++ (path2 ++ '?' :: q))
            = ("http".data) ++ ("://".data) ++ host ++ path2 ++ '?' :: q from by
          simp [List.append_assoc]] at h0
        exact h0
      · have h0 := splitSeq_https (host ++ (path2 ++ '?' :: q))
        rw [show ("https".data) ++ ("://".data) ++ (host ++ (path2 ++ '?' :: q))
            = ("https".data) ++ ("://".data) ++ host ++ path2 ++ '?' :: q from by
          simp [List.append_assoc]] at h0
        exact h0
    have hparse := parseUrl_canonical_aux ST host path2 ('?' :: q) ('?' :: q) hsplit
      hSTne hSTsep hhost hhne hph hpmem (Or.inr ⟨q, rfl, hqne, hqh, rfl⟩)
    have h2 : nuScheme ⟨toLowerStr ST ++ (":".data), toLowerStr host, path2, '?' :: q⟩
        = ST := hcolon
    have h1 : nuPath ⟨toLowerStr ST ++ (":".data), toLowerStr host, path2, '?' :: q⟩
        = path2 := by
      unfold nuPath
      dsimp only
      rw [collapseSlashes_eq_self path2 hpcol, if_neg hp2ne, if_neg (by simp [hmd])]
    have h3 : nuNormalized
          ⟨toLowerStr ST ++ (":".data), toLowerStr host, path2, '?' :: q⟩
        = ST ++ ("://".data) ++ host ++ path2 ++ '?' :: q := by
      unfold nuNormalized
      dsimp only
      rw [h2, h1, hhlow, hhlow]
      rw [if_pos (show ('?' :: q : Str) ≠ [] from List.cons_ne_nil _ _)]
    have hlast : ∀ d, (ST ++ ("://".data) ++ host ++ path2 ++ '?' :: q).getLast?
        = some d → d ≠ '/' := by
      intro d hd
      rw [getLast?_append_right _ _ (List.cons_ne_nil '?' q)] at hd
      rw [show ('?' :: q : Str) = ['?'] ++ q from rfl,
        getLast?_append_right _ _ hqne] at hd
      exact hqlast d hd
    have h4 : nuResult ⟨toLowerStr ST ++ (":".data), toLowerStr host, path2, '?' :: q⟩
        = ST ++ ("://".data) ++ host ++ path2 ++ '?' :: q := by
      unfold nuResult
      rw [h3]
      rw [if_neg (fun hx => hlast '/' hx rfl)]
    unfold normalizeUrl
    rw [hparse, Option.some_bind]
    unfold normalizeParsed
    dsimp only
    rw [if_neg (not_not_intro hproto), h4]
    rw [if_neg (List.append_ne_nil_of_left_ne_nil
      (List.append_ne_nil_of_left_ne_nil
        (List.append_ne_nil_of_left_ne_nil (List.append_ne_nil_of_left_ne_nil hSTne
          _) _) _) _)]

/-- `normalizeUrl` fixes a bare `scheme://host`. -/
theorem normalizeUrl_bare (ST host : Str)
    (hST : ST = ("http".data) ∨ ST = ("https".data))
    (hhost : ∀ c ∈ host, urlSepChar c = false) (hhne : host ≠ [])
    (hhlow : toLowerStr host = host) :
    normalizeUrl (ST ++ ("://".data) ++ host)
      = some (ST ++ ("://".data) ++ host) := by
  have hSTne : ST ≠ [] := by
    rcases hST with rfl | rfl <;> decide
  have hSTsep : ST.any urlSepChar = false := by
    rcases hST with rfl | rfl <;> decide
  have hsplit : splitSeq? ("://".data) (ST ++ ("://".data) ++ host)
      = some (ST, host) := by
    rcases hST with rfl | rfl
    · exact splitSeq_http _
    · exact splitSeq_https _
  have hparse : parseUrl (ST ++ ("://".data) ++ host)
      = some ⟨toLowerStr ST ++ (":".data), toLowerStr host, ("/".data), []⟩ := by
    unfold parseUrl
    rw [hsplit, Option.some_bind]
    dsimp only
    unfold parseUrlParts
    rw [if_neg hSTne, if_neg (by simp [hSTsep])]
    rw [List.takeWhile_eq_self_iff.mpr (fun c hc => by rw [hhost c hc]; rfl)]
    rw [List.dropWhile_eq_nil_iff.mpr (fun c hc => by rw [hhost c hc]; rfl)]
    rw [if_neg hhne]
    rfl
  have hproto : toLowerStr ST ++ (":".data) = ("http:".data) ∨
      toLowerStr ST ++ (":".data) = ("https:".data) := by
    rcases hST with rfl | rfl
    · exact Or.inl (by decide)
    · exact Or.inr (by decide)
  have hcolon : removeFirstColon (toLowerStr ST ++ (":".data)) = ST := by
    rcases hST with rfl | rfl <;> decide
  have h2 : nuScheme ⟨toLowerStr ST ++ (":".data), toLowerStr host, ("/".data), []⟩
      = ST := hcolon
  have h1 : nuPath ⟨toLowerStr ST ++ (":".data), toLowerStr host, ("/".data), []⟩
      = ("/".data) := by
    unfold nuPath
    dsimp only
    rw [show collapseSlashes ("/".data) = ("/".data) from rfl]
    rw [if_neg (show ("/".data) ≠ [] by decide)]
    rw [if_neg (show ¬(endsWithStr (".md".data) (toLowerStr ("/".data)) = true)
      by decide)]
  have h3 : nuNormalized ⟨toLowerStr ST ++ (":".data), toLowerStr host, ("/".data), []⟩
      = ST ++ ("://".data) ++ host ++ ['/'] := by
    unfold nuNormalized
    dsimp only
    rw [h2, h1, hhlow, hhlow]
    rw [if_neg (show ¬(([] : Str) ≠ []) from not_not_intro rfl)]
  have h4 : nuResult ⟨toLowerStr ST ++ (":".data), toLowerStr host, ("/".data), []⟩
      = ST ++ ("://".data) ++ host := by
    unfold nuResult
    rw [h3]
    rw [if_pos (by
      rw [getLast?_append_right _ _ (show (['/'] : Str) ≠ [] by decide)]
      rfl)]
    rw [List.dropLast_concat]
  unfold normalizeUrl
  rw [hparse, Option.some_bind]
  unfold normalizeParsed
  dsimp only
  rw [if_neg (not_not_intro hproto), h4]
  rw [if_neg (List.append_ne_nil_of_left_ne_nil
    (List.append_ne_nil_of_left_ne_nil hSTne _) _)]
/-- Properties of every successfully parsed URL: the host is non-empty,
lowercase and free of separators, the path opens with a slash and holds no
query or fragment characters, and the search is empty or a question mark
followed by a non-empty fragment-free query. -/
theorem parseUrl_some_props (url : Str) (parts : UrlParts)
    (h : parseUrl url = some parts) :
    (∀ c ∈ parts.host, urlSepChar c = false) ∧ parts.host ≠ [] ∧
    toLowerStr parts.host = parts.host ∧
    parts.pathname.head? = some '/' ∧
    (∀ c ∈ parts.pathname, ¬(c = '?' ∨ c = '#')) ∧
    (parts.search = [] ∨ ∃ q, parts.search = '?' :: q ∧ q ≠ [] ∧ ('#') ∉ q) := by
  unfold parseUrl at h
  cases hsp : splitSeq? ("://".data) url with
  | none => rw [hsp] at h; simp at h
  | some p =>
    rw [hsp, Option.some_bind] at h
    unfold parseUrlParts at h
    by_cases h1 : p.1 = []
    · rw [if_pos h1] at h; simp at h
    rw [if_neg h1] at h
    by_cases h2 : p.1.any urlSepChar = true
    · rw [if_pos h2] at h; simp at h
    rw [if_neg h2] at h
    by_cases h3 : p.2.takeWhile (fun c => !urlSepChar c) = []
    · rw [if_pos h3] at h; simp at h
    rw [if_neg h3] at h
    have hparts := (Option.some.inj h).symm
    subst hparts
    dsimp only
    refine ⟨?_, ?_, toLowerStr_idem _, ?_, ?_, ?_⟩
    · intro c hc
      rcases List.mem_map.mp hc with ⟨d, hd, rfl⟩
      have := List.mem_takeWhile_imp hd
      rw [urlSepChar_toLower]
      simpa using this
    · intro h0
      exact h3 (List.map_eq_nil_iff.mp h0)
    · unfold urlPathname
      dsimp only
      by_cases h4 : (p.2.dropWhile (fun c => !urlSepChar c)).takeWhile
          (fun c => !(decide (c = '?') || decide (c = '#'))) = []
      · rw [if_pos h4]; rfl
      · rw [if_neg h4]
        cases hp0 : (p.2.dropWhile (fun c => !urlSepChar c)).takeWhile
            (fun c => !(decide (c = '?') || decide (c = '#'))) with
        | nil => exact absurd hp0 h4
        | cons d t =>
          have hdmem : d ∈ (p.2.dropWhile (fun c => !urlSepChar c)).takeWhile
              (fun c => !(decide (c = '?') || decide (c = '#'))) := by
            rw [hp0]; exact List.mem_cons_self _ _
          have hd1 := List.mem_takeWhile_imp hdmem
          have hd2 : (p.2.dropWhile (fun c => !urlSepChar c)).head? = some d :=
            head?_takeWhile _ _ _ (by rw [hp0]; rfl)
          have hd3 := head_dropWhile_false _ _ _ hd2
          have hd4 : urlSepChar d = true := by
            revert hd3; cases urlSepChar d <;> simp
          rcases urlSepChar_cases d hd4 with h5 | h5 | h5
          · rw [h5]; rfl
          · rw [h5] at hd1; simp at hd1
          · rw [h5] at hd1; simp at hd1
    · unfold urlPathname
      dsimp only
      by_cases h4 : (p.2.dropWhile (fun c => !urlSepChar c)).takeWhile
          (fun c => !(decide (c = '?') || decide (c = '#'))) = []
      · rw [if_pos h4]
        intro c hc
        have : c = '/' := by simpa using hc
        subst this
        decide
      · rw [if_neg h4]
        intro c hc
        have := List.mem_takeWhile_imp hc
        simp only [Bool.not_eq_true', Bool.or_eq_false_iff,
          decide_eq_false_iff_not] at this
        tauto
    · unfold urlSearch
      dsimp only
      by_cases h4 : queryOf ((p.2.dropWhile (fun c => !urlSepChar c)).dropWhile
          (fun c => !(decide (c = '?') || decide (c = '#')))) = []
      · rw [if_pos h4]
        exact Or.inl rfl
      · rw [if_neg h4]
        refine Or.inr ⟨_, rfl, h4, ?_⟩
        intro hmem
        unfold queryOf at hmem
        by_cases h5 : ((p.2.dropWhile (fun c => !urlSepChar c)).dropWhile
            (fun c => !(decide (c = '?') || decide (c = '#')))).head? = some '?'
        · rw [if_pos h5] at hmem
          have := List.mem_takeWhile_imp hmem
          simp at this
        · rw [if_neg h5] at hmem
          simp at hmem

/-- The normalized path of parsed parts whose pathname opens with a slash
and has no query or fragment characters: same properties plus
collapsedness. -/
theorem nuPath_props (parts : UrlParts)
    (hph : parts.pathname.head? = some '/')
    (hpm : ∀ c ∈ parts.pathname, ¬(c = '?' ∨ c = '#')) :
    (nuPath parts).head? = some '/' ∧
    (∀ c ∈ nuPath parts, ¬(c = '?' ∨ c = '#')) ∧
    collapsedB (nuPath parts) = true := by
  have hcne : collapseSlashes parts.pathname ≠ [] := by
    intro h0
    have h1 := head?_collapseSlashes _ _ hph
    rw [h0] at h1; simp at h1
  have hChead : (collapseSlashes parts.pathname).head? = some '/' :=
    head?_collapseSlashes _ _ hph
  have hCmem : ∀ c ∈ collapseSlashes parts.pathname, ¬(c = '?' ∨ c = '#') :=
    fun c hc => hpm c (mem_collapseSlashesGo _ _ _ hc)
  have hCcol : collapsedB (collapseSlashes parts.pathname) = true :=
    collapsedB_collapseSlashes _
  unfold nuPath
  dsimp only
  rw [if_neg hcne]
  by_cases hmd : endsWithStr (".md".data) (toLowerStr (collapseSlashes parts.pathname))
      = true
  · rw [if_pos hmd]
    have hsuf : (".md".data) <:+ toLowerStr (collapseSlashes parts.pathname) :=
      of_decide_eq_true hmd
    have hmd3 : (".md".data).length = 3 := rfl
    have hlen : 4 ≤ (collapseSlashes parts.pathname).length := by
      have h3le := hsuf.length_le
      rw [toLowerStr_length, hmd3] at h3le
      by_contra hlt
      have heq : toLowerStr (collapseSlashes parts.pathname) = (".md".data) :=
        (hsuf.eq_of_length (by rw [toLowerStr_length, hmd3]; omega)).symm
      have hh := congrArg List.head? heq
      rw [toLowerStr_head?, hChead] at hh
      simp at hh
    unfold dropLastN
    refine ⟨?_, ?_, ?_⟩
    · exact head?_take_pos _ _ _ hChead (by omega)
    · intro c hc
      exact hCmem c (List.mem_of_mem_take hc)
    · exact collapsedB_take _ _ hCcol
  · rw [if_neg hmd]
    exact ⟨hChead, hCmem, hCcol⟩

/-- Shape of every `normalizeUrl` output: a lowercase `http`/`https`
scheme, a lowercase separator-free host, a collapsed slash-led path, an
optional non-empty query, with one trailing slash stripped. -/
theorem normalizeUrl_some_shape (url y : Str) (h : normalizeUrl url = some y) :
    ∃ ST host path2 srch,
      (ST = ("http".data) ∨ ST = ("https".data)) ∧
      (∀ c ∈ host, urlSepChar c = false) ∧ host ≠ [] ∧ toLowerStr host = host ∧
      path2.head? = some '/' ∧
      (∀ c ∈ path2, ¬(c = '?' ∨ c = '#')) ∧
      collapsedB path2 = true ∧
      (srch = [] ∨ ∃ q, srch = '?' :: q ∧ q ≠ [] ∧ ('#') ∉ q) ∧
      y = (if (ST ++ ("://".data) ++ host ++ path2 ++ srch).getLast? = some '/'
           then (ST ++ ("://".data) ++ host ++ path2 ++ srch).dropLast
           else ST ++ ("://".data) ++ host ++ path2 ++ srch) := by
  unfold normalizeUrl at h
  cases hsp : parseUrl url with
  | none => rw [hsp] at h; simp at h
  | some parsed =>
    rw [hsp, Option.some_bind] at h
    unfold normalizeParsed at h
    by_cases hprot : parsed.protocol = ("http:".data) ∨
        parsed.protocol = ("https:".data)
    swap
    · rw [if_pos hprot] at h; simp at h
    rw [if_neg (not_not_intro hprot)] at h
    obtain ⟨hhost, hhne, hhlow, hph, hpm, hsearch⟩ := parseUrl_some_props url parsed hsp
    obtain ⟨hp2h, hp2m, hp2c⟩ := nuPath_props parsed hph hpm
    have hST : nuScheme parsed = ("http".data) ∨ nuScheme parsed = ("https".data) := by
      rcases hprot with hp | hp
      · exact Or.inl (by unfold nuScheme; rw [hp]; decide)
      · exact Or.inr (by unfold nuScheme; rw [hp]; decide)
    have hnorm : nuNormalized parsed
        = nuScheme parsed ++ ("://".data) ++ parsed.host ++ nuPath parsed
          ++ parsed.search := by
      unfold nuNormalized
      dsimp only
      rw [hhlow]
      rcases hsearch with hS | ⟨q, hS, hqne, -⟩
      · rw [hS, if_neg (show ¬(([] : Str) ≠ []) from not_not_intro rfl),
          List.append_nil]
      · rw [hS, if_pos (show ('?' :: q : Str) ≠ [] from List.cons_ne_nil _ _)]
    have hp2ne : nuPath parsed ≠ [] := by
      intro h0; rw [h0] at hp2h; simp at hp2h
    have hlen : 5 ≤ (nuNormalized parsed).length := by
      rw [hnorm]
      simp only [List.length_append]
      have hh1 : 1 ≤ parsed.host.length := List.length_pos.mpr hhne
      have hh2 : 1 ≤ (nuPath parsed).length := List.length_pos.mpr hp2ne
      have hh3 : ("://".data).length = 3 := rfl
      rcases hST with hp | hp <;> · rw [hp]; simp only [hh3]; omega
    have hresne : nuResult parsed ≠ [] := by
      unfold nuResult
      by_cases hx : (nuNormalized parsed).getLast? = some '/'
      · rw [if_pos hx]
        apply List.ne_nil_of_length_pos
        rw [List.length_dropLast]
        omega
      · rw [if_neg hx]
        apply List.ne_nil_of_length_pos
        omega
    rw [if_neg hresne] at h
    have hy : y = nuResult parsed := (Option.some.inj h).symm
    refine ⟨nuScheme parsed, parsed.host, nuPath parsed, parsed.search,
      hST, hhost, hhne, hhlow, hp2h, hp2m, hp2c, hsearch, ?_⟩
    rw [hy]
    unfold nuResult
    rw [hnorm]
/-- C6 (amended): `normalizeUrl` is idempotent on every output `y` whose
pre-query part does not end in `.md` case-insensitively and whose last
character is neither `?` nor `/`.  (The three excluded situations are
real: stripping `.md` can expose another `.md`, the trailing-slash strip
can reduce a query to a bare `?` that the re-parse drops, and it shortens
a slash run at the end of a query by only one character; see the
counterexamples.) -/
theorem normalizeUrl_conditional_idempotence (url y : Str)
    (h : normalizeUrl url = some y)
    (hmd : endsWithStr (".md".data)
      (toLowerStr (y.takeWhile (fun c => decide (c ≠ '?')))) = false)
    (hq : y.getLast? ≠ some '?')
    (hsl : y.getLast? ≠ some '/') :
    normalizeUrl y = some y := by
  obtain ⟨ST, host, path2, srch, hST, hhost, hhne, hhlow, hph, hpmem, hpcol, hsrch, hy⟩ :=
    normalizeUrl_some_shape url y h
  have hp2ne : path2 ≠ [] := by
    intro h0; rw [h0] at hph; simp at hph
  have hnoq : ∀ c ∈ ST ++ ("://".data) ++ host ++ path2,
      (fun c => decide (c ≠ '?')) c = true := by
    intro c hc
    simp only [decide_eq_true_eq]
    rcases List.mem_append.mp hc with hc1 | hc1
    · rcases List.mem_append.mp hc1 with hc2 | hc2
      · rcases List.mem_append.mp hc2 with hc3 | hc3
        · rcases hST with rfl | rfl <;> · intro he; subst he; revert hc3; decide
        · intro he; subst he; revert hc3; decide
      · intro he; subst he
        exact absurd (hhost '?' hc2) (by decide)
    · exact fun he => (hpmem c hc1) (Or.inl he)
  rcases hsrch with rfl | ⟨q, rfl, hqne, hqh⟩
  · -- no query
    simp only [List.append_nil] at hy
    by_cases hsl2 : (ST ++ ("://".data) ++ host ++ path2).getLast? = some '/'
    · -- the trailing slash of the path was stripped
      rw [if_pos hsl2] at hy
      rw [List.dropLast_append_of_ne_nil _ hp2ne] at hy
      rw [getLast?_append_right _ _ hp2ne] at hsl2
      by_cases hp3 : path2.dropLast = []
      · rw [hp3, List.append_nil] at hy
        subst hy
        exact normalizeUrl_bare ST host hST hhost hhne hhlow
      · subst hy
        have hlen2 : 1 ≤ path2.length - 1 := by
          have h0 := List.length_pos.mpr hp3
          rw [List.length_dropLast] at h0
          omega
        have hh3 : (path2.dropLast).head? = some '/' := by
          rw [List.dropLast_eq_take]
          exact head?_take_pos _ _ _ hph hlen2
        have hmem3 : ∀ c ∈ path2.dropLast, ¬(c = '?' ∨ c = '#') :=
          fun c hc => hpmem c (List.mem_of_mem_dropLast hc)
        have hC3 : collapsedB (path2.dropLast) = true := by
          rw [List.dropLast_eq_take]
          exact collapsedB_take _ _ hpcol
        have hlast3 : ∀ d, (path2.dropLast).getLast? = some d → d ≠ '/' :=
          collapsedB_dropLast_getLast path2 hpcol hsl2
        have hyq : ∀ c ∈ ST ++ ("://".data) ++ host ++ path2.dropLast,
            (fun c => decide (c ≠ '?')) c = true := by
          intro c hc
          refine hnoq c ?_
          rcases List.mem_append.mp hc with hc1 | hc1
          · exact List.mem_append_left _ hc1
          · exact List.mem_append_right _ (List.mem_of_mem_dropLast hc1)
        rw [List.takeWhile_eq_self_iff.mpr hyq] at hmd
        have hmd3 : endsWithStr (".md".data) (toLowerStr (path2.dropLast))
            = false := by
          cases hE : endsWithStr (".md".data) (toLowerStr (path2.dropLast)) with
          | false => rfl
          | true =>
            exfalso
            have hsuf : (".md".data) <:+ toLowerStr (path2.dropLast) :=
              of_decide_eq_true hE
            have hsuf2 : (".md".data) <:+
                toLowerStr (ST ++ ("://".data) ++ host ++ path2.dropLast) := by
              rw [toLowerStr_append]
              exact hsuf.trans (List.suffix_append _ _)
            have hT : endsWithStr (".md".data) _ = true := decide_eq_true hsuf2
            rw [hT] at hmd
            simp at hmd
        have hcc := normalizeUrl_canonical ST host (path2.dropLast) [] hST hhost
          hhne hhlow hh3 hmem3 hC3 (fun _ => hlast3) hmd3 (Or.inl rfl)
        rw [if_pos rfl] at hcc
        simp only [List.append_nil] at hcc
        exact hcc
    · rw [if_neg hsl2] at hy
      subst hy
      have hlast2 : ∀ d, path2.getLast? = some d → d ≠ '/' := by
        intro d hd he
        subst he
        exact hsl2 (by rw [getLast?_append_right _ _ hp2ne]; exact hd)
      rw [List.takeWhile_eq_self_iff.mpr hnoq] at hmd
      have hmd2 : endsWithStr (".md".data) (toLowerStr path2) = false := by
        cases hE : endsWithStr (".md".data) (toLowerStr path2) with
        | false => rfl
        | true =>
          exfalso
          have hsuf : (".md".data) <:+ toLowerStr path2 := of_decide_eq_true hE
          have hsuf2 : (".md".data) <:+
              toLowerStr (ST ++ ("://".data) ++ host ++ path2) := by
            rw [toLowerStr_append]
            exact hsuf.trans (List.suffix_append _ _)
          have hT : endsWithStr (".md".data) _ = true := decide_eq_true hsuf2
          rw [hT] at hmd
          simp at hmd
      have hcc := normalizeUrl_canonical ST host path2 [] hST hhost hhne hhlow
        hph hpmem hpcol (fun _ => hlast2) hmd2 (Or.inl rfl)
      rw [if_pos rfl] at hcc
      simp only [List.append_nil] at hcc
      exact hcc
  · -- a query is present
    by_cases hsl2 : (ST ++ ("://".data) ++ host ++ path2 ++ '?' :: q).getLast?
        = some '/'
    · rw [if_pos hsl2] at hy
      rw [List.dropLast_append_of_ne_nil _ (List.cons_ne_nil '?' q)] at hy
      obtain ⟨a, t, rfl⟩ : ∃ a t, q = a :: t := by
        cases q with
        | nil => exact absurd rfl hqne
        | cons a t => exact ⟨a, t, rfl⟩
      rw [show (('?' :: a :: t : Str)).dropLast = '?' :: (a :: t).dropLast
        from rfl] at hy
      by_cases hq3 : (a :: t).dropLast = []
      · rw [hq3] at hy
        subst hy
        exact absurd (by rw [getLast?_append_right _ _ (List.cons_ne_nil '?' [])]
                         rfl) hq
      · subst hy
        have hq3last : ∀ d, ((a :: t).dropLast).getLast? = some d → d ≠ '/' := by
          intro d hd he
          subst he
          refine hsl ?_
          rw [getLast?_append_right _ _ (List.cons_ne_nil '?' _)]
          rw [show ('?' :: (a :: t).dropLast : Str) = ['?'] ++ (a :: t).dropLast
            from rfl]
          rw [getLast?_append_right _ _ hq3]
          exact hd
        have hq3h : ('#') ∉ (a :: t).dropLast :=
          fun hm => hqh (List.mem_of_mem_dropLast hm)
        rw [takeWhile_append_all _ _ _ hnoq (fun c hc => by
          have h0 : '?' = c := Option.some.inj hc
          subst h0
          rfl)] at hmd
        have hmd2 : endsWithStr (".md".data) (toLowerStr path2) = false := by
          cases hE : endsWithStr (".md".data) (toLowerStr path2) with
          | false => rfl
          | true =>
            exfalso
            have hsuf : (".md".data) <:+ toLowerStr path2 := of_decide_eq_true hE
            have hsuf2 : (".md".data) <:+
                toLowerStr (ST ++ ("://".data) ++ host ++ path2) := by
              rw [toLowerStr_append]
              exact hsuf.trans (List.suffix_append _ _)
            have hT : endsWithStr (".md".data) _ = true := decide_eq_true hsuf2
            rw [hT] at hmd
            simp at hmd
        have hcc := normalizeUrl_canonical ST host path2 ((a :: t).dropLast) hST
          hhost hhne hhlow hph hpmem hpcol (fun h0 => absurd h0 hq3) hmd2
          (Or.inr ⟨hq3, hq3h, hq3last⟩)
        rw [if_neg hq3] at hcc
        exact hcc
    · rw [if_neg hsl2] at hy
      subst hy
      have hqlast : ∀ d, q.getLast? = some d → d ≠ '/' := by
        intro d hd he
        subst he
        refine hsl ?_
        rw [getLast?_append_right _ _ (List.cons_ne_nil '?' q)]
        rw [show ('?' :: q : Str) = ['?'] ++ q from rfl]
        rw [getLast?_append_right _ _ hqne]
        exact hd
      rw [takeWhile_append_all _ _ _ hnoq (fun c hc => by
        have h0 : '?' = c := Option.some.inj hc
        subst h0
        rfl)] at hmd
      have hmd2 : endsWithStr (".md".data) (toLowerStr path2) = false := by
        cases hE : endsWithStr (".md".data) (toLowerStr path2) with
        | false => rfl
        | true =>
          exfalso
          have hsuf : (".md".data) <:+ toLowerStr path2 := of_decide_eq_true hE
          have hsuf2 : (".md".data) <:+
              toLowerStr (ST ++ ("://".data) ++ host ++ path2) := by
            rw [toLowerStr_append]
            exact hsuf.trans (List.suffix_append _ _)
          have hT : endsWithStr (".md".data) _ = true := decide_eq_true hsuf2
          rw [hT] at hmd
          simp at hmd
      have hcc := normalizeUrl_canonical ST host path2 q hST hhost hhne hhlow
        hph hpmem hpcol (fun h0 => absurd h0 hqne) hmd2
        (Or.inr ⟨hqne, hqh, hqlast⟩)
      rw [if_neg hqne] at hcc
      exact hcc

/-- Witness for the amended C6 idempotence at a concrete input: the
crawler output of `http://A//b.md?q` is a fixpoint of `normalizeUrl`. -/
theorem normalizeUrl_conditional_idempotence_witness :
    normalizeUrl (("http://a/b?q").data) = some (("http://a/b?q").data) :=
  normalizeUrl_conditional_idempotence (("http://A//b.md?q").data)
    (("http://a/b?q").data) (by decide) (by decide) (by decide) (by decide)
end Librarian
